import Mathlib

/-!
# Arbitrary algebraic-expression evaluation (RedisGraph)

A shallow embedding of
`src/arithmetic/algebraic_expression/algebraic_expression_eval_total.c`:
the recursive evaluator that walks a tree of Multiply / Add / Transpose
operations over boolean adjacency matrices and executes it on a GraphBLAS
backend, threading the destination matrix `res` and the scratch matrix
`inter`.

Matrices are referred to by handle.  The backend state maps handles to matrix
contents, hands out fresh handles, and records every primitive that was
issued.  All matrices have one shape, `n`-by-`n`.

The file also embeds the interval utilities of `src/util/range`
(`numeric_range.c` and `string_range.c`).
-/

namespace RedisGraph

/-! ## Boolean matrices -/

/-- An `n`-by-`n` boolean matrix, given by the pattern of its stored entries. -/
abbrev Mat (n : Nat) := Fin n → Fin n → Bool

namespace Mat

variable {n : Nat}

/-- The matrix with no stored entry. -/
def zero : Mat n := fun _ _ => false

/-- The square identity. -/
def one : Mat n := fun i j => decide (i = j)

/-- Transposition. -/
def transpose (A : Mat n) : Mat n := fun i j => A j i

/-- Element-wise OR. -/
def eWiseAdd (A B : Mat n) : Mat n := fun i j => A i j || B i j

/-- Matrix product over the boolean semiring (AND for times, OR for plus). -/
def mxm (A B : Mat n) : Mat n :=
  fun i j => (List.finRange n).any fun k => A i k && B k j

/-- Number of stored entries. -/
def nvals (A : Mat n) : Nat :=
  ((List.finRange n).map fun i => (List.finRange n).countP fun j => A i j).sum

/-- An input as seen through a descriptor slot: transposed when the slot is
set to `GrB_TRAN`. -/
def tran (t : Bool) (A : Mat n) : Mat n := if t then A.transpose else A

end Mat

/-! ## The matrix backend -/

/-- Modelled from the spec: a matrix handle (`GrB_Matrix`).  It is either the
identity sentinel `IDENTITY_MATRIX`, a distinguished value that is never a
materialized matrix and is recognised by identity, or a pointer to a backend
object. -/
inductive GrB_Matrix
  | IDENTITY_MATRIX
  | ptr (addr : Nat)
  deriving DecidableEq

/-- Modelled from the spec: a descriptor with two independent slots; `true`
stands for `GrB_TRAN`, `false` for `GxB_DEFAULT`. -/
structure GrB_Descriptor where
  INP0 : Bool
  INP1 : Bool
  deriving DecidableEq

/-- One backend primitive as issued by the evaluator.  A descriptor argument of
`none` is `GrB_NULL`. -/
inductive Call
  | Matrix_new (h : GrB_Matrix)
  | Matrix_free (h : GrB_Matrix)
  | transpose (C A : GrB_Matrix)
  | eWiseAdd (C A B : GrB_Matrix) (desc : Option GrB_Descriptor)
  | mxm (C A B : GrB_Matrix) (desc : Option GrB_Descriptor)
  | apply (C A : GrB_Matrix) (desc : Option GrB_Descriptor)
  deriving DecidableEq

/-- Backend state: the content of every live matrix object, the next unused
address, and the primitives issued so far (oldest first). -/
structure Backend (n : Nat) where
  heap : Nat → Option (Mat n)
  next : Nat
  log : List Call

/-- Ways an evaluation stops without returning.  The first three are failed
assertions of the evaluator, told apart by the assertion that failed:
`MalformedTree` the one on the stripped right operand (lines 71 and 179),
`ChildCount` the one on the number of children of the node entered (lines 16, 29
and 134), `RootOperand` the one on the kind of the root (line 306).
`BackendError` is a backend primitive that was handed an object which is not a
live matrix, `OutOfBounds` a read of `children[0]` in an empty child array,
`OutOfFuel` the recursion bound of this embedding. -/
inductive Fault
  | MalformedTree
  | ChildCount
  | RootOperand
  | BackendError
  | OutOfBounds
  | OutOfFuel
  deriving DecidableEq

/-- Result of running a piece of the evaluator: a value and the backend state,
or an abort together with the backend state reached. -/
inductive Outcome (n : Nat) (α : Type)
  | ok (val : α) (st : Backend n)
  | abort (f : Fault) (st : Backend n)

namespace Outcome

variable {n : Nat} {α β : Type}

/-- Sequencing: continue with the value and state of a completed step. -/
def bind (o : Outcome n α) (k : α → Backend n → Outcome n β) : Outcome n β :=
  match o with
  | .ok v st => k v st
  | .abort f st => .abort f st

/-- The backend state an outcome ends in. -/
def state : Outcome n α → Backend n
  | .ok _ st => st
  | .abort _ st => st

/-- The returned value, when the run completed. -/
def value? : Outcome n α → Option α
  | .ok v _ => some v
  | .abort _ _ => none

/-- The fault, when the run aborted. -/
def fault? : Outcome n α → Option Fault
  | .ok _ _ => none
  | .abort f _ => some f

end Outcome

namespace Backend

variable {n : Nat}

/-- Content of the object behind a handle; `none` when the handle is the
identity sentinel or does not point to a live matrix. -/
def get (st : Backend n) : GrB_Matrix → Option (Mat n)
  | .IDENTITY_MATRIX => none
  | .ptr a => st.heap a

/-- Overwrite the content of the object behind a handle. -/
def set (st : Backend n) (h : GrB_Matrix) (M : Mat n) : Backend n :=
  match h with
  | .IDENTITY_MATRIX => st
  | .ptr a => { st with heap := Function.update st.heap a (some M) }

/-- Append a primitive to the log. -/
def record (st : Backend n) (c : Call) : Backend n :=
  { st with log := st.log ++ [c] }

end Backend

section Primitives

variable {n : Nat}

/-- Transposition requested by descriptor slot `INP0`. -/
def descINP0 : Option GrB_Descriptor → Bool
  | none => false
  | some d => d.INP0

/-- Transposition requested by descriptor slot `INP1`. -/
def descINP1 : Option GrB_Descriptor → Bool
  | none => false
  | some d => d.INP1

/-- Modelled from the spec: `GrB_Matrix_new`, allocate an empty boolean matrix at
a fresh address. -/
def GrB_Matrix_new (st : Backend n) : Outcome n GrB_Matrix :=
  .ok (.ptr st.next)
    { heap := Function.update st.heap st.next (some Mat.zero)
      next := st.next + 1
      log := st.log ++ [.Matrix_new (.ptr st.next)] }

/-- Modelled from the spec: `GrB_Matrix_free`, release a matrix object. -/
def GrB_Matrix_free (h : GrB_Matrix) (st : Backend n) : Outcome n Unit :=
  match h with
  | .IDENTITY_MATRIX => .abort .BackendError (st.record (.Matrix_free h))
  | .ptr a =>
    .ok () { st with heap := Function.update st.heap a none
                     log := st.log ++ [.Matrix_free h] }

/-- Modelled from the spec: `GrB_Matrix_nrows` / `GrB_Matrix_ncols`, the shape
query; every live matrix is `n`-by-`n`. -/
def GrB_Matrix_nrows (h : GrB_Matrix) (st : Backend n) : Outcome n Nat :=
  match st.get h with
  | some _ => .ok n st
  | none => .abort .BackendError st

/-- Modelled from the spec: `GrB_Matrix_nvals`, the number of stored entries. -/
def GrB_Matrix_nvals (h : GrB_Matrix) (st : Backend n) : Outcome n Nat :=
  match st.get h with
  | some M => .ok M.nvals st
  | none => .abort .BackendError st

/-- Modelled from the spec: `GrB_transpose (C, NULL, NULL, A, NULL)`,
`C := Aᵀ`. -/
def GrB_transpose (C A : GrB_Matrix) (st : Backend n) : Outcome n Unit :=
  match st.get C, st.get A with
  | some _, some a => .ok () ((st.record (.transpose C A)).set C a.transpose)
  | _, _ => .abort .BackendError (st.record (.transpose C A))

/-- Modelled from the spec: `GrB_eWiseAdd_Matrix_Semiring` under
`GxB_ANY_PAIR_BOOL`, `C := A ∨ B` with each input read through its descriptor
slot. -/
def GrB_eWiseAdd_Matrix_Semiring (C A B : GrB_Matrix) (desc : Option GrB_Descriptor)
    (st : Backend n) : Outcome n Unit :=
  match st.get C, st.get A, st.get B with
  | some _, some a, some b =>
    .ok () ((st.record (.eWiseAdd C A B desc)).set C
      (Mat.eWiseAdd (Mat.tran (descINP0 desc) a) (Mat.tran (descINP1 desc) b)))
  | _, _, _ => .abort .BackendError (st.record (.eWiseAdd C A B desc))

/-- Modelled from the spec: `GrB_mxm` under `GxB_ANY_PAIR_BOOL`, `C := A · B`
with each input read through its descriptor slot. -/
def GrB_mxm (C A B : GrB_Matrix) (desc : Option GrB_Descriptor)
    (st : Backend n) : Outcome n Unit :=
  match st.get C, st.get A, st.get B with
  | some _, some a, some b =>
    .ok () ((st.record (.mxm C A B desc)).set C
      (Mat.mxm (Mat.tran (descINP0 desc) a) (Mat.tran (descINP1 desc) b)))
  | _, _, _ => .abort .BackendError (st.record (.mxm C A B desc))

/-- Modelled from the spec: `GrB_Matrix_apply` with `GrB_IDENTITY_BOOL`, a copy
of `A` into `C`, transposed when slot `INP0` says so. -/
def GrB_Matrix_apply (C A : GrB_Matrix) (desc : Option GrB_Descriptor)
    (st : Backend n) : Outcome n Unit :=
  match st.get C, st.get A with
  | some _, some a =>
    .ok () ((st.record (.apply C A desc)).set C (Mat.tran (descINP0 desc) a))
  | _, _ => .abort .BackendError (st.record (.apply C A desc))

end Primitives

/-! ## Expression trees -/

/-- Operator of an operation node. -/
inductive AL_EXP_OP
  | AL_EXP_ADD
  | AL_EXP_MUL
  | AL_EXP_TRANSPOSE
  deriving DecidableEq

/-- Expression node: an operand carrying its (already fetched) matrix handle,
or an operation over an ordered sequence of children. -/
inductive AlgebraicExpression
  | operand (matrix : GrB_Matrix)
  | operation (op : AL_EXP_OP) (children : List AlgebraicExpression)

/-- Modelled from the spec: `AlgebraicExpression_ChildCount`, the number of
children of an operation node and `0` for an operand. -/
def AlgebraicExpression_ChildCount : AlgebraicExpression → Nat
  | .operand _ => 0
  | .operation _ children => children.length

/-- Modelled from the spec: `CHILD_AT (exp, i)`, i.e.
`exp->operation.children[i]`; `none` stands for a read past the end. -/
def CHILD_AT : AlgebraicExpression → Nat → Option AlgebraicExpression
  | .operand _, _ => none
  | .operation _ children, i => children.get? i

/-- Modelled from the spec: `FIRST_CHILD (exp)`, the child at index `0`. -/
def FIRST_CHILD (exp : AlgebraicExpression) : Option AlgebraicExpression :=
  CHILD_AT exp 0

mutual
/-- Height of a tree; an operand has height `0`. -/
def AlgebraicExpression.depth : AlgebraicExpression → Nat
  | .operand _ => 0
  | .operation _ children => depthList children + 1
/-- Largest height among a sequence of trees. -/
def depthList : List AlgebraicExpression → Nat
  | [] => 0
  | c :: cs => max c.depth (depthList cs)
end

/-! ## The evaluator -/

section Evaluator

variable {n : Nat}

/-- The recursive evaluator as seen from inside one activation. -/
abbrev Eval (n : Nat) := AlgebraicExpression → GrB_Matrix → Backend n → Outcome n GrB_Matrix

/-- `_Eval_TransposeArbitrary` (lines 14-26). -/
def _Eval_TransposeArbitrary (ev : Eval n) (exp : AlgebraicExpression) (res : GrB_Matrix)
    (st : Backend n) : Outcome n GrB_Matrix :=
  if AlgebraicExpression_ChildCount exp ≠ 1 then .abort .ChildCount st else
  match FIRST_CHILD exp with
  | none => .abort .OutOfBounds st
  | some child =>
    (match child with
      | .operation _ _ => ev child res st
      | .operand _ => .ok res st).bind fun _ st =>
    (GrB_transpose res res st).bind fun _ st =>
    .ok res st

/-- Left operand of `_Eval_AddArbitrary` (lines 48-59) and of `_Eval_MulArbitrary`
(lines 151-162), which are the same text.  Returns the handle of the left
operand, whether slot `INP0` was set to `GrB_TRAN`, and `res_in_use`. -/
def resolveLeft (ev : Eval n) (left : AlgebraicExpression) (res : GrB_Matrix)
    (st : Backend n) : Outcome n (GrB_Matrix × Bool × Bool) :=
  match left with
  | .operand matrix => .ok (matrix, false, false) st
  | .operation op children =>
    if op = .AL_EXP_TRANSPOSE then
      match children.get? 0 with
      | none => .abort .OutOfBounds st
      | some c => (ev c res st).bind fun a st => .ok (a, true, true) st
    else
      (ev left res st).bind fun a st => .ok (a, false, true) st

/-- Right operand after a Transpose has been stripped: lines 68-86 of
`_Eval_AddArbitrary` and 176-194 of `_Eval_MulArbitrary`, which are the same
text.  Returns the handle of the right operand and `inter`. -/
def resolveRightStripped (ev : Eval n) (right : AlgebraicExpression) (a : GrB_Matrix)
    (res_in_use : Bool) (res : GrB_Matrix) (st : Backend n) :
    Outcome n (GrB_Matrix × Option GrB_Matrix) :=
  match right with
  | .operand matrix => .ok (matrix, none) st
  | .operation op _ =>
    if op = .AL_EXP_TRANSPOSE then .abort .MalformedTree st
    else if res_in_use then
      (GrB_Matrix_nrows a st).bind fun _ st =>
      (GrB_Matrix_nrows a st).bind fun _ st =>
      (GrB_Matrix_new st).bind fun inter st =>
      (ev right inter st).bind fun b st => .ok (b, some inter) st
    else
      (ev right res st).bind fun b st => .ok (b, none) st

/-- Right operand of `_Eval_AddArbitrary` (lines 63-86) and of
`_Eval_MulArbitrary` (lines 171-194).  Returns the handle of the right operand,
whether slot `INP1` was set to `GrB_TRAN`, and `inter`. -/
def resolveRight (ev : Eval n) (right : AlgebraicExpression) (a : GrB_Matrix)
    (res_in_use : Bool) (res : GrB_Matrix) (st : Backend n) :
    Outcome n (GrB_Matrix × Bool × Option GrB_Matrix) :=
  match right with
  | .operation .AL_EXP_TRANSPOSE children =>
    match children.get? 0 with
    | none => .abort .OutOfBounds st
    | some c =>
      (resolveRightStripped ev c a res_in_use res st).bind fun r st =>
      .ok (r.1, true, r.2) st
  | _ =>
    (resolveRightStripped ev right a res_in_use res st).bind fun r st =>
    .ok (r.1, false, r.2) st

/-- Provision of `inter` for an operand `i >= 2` (lines 111-116 and 237-242):
allocated with the shape of `res` when still `GrB_NULL`, reused otherwise. -/
def obtainInter (res : GrB_Matrix) (inter : Option GrB_Matrix) (st : Backend n) :
    Outcome n GrB_Matrix :=
  match inter with
  | none =>
    (GrB_Matrix_nrows res st).bind fun _ st =>
    (GrB_Matrix_nrows res st).bind fun _ st =>
    GrB_Matrix_new st
  | some h => .ok h st

/-- Operand `i >= 2` of a k-ary node: lines 103-118 of `_Eval_AddArbitrary` and
230-244 of `_Eval_MulArbitrary`.  Returns the handle of the operand, whether slot
`INP1` was set to `GrB_TRAN`, and `inter`. -/
def resolveNext (ev : Eval n) (right : AlgebraicExpression) (res : GrB_Matrix)
    (inter : Option GrB_Matrix) (st : Backend n) :
    Outcome n (GrB_Matrix × Bool × Option GrB_Matrix) :=
  match right with
  | .operand matrix => .ok (matrix, false, inter) st
  | .operation op _ =>
    (obtainInter res inter st).bind fun h st =>
    (ev right h st).bind fun b st =>
    .ok (b, decide (op = AL_EXP_OP.AL_EXP_TRANSPOSE), some h) st

/-- One pass of the loop of `_Eval_MulArbitrary` (lines 227-262), for child
`right`.  Returns `inter` and the value of `nvals` read at line 262. -/
def mulStep (ev : Eval n) (right : AlgebraicExpression) (res : GrB_Matrix)
    (inter : Option GrB_Matrix) (st : Backend n) : Outcome n (Option GrB_Matrix × Nat) :=
  (resolveNext ev right res inter st).bind fun r st =>
  (if r.1 ≠ .IDENTITY_MATRIX then
      GrB_mxm res res r.1 (some { INP0 := false, INP1 := r.2.1 }) st
    else .ok () st).bind fun _ st =>
  (GrB_Matrix_nvals res st).bind fun nvals st =>
  .ok (r.2.2, nvals) st

/-- The loop of `_Eval_MulArbitrary` over the children from index 2 on
(lines 226-264); it leaves at the first pass after which `nvals` is `0`. -/
def mulLoop (ev : Eval n) (res : GrB_Matrix) :
    List AlgebraicExpression → Option GrB_Matrix → Backend n → Outcome n (Option GrB_Matrix)
  | [], inter, st => .ok inter st
  | right :: rest, inter, st =>
    (mulStep ev right res inter st).bind fun r st =>
    if r.2 = 0 then .ok r.1 st else mulLoop ev res rest r.1 st

/-- One pass of the loop of `_Eval_AddArbitrary` (lines 101-125), for child
`right`; the addition is issued with `GrB_NULL` as descriptor. -/
def addStep (ev : Eval n) (right : AlgebraicExpression) (res : GrB_Matrix)
    (inter : Option GrB_Matrix) (st : Backend n) : Outcome n (Option GrB_Matrix) :=
  (resolveNext ev right res inter st).bind fun r st =>
  (GrB_eWiseAdd_Matrix_Semiring res res r.1 none st).bind fun _ st =>
  .ok r.2.2 st

/-- The loop of `_Eval_AddArbitrary` over the children from index 2 on
(lines 100-126). -/
def addLoop (ev : Eval n) (res : GrB_Matrix) :
    List AlgebraicExpression → Option GrB_Matrix → Backend n → Outcome n (Option GrB_Matrix)
  | [], inter, st => .ok inter st
  | right :: rest, inter, st =>
    (addStep ev right res inter st).bind fun inter st =>
    addLoop ev res rest inter st

/-- Release of `inter` on exit (lines 128 and 266). -/
def freeInter (inter : Option GrB_Matrix) (st : Backend n) : Outcome n Unit :=
  match inter with
  | none => .ok () st
  | some h => GrB_Matrix_free h st

/-- `_Eval_AddArbitrary` (lines 28-131). -/
def _Eval_AddArbitrary (ev : Eval n) (exp : AlgebraicExpression) (res : GrB_Matrix)
    (st : Backend n) : Outcome n GrB_Matrix :=
  if ¬ (AlgebraicExpression_ChildCount exp > 1) then .abort .ChildCount st else
  match exp with
  | .operation _ (left :: right :: rest) =>
    (resolveLeft ev left res st).bind fun l st =>
    (resolveRight ev right l.1 l.2.2 res st).bind fun r st =>
    (GrB_eWiseAdd_Matrix_Semiring res l.1 r.1
      (some { INP0 := l.2.1, INP1 := r.2.1 }) st).bind fun _ st =>
    (addLoop ev res rest r.2.2 st).bind fun inter st =>
    (freeInter inter st).bind fun _ st =>
    .ok res st
  | _ => .abort .OutOfBounds st

/-- `_Eval_MulArbitrary` (lines 133-269).  The value of `nvals` read at line 220
is not used by the code before it is read again at line 262. -/
def _Eval_MulArbitrary (ev : Eval n) (exp : AlgebraicExpression) (res : GrB_Matrix)
    (st : Backend n) : Outcome n GrB_Matrix :=
  if ¬ (AlgebraicExpression_ChildCount exp > 1) then .abort .ChildCount st else
  match exp with
  | .operation _ (left :: right :: rest) =>
    (resolveLeft ev left res st).bind fun l st =>
    (resolveRight ev right l.1 l.2.2 res st).bind fun r st =>
    (if r.1 = .IDENTITY_MATRIX then
        GrB_Matrix_apply res l.1 (some { INP0 := l.2.1, INP1 := r.2.1 }) st
      else
        GrB_mxm res l.1 r.1 (some { INP0 := l.2.1, INP1 := r.2.1 }) st).bind fun _ st =>
    (GrB_Matrix_nvals res st).bind fun _ st =>
    (mulLoop ev res rest r.2.2 st).bind fun inter st =>
    (freeInter inter st).bind fun _ st =>
    .ok res st
  | _ => .abort .OutOfBounds st

/-- `_AlgebraicExpression_EvalArbitrary` (lines 271-302).  The first argument
bounds the nesting of recursive calls. -/
def _AlgebraicExpression_EvalArbitrary :
    Nat → AlgebraicExpression → GrB_Matrix → Backend n → Outcome n GrB_Matrix
  | 0, _, _, st => .abort .OutOfFuel st
  | fuel + 1, exp, res, st =>
    match exp with
    | .operation op _ =>
      match op with
      | .AL_EXP_MUL => _Eval_MulArbitrary (_AlgebraicExpression_EvalArbitrary fuel) exp res st
      | .AL_EXP_ADD => _Eval_AddArbitrary (_AlgebraicExpression_EvalArbitrary fuel) exp res st
      | .AL_EXP_TRANSPOSE =>
        _Eval_TransposeArbitrary (_AlgebraicExpression_EvalArbitrary fuel) exp res st
    | .operand matrix => .ok matrix st

/-- `AlgebraicExpression_EvalArbitrary` (lines 304-313), on a tree whose operands
have been fetched.  The recursion is given as many levels as the tree has. -/
def AlgebraicExpression_EvalArbitrary (exp : AlgebraicExpression) (res : GrB_Matrix)
    (st : Backend n) : Outcome n Unit :=
  match exp with
  | .operand _ => .abort .RootOperand st
  | .operation _ _ =>
    (_AlgebraicExpression_EvalArbitrary (exp.depth + 1) exp res st).bind fun _ st =>
    .ok () st

end Evaluator

/-! ## Denotation of a tree

The value a tree stands for, written from the specification: Multiply is the
left-to-right boolean product of the values of its children, Add their
element-wise OR, Transpose the transpose of the value of its child, and the
identity sentinel stands for the square identity. -/

section Denotation

variable {n : Nat}

/-- Left-to-right boolean product of a sequence of matrices. -/
def Mat.prod : List (Mat n) → Mat n
  | [] => Mat.one
  | M :: Ms => Ms.foldl Mat.mxm M

/-- Element-wise OR of a sequence of matrices. -/
def Mat.sum : List (Mat n) → Mat n
  | [] => Mat.zero
  | M :: Ms => Ms.foldl Mat.eWiseAdd M

/-- The matrix a handle stands for in a backend state: the content of the
object it points to, and the square identity for the identity sentinel. -/
def Backend.val (st : Backend n) : GrB_Matrix → Mat n
  | .IDENTITY_MATRIX => Mat.one
  | .ptr a => (st.heap a).getD Mat.zero

mutual
/-- The matrix a tree denotes when each operand handle stands for `V` of it. -/
def denote (V : GrB_Matrix → Mat n) : AlgebraicExpression → Mat n
  | .operand matrix => V matrix
  | .operation op children =>
    match op with
    | .AL_EXP_MUL => Mat.prod (denoteList V children)
    | .AL_EXP_ADD => Mat.sum (denoteList V children)
    | .AL_EXP_TRANSPOSE => (Mat.prod (denoteList V children)).transpose
/-- The matrices a sequence of trees denotes. -/
def denoteList (V : GrB_Matrix → Mat n) : List AlgebraicExpression → List (Mat n)
  | [] => []
  | c :: cs => denote V c :: denoteList V cs
end

mutual
/-- The operand handles of a tree, left to right. -/
def AlgebraicExpression.leaves : AlgebraicExpression → List GrB_Matrix
  | .operand matrix => [matrix]
  | .operation _ children => leavesList children
/-- The operand handles of a sequence of trees. -/
def leavesList : List AlgebraicExpression → List GrB_Matrix
  | [] => []
  | c :: cs => c.leaves ++ leavesList cs
end

mutual
/-- Trees built only from Multiply and Add nodes, each with at least two
children, over operand leaves other than the identity sentinel. -/
def AlgebraicExpression.isMulAdd : AlgebraicExpression → Bool
  | .operand matrix => decide (matrix ≠ GrB_Matrix.IDENTITY_MATRIX)
  | .operation op children =>
    decide (op ≠ AL_EXP_OP.AL_EXP_TRANSPOSE) && decide (2 ≤ children.length)
      && allMulAdd children
/-- Every tree of the sequence is such a tree. -/
def allMulAdd : List AlgebraicExpression → Bool
  | [] => true
  | c :: cs => c.isMulAdd && allMulAdd cs
end

/-- The handle points to a live matrix object below address `b`. -/
def Backend.liveBelow (st : Backend n) (b : Nat) : GrB_Matrix → Bool
  | .IDENTITY_MATRIX => false
  | .ptr a => decide (a < b) && (st.heap a).isSome

/-- The tree is an operation node. -/
def AlgebraicExpression.isOperation : AlgebraicExpression → Bool
  | .operand _ => false
  | .operation _ _ => true

end Denotation

/-! ## Accounting of primitives and shape of trees -/

section Accounting

variable {n : Nat}

/-- The object a primitive writes, allocates or releases. -/
def Call.target : Call → GrB_Matrix
  | .Matrix_new h => h
  | .Matrix_free h => h
  | .transpose C _ => C
  | .eWiseAdd C _ _ _ => C
  | .mxm C _ _ _ => C
  | .apply C _ _ => C

/-- The primitive is `GrB_Matrix_new`. -/
def Call.isNew : Call → Bool
  | .Matrix_new _ => true
  | _ => false

/-- The primitive is `GrB_Matrix_free`. -/
def Call.isFree : Call → Bool
  | .Matrix_free _ => true
  | _ => false

/-- Number of matrices allocated so far. -/
def Backend.allocated (st : Backend n) : Nat := st.log.countP Call.isNew

/-- Number of matrices released so far. -/
def Backend.freed (st : Backend n) : Nat := st.log.countP Call.isFree

/-- Whether `inter` holds a scratch matrix: `1` when it does, `0` when it is
`GrB_NULL`. -/
def pending : Option GrB_Matrix → Nat
  | none => 0
  | some _ => 1

mutual
/-- Every node of the tree has the number of children its operator asks for:
exactly one for Transpose, at least two for Multiply and Add. -/
def AlgebraicExpression.arityOK : AlgebraicExpression → Bool
  | .operand _ => true
  | .operation op children =>
    (match op with
      | .AL_EXP_TRANSPOSE => decide (children.length = 1)
      | _ => decide (2 ≤ children.length)) && arityOKList children
/-- Every tree of the sequence has the right numbers of children throughout. -/
def arityOKList : List AlgebraicExpression → Bool
  | [] => true
  | c :: cs => c.arityOK && arityOKList cs
end

/-- The fault is one of the assertions on the shape of the tree: the child count
of the node entered (lines 16, 29, 134) or the kind of the root (line 306). -/
def Fault.isShape : Fault → Bool
  | .ChildCount => true
  | .RootOperand => true
  | _ => false

/-- The node has the number of children its operator asks for. -/
def nodeArityOK (op : AL_EXP_OP) (children : List AlgebraicExpression) : Bool :=
  match op with
  | .AL_EXP_TRANSPOSE => decide (children.length = 1)
  | _ => decide (2 ≤ children.length)

/-- The handles of a sequence other than the identity sentinel. -/
def nonIdentity (ms : List GrB_Matrix) : List GrB_Matrix :=
  ms.filter fun m => decide (m ≠ GrB_Matrix.IDENTITY_MATRIX)

/-- A run of top-level evaluations, each started in the state the one before it
ended in. -/
def evalSequence : List (AlgebraicExpression × GrB_Matrix) → Backend n → Outcome n Unit
  | [], st => .ok () st
  | job :: rest, st =>
    (AlgebraicExpression_EvalArbitrary job.1 job.2 st).bind fun _ st => evalSequence rest st

end Accounting

/-! ## Range utilities (`util/range`) -/

section Ranges

/-- Modelled from the spec: the comparison tokens of `parser/grammar.h` on which
the range utilities switch; `OTHER` stands for every other value of the `int op`
argument. -/
inductive RangeOp
  | LT
  | LE
  | GT
  | GE
  | EQ
  | OTHER
  deriving DecidableEq

/-- A C `double`: NaN, the two infinities, and the finite values, which are ordered
as the rationals they denote. -/
inductive Double
  | nan
  | negInf
  | fin (q : ℚ)
  | posInf
  deriving DecidableEq

namespace Double

/-- The C operator `a < b` on doubles; false when either side is NaN. -/
def lt : Double → Double → Bool
  | .nan, _ => false
  | _, .nan => false
  | _, .negInf => false
  | .negInf, _ => true
  | .posInf, _ => false
  | .fin _, .posInf => true
  | .fin a, .fin b => decide (a < b)

/-- The C operator `a <= b` on doubles; false when either side is NaN. -/
def le : Double → Double → Bool
  | .nan, _ => false
  | _, .nan => false
  | .negInf, _ => true
  | _, .posInf => true
  | .posInf, _ => false
  | .fin _, .negInf => false
  | .fin a, .fin b => decide (a ≤ b)

/-- The C operator `a > b` on doubles. -/
def gt (a b : Double) : Bool := lt b a

/-- The C operator `a >= b` on doubles. -/
def ge (a b : Double) : Bool := le b a

/-- The C operator `a == b` on doubles; false when either side is NaN. -/
def eq : Double → Double → Bool
  | .nan, _ => false
  | _, .nan => false
  | a, b => decide (a = b)

/-- Position of a double on the extended rational line (NaN is sent to the
bottom; it is never looked at). -/
def rank : Double → WithBot (WithTop ℚ)
  | .nan => ⊥
  | .negInf => ⊥
  | .fin q => ((q : WithTop ℚ) : WithBot (WithTop ℚ))
  | .posInf => ((⊤ : WithTop ℚ) : WithBot (WithTop ℚ))

/-- The relation `x op v` on doubles. -/
def satisfies (op : RangeOp) (x v : Double) : Bool :=
  match op with
  | .LT => lt x v
  | .LE => le x v
  | .GT => gt x v
  | .GE => ge x v
  | .EQ => eq x v
  | .OTHER => true

end Double

/-- The struct `NumericRange`, with the fields `numeric_range.c` reads and
writes. -/
structure NumericRange where
  min : Double
  max : Double
  include_min : Bool
  include_max : Bool
  valid : Bool
  deriving DecidableEq

/-- `NumericRange_New` (lines 13-21): the range `(-inf, +inf)`. -/
def NumericRange_New : NumericRange :=
  { valid := true, max := .posInf, min := .negInf, include_min := false, include_max := false }

/-- `NumericRange_IsValid` (lines 23-33). -/
def NumericRange_IsValid (range : NumericRange) : Bool :=
  if range.include_min && range.include_max then
    Double.le range.min range.max
  else
    Double.lt range.min range.max

/-- `NumericRange_ContainsValue` (lines 35-53). -/
def NumericRange_ContainsValue (range : NumericRange) (v : Double) : Bool :=
  if !range.valid then false
  else if (if range.include_max then Double.gt v range.max else Double.ge v range.max) then false
  else if (if range.include_min then Double.lt v range.min else Double.le v range.min) then false
  else true

/-- The end of `NumericRange_TightenRange` (lines 97-98). -/
def NumericRange.revalidate (range : NumericRange) : NumericRange :=
  { range with valid := NumericRange_IsValid range }

/-- `NumericRange_TightenRange` (lines 55-99); the range after the call. -/
def NumericRange_TightenRange (range : NumericRange) (op : RangeOp) (v : Double) :
    NumericRange :=
  if !range.valid then range else
  match op with
  | .LT =>
    (if Double.ge range.max v then { range with include_max := false, max := v }
      else range).revalidate
  | .LE =>
    (if Double.gt range.max v then { range with include_max := true, max := v }
      else range).revalidate
  | .GT =>
    (if Double.le range.min v then { range with include_min := false, min := v }
      else range).revalidate
  | .GE =>
    (if Double.lt range.min v then { range with include_min := true, min := v }
      else range).revalidate
  | .EQ =>
    if !NumericRange_ContainsValue range v then { range with valid := true }
    else
      ({ range with include_min := true, include_max := true, min := v, max := v }
        : NumericRange).revalidate
  | .OTHER => range.revalidate

/-- A C string: the characters before the terminating NUL, as `unsigned char`
values. -/
abbrev CString := List Nat

/-- The C library function `strcmp`: the strings are compared character by
character as `unsigned char`, a proper prefix being smaller; only the sign of
the result is fixed by the C standard, and `-1`, `0`, `1` are returned here. -/
def strcmp : CString → CString → Int
  | [], [] => 0
  | [], _ :: _ => -1
  | _ :: _, [] => 1
  | a :: s, b :: t => if a < b then -1 else if b < a then 1 else strcmp s t

/-- The relation `x op v` on strings ordered by `strcmp`. -/
def strSatisfies (op : RangeOp) (x v : CString) : Bool :=
  match op with
  | .LT => decide (strcmp x v < 0)
  | .LE => decide (strcmp x v ≤ 0)
  | .GT => decide (strcmp x v > 0)
  | .GE => decide (strcmp x v ≥ 0)
  | .EQ => decide (strcmp x v = 0)
  | .OTHER => true

/-- The struct `StringRange`, with the fields `string_range.c` reads and writes;
`none` is the `NULL` pointer. -/
structure StringRange where
  min : Option CString
  max : Option CString
  include_min : Bool
  include_max : Bool
  valid : Bool
  deriving DecidableEq

/-- `StringRange_New` (lines 12-20): the range without bounds. -/
def StringRange_New : StringRange :=
  { min := none, max := none, valid := true, include_min := false, include_max := false }

/-- `StringRange_IsValid` (lines 22-34). -/
def StringRange_IsValid (range : StringRange) : Bool :=
  match range.max, range.min with
  | some max, some min =>
    if range.include_min && range.include_max then decide (strcmp min max ≤ 0)
    else decide (strcmp min max < 0)
  | _, _ => true

/-- `StringRange_ContainsValue` (lines 36-58). -/
def StringRange_ContainsValue (range : StringRange) (v : CString) : Bool :=
  if !range.valid then false
  else if (match range.max with
      | some max =>
        if range.include_max then decide (strcmp v max > 0) else decide (strcmp v max ≥ 0)
      | none => false) then false
  else if (match range.min with
      | some min =>
        if range.include_min then decide (strcmp v min < 0) else decide (strcmp v min ≤ 0)
      | none => false) then false
  else true

/-- The end of `StringRange_TightenRange` (lines 102-103). -/
def StringRange.revalidate (range : StringRange) : StringRange :=
  { range with valid := StringRange_IsValid range }

/-- The test `!p || strcmp(p, v) ...` on a bound that may be `NULL`. -/
def nullOr (p : Option CString) (test : CString → Bool) : Bool :=
  match p with
  | none => true
  | some s => test s

/-- `StringRange_TightenRange` (lines 60-104); the range after the call. -/
def StringRange_TightenRange (range : StringRange) (op : RangeOp) (v : CString) :
    StringRange :=
  if !range.valid then range else
  match op with
  | .LT =>
    (if nullOr range.max (fun max => decide (strcmp max v ≥ 0)) then
        { range with include_max := false, max := some v }
      else range).revalidate
  | .LE =>
    (if nullOr range.max (fun max => decide (strcmp max v > 0)) then
        { range with include_max := true, max := some v }
      else range).revalidate
  | .GT =>
    (if nullOr range.min (fun min => decide (strcmp min v ≤ 0)) then
        { range with include_min := false, min := some v }
      else range).revalidate
  | .GE =>
    (if nullOr range.min (fun min => decide (strcmp min v < 0)) then
        { range with include_min := true, min := some v }
      else range).revalidate
  | .EQ =>
    if !StringRange_ContainsValue range v then { range with valid := false }
    else
      ({ range with include_min := true, include_max := true, min := some v, max := some v }
        : StringRange).revalidate
  | .OTHER => range.revalidate

/-- Position of a string on the line of strings extended by a bottom and a top
element. -/
def strRank (s : CString) : WithBot (WithTop (List Nat)) :=
  ((s : WithTop (List Nat)) : WithBot (WithTop (List Nat)))

/-- Position of an upper bound: `NULL` is above every string. -/
def maxRank : Option CString → WithBot (WithTop (List Nat))
  | none => ((⊤ : WithTop (List Nat)) : WithBot (WithTop (List Nat)))
  | some s => strRank s

/-- Position of a lower bound: `NULL` is below every string. -/
def minRank : Option CString → WithBot (WithTop (List Nat))
  | none => ⊥
  | some s => strRank s

end Ranges

/-! ## Concrete scenarios -/

section Scenarios

variable {n : Nat}

/-- The matrix with the given rows of `0`/`1` entries. -/
def Mat.ofRows (rows : List (List Nat)) : Mat n :=
  fun i j => decide ((rows.getD i.val []).getD j.val 0 = 1)

/-- The rows of a matrix as `0`/`1` entries. -/
def Mat.rows (M : Mat n) : List (List Nat) :=
  (List.finRange n).map fun i => (List.finRange n).map fun j => if M i j then 1 else 0

/-- A backend holding the given matrices at addresses `0, 1, 2, ...`, with an
empty log. -/
def Backend.ofList (Ms : List (Mat n)) : Backend n :=
  { heap := fun a => Ms.get? a, next := Ms.length, log := [] }

/-- Operand leaf for the matrix at an address. -/
def leafAt (a : Nat) : AlgebraicExpression := .operand (.ptr a)

/-- Multiply node. -/
def mulOf (children : List AlgebraicExpression) : AlgebraicExpression :=
  .operation .AL_EXP_MUL children

/-- Add node. -/
def addOf (children : List AlgebraicExpression) : AlgebraicExpression :=
  .operation .AL_EXP_ADD children

/-- Transpose node. -/
def transposeOf (child : AlgebraicExpression) : AlgebraicExpression :=
  .operation .AL_EXP_TRANSPOSE [child]

/-- The matrix `[0100, 0010, 0001, 0000]`. -/
def scenarioA : Mat 4 := Mat.ofRows [[0, 1, 0, 0], [0, 0, 1, 0], [0, 0, 0, 1], [0, 0, 0, 0]]

/-- The matrix `[0010, 0001, 0000, 0000]`. -/
def scenarioB : Mat 4 := Mat.ofRows [[0, 0, 1, 0], [0, 0, 0, 1], [0, 0, 0, 0], [0, 0, 0, 0]]

/-- The matrix `[1000, 0100, 0010, 0001]`. -/
def scenarioEye : Mat 4 := Mat.ofRows [[1, 0, 0, 0], [0, 1, 0, 0], [0, 0, 1, 0], [0, 0, 0, 1]]

/-- A backend holding `scenarioEye`, `scenarioA` and `scenarioB` at addresses 0, 1
and 2. -/
def scenarioStore : Backend 4 := Backend.ofList [scenarioEye, scenarioA, scenarioB]

/-- The single-bit matrix `[0100, 0000, 0000, 0000]`. -/
def bit01 : Mat 4 := Mat.ofRows [[0, 1, 0, 0], [0, 0, 0, 0], [0, 0, 0, 0], [0, 0, 0, 0]]

/-- The single-bit matrix `[0000, 0010, 0000, 0000]`. -/
def bit12 : Mat 4 := Mat.ofRows [[0, 0, 0, 0], [0, 0, 1, 0], [0, 0, 0, 0], [0, 0, 0, 0]]

/-- The single-bit matrix `[0000, 0000, 0001, 0000]`. -/
def bit23 : Mat 4 := Mat.ofRows [[0, 0, 0, 0], [0, 0, 0, 0], [0, 0, 0, 1], [0, 0, 0, 0]]

/-- A backend holding `scenarioEye` and the three single-bit matrices at
addresses 0 to 3. -/
def bitStore : Backend 4 := Backend.ofList [scenarioEye, bit01, bit12, bit23]

/-- A backend holding the empty matrix, `scenarioA` and `scenarioB` at addresses
0, 1 and 2. -/
def emptyStore : Backend 4 := Backend.ofList [Mat.zero, scenarioA, scenarioB]

/-- A backend holding `scenarioEye`, `scenarioA`, the empty matrix and `scenarioB`
at addresses 0 to 3. -/
def shortCircuitStore : Backend 4 :=
  Backend.ofList [scenarioEye, scenarioA, Mat.zero, scenarioB]

/-- Rows held by a handle once a run has ended, `none` when it holds none. -/
def Outcome.rowsAt {α : Type} (o : Outcome n α) (h : GrB_Matrix) : Option (List (List Nat)) :=
  (o.state.get h).map Mat.rows

/-- The tree `(A + B) + ((A + B) * (A + A)) + (B * I)`. -/
def scenarioTree : AlgebraicExpression :=
  addOf [addOf [leafAt 1, leafAt 2],
    mulOf [addOf [leafAt 1, leafAt 2], addOf [leafAt 1, leafAt 1]],
    mulOf [leafAt 2, .operand .IDENTITY_MATRIX]]

/-- The tree `(A + B) * (A * A) * (B + A)`. -/
def scenarioProduct : AlgebraicExpression :=
  mulOf [addOf [leafAt 1, leafAt 2], mulOf [leafAt 1, leafAt 1], addOf [leafAt 2, leafAt 1]]

/-- The numeric range `[1, 5]`, built from `NumericRange_New` by `GE 1` and
`LE 5`. -/
def rangeOneToFive : NumericRange :=
  NumericRange_TightenRange (NumericRange_TightenRange NumericRange_New .GE (.fin 1))
    .LE (.fin 5)

/-- The string range `["b", "f")`, built from `StringRange_New` by `GE "b"` and
`LT "f"`. -/
def rangeBToF : StringRange :=
  StringRange_TightenRange (StringRange_TightenRange StringRange_New .GE [98]) .LT [102]

end Scenarios

/-! ## Predicates used in the proofs -/

section Predicates

variable {n : Nat}

/-- What a completed write to `C` leaves behind: `C` holds `M`, nothing else
changed. -/
def Wrote (st : Backend n) (C : GrB_Matrix) (M : Mat n) (st' : Backend n) : Prop :=
  st'.get C = some M ∧ st'.next = st.next ∧ ∀ h, h ≠ C → st'.get h = st.get h

/-- Precondition of an evaluation into `dst` with operand handles `ms`: `dst` and
every operand point to live objects below address `b`, which is at most the
allocation frontier; no operand is `dst`; each operand holds `V` of it. -/
structure Ready (V : GrB_Matrix → Mat n) (b : Nat) (st : Backend n) (dst : GrB_Matrix)
    (ms : List GrB_Matrix) : Prop where
  bound : b ≤ st.next
  dst_live : ∃ r, dst = .ptr r ∧ r < b ∧ (st.heap r).isSome = true
  leaf : ∀ m ∈ ms, m ≠ dst ∧ ∃ a, m = .ptr a ∧ a < b ∧ st.heap a = some (V m)

/-- Postcondition of an evaluation into `dst`: it returns `dst`, which holds `M`;
no object below `b` other than `dst` changed. -/
def Post (b : Nat) (st : Backend n) (dst : GrB_Matrix) (M : Mat n)
    (o : Outcome n GrB_Matrix) : Prop :=
  ∃ st', o = .ok dst st' ∧ st'.get dst = some M ∧ st.next ≤ st'.next ∧
    ∀ a, a < b → GrB_Matrix.ptr a ≠ dst → st'.heap a = st.heap a

/-- The recursive evaluator `ev` is correct on the tree `e`. -/
def EvalOK (V : GrB_Matrix → Mat n) (ev : Eval n) (e : AlgebraicExpression) : Prop :=
  ∀ (b : Nat) (dst : GrB_Matrix) (st : Backend n),
    Ready V b st dst e.leaves → Post b st dst (denote V e) (ev e dst st)

/-- The scratch handle, when present, points to a live object at or above `b`. -/
def InterOK (b : Nat) (st : Backend n) (inter : Option GrB_Matrix) : Prop :=
  ∀ h, inter = some h → ∃ a, h = .ptr a ∧ b ≤ a ∧ a < st.next ∧ (st.heap a).isSome = true

/-- A walk through a chain of matrices: entry `(i, j)` of the chain is reached by
stepping through one stored entry of each matrix in turn. -/
def Walk : List (Mat n) → Fin n → Fin n → Prop
  | [], i, j => i = j
  | M :: Ms, i, j => ∃ k, M i k = true ∧ Walk Ms k j

/-- The run did not lower the allocation frontier, left the objects at the
addresses in `p` as they were, and every value it returns satisfies `Q`. -/
def Keeps {α : Type} (p : Nat → Prop) (st : Backend n) (Q : α → Prop)
    (o : Outcome n α) : Prop :=
  st.next ≤ o.state.next ∧ (∀ a, p a → o.state.heap a = st.heap a) ∧
    ∀ v st', o = .ok v st' → Q v

/-- The recursive evaluator writes only to its destination and to objects it
allocates. -/
def EvKeeps (ev : Eval n) : Prop :=
  ∀ (e : AlgebraicExpression) (dst : GrB_Matrix) (st : Backend n),
    Keeps (fun a => a < st.next ∧ GrB_Matrix.ptr a ≠ dst) st (fun _ => True) (ev e dst st)

/-- The scratch handle, when present, points at or above address `b`. -/
def InterAbove (b : Nat) (inter : Option GrB_Matrix) : Prop :=
  ∀ h, inter = some h → ∃ c, h = GrB_Matrix.ptr c ∧ b ≤ c

/-- What a piece of an activation with destination `res` did to the log, started
with allocation frontier at least `b`: the primitives it added target `res` or
an object at or above `b`; among them are `k + da` allocations and `k + df`
releases, where `k`, the share of the nested activations, satisfies `K`. -/
structure Step (b : Nat) (res : GrB_Matrix) (K : Nat → Prop) (st st' : Backend n)
    (da df : Nat) : Prop where
  next_le : st.next ≤ st'.next
  log : ∃ extra k, st'.log = st.log ++ extra ∧
    (∀ c ∈ extra, c.target = res ∨ ∃ a, c.target = GrB_Matrix.ptr a ∧ b ≤ a) ∧
    K k ∧ extra.countP Call.isNew = k + da ∧ extra.countP Call.isFree = k + df

/-- Every completed run of the recursive evaluator adds to the log only
primitives on its destination or on objects above the frontier it started
from, with as many allocations as releases. -/
def EvStep (K : Nat → Prop) (ev : Eval n) : Prop :=
  ∀ (e : AlgebraicExpression) (dst : GrB_Matrix) (st : Backend n) (v : GrB_Matrix)
    (st' : Backend n), ev e dst st = .ok v st' → Step st.next dst K st st' 0 0

/-- The share of nested activations may be nothing and may be added up. -/
def Additive (K : Nat → Prop) : Prop := K 0 ∧ ∀ a b, K a → K b → K (a + b)

/-- The run does not stop at an assertion on the shape of the tree. -/
def NoShapeAbort {α : Type} (o : Outcome n α) : Prop :=
  ∀ f st', o = .abort f st' → f.isShape = false

/-- The recursive evaluator does not stop at a shape assertion on trees that have
the right numbers of children. -/
def EvNoShape (ev : Eval n) : Prop :=
  ∀ (e : AlgebraicExpression), e.arityOK = true →
    ∀ (dst : GrB_Matrix) (st : Backend n), NoShapeAbort (ev e dst st)

/-- The run stops without returning. -/
def Aborts {α : Type} (o : Outcome n α) : Prop := o.fault? ≠ none

end Predicates

/-! ## Predicates on ranges -/

section RangePredicates

variable {β : Type} [LinearOrder β]

/-- The upper-bound test of a range: `x <= hi` when the bound is included,
`x < hi` otherwise. -/
def upOK (i : Bool) (x hi : β) : Prop := if i = true then x ≤ hi else x < hi

/-- The lower-bound test of a range: `lo <= x` when the bound is included,
`lo < x` otherwise. -/
def loOK (i : Bool) (lo x : β) : Prop := if i = true then lo ≤ x else lo < x

/-- The validity test of a range: `lo <= hi` when both bounds are included,
`lo < hi` otherwise. -/
def spanOK (ilo ihi : Bool) (lo hi : β) : Prop :=
  if (ilo && ihi) = true then lo ≤ hi else lo < hi

end RangePredicates

/-! ## Lemmas -/

section Lemmas

variable {n : Nat}

/-! ## Backend lemmas -/

@[simp] theorem Outcome.bind_ok {α β : Type} (v : α) (st : Backend n)
    (k : α → Backend n → Outcome n β) : (Outcome.ok v st).bind k = k v st := rfl

@[simp] theorem Outcome.bind_abort {α β : Type} (f : Fault) (st : Backend n)
    (k : α → Backend n → Outcome n β) :
    (Outcome.abort f st : Outcome n α).bind k = .abort f st := rfl

@[simp] theorem Backend.get_ptr (st : Backend n) (a : Nat) : st.get (.ptr a) = st.heap a := rfl

@[simp] theorem Backend.get_identity (st : Backend n) : st.get .IDENTITY_MATRIX = none := rfl

theorem Backend.ne_identity_of_get {st : Backend n} {h : GrB_Matrix} {M : Mat n}
    (hh : st.get h = some M) : h ≠ .IDENTITY_MATRIX := by
  rintro rfl; simp at hh

theorem Backend.get_set_self {st : Backend n} {h : GrB_Matrix} {M0 : Mat n}
    (hh : st.get h = some M0) (M : Mat n) : (st.set h M).get h = some M := by
  cases h with
  | IDENTITY_MATRIX => simp at hh
  | ptr a => simp [Backend.set]

theorem Backend.get_set_other (st : Backend n) {h k : GrB_Matrix} (hk : k ≠ h) (M : Mat n) :
    (st.set h M).get k = st.get k := by
  cases h with
  | IDENTITY_MATRIX => rfl
  | ptr a =>
    cases k with
    | IDENTITY_MATRIX => rfl
    | ptr c =>
      have : c ≠ a := fun e => hk (by rw [e])
      simp [Backend.set, Function.update, this]

@[simp] theorem Backend.set_next (st : Backend n) (h : GrB_Matrix) (M : Mat n) :
    (st.set h M).next = st.next := by
  cases h <;> rfl

@[simp] theorem Backend.record_next (st : Backend n) (c : Call) : (st.record c).next = st.next := rfl

@[simp] theorem Backend.record_get (st : Backend n) (c : Call) (h : GrB_Matrix) :
    (st.record c).get h = st.get h := by
  cases h <;> rfl

theorem wrote_set {st : Backend n} {C : GrB_Matrix} {c : Mat n} (hC : st.get C = some c)
    (k : Call) (M : Mat n) : Wrote st C M ((st.record k).set C M) := by
  refine ⟨?_, by simp, ?_⟩
  · exact Backend.get_set_self (by simpa using hC : (st.record k).get C = some c) M
  · intro h hh
    rw [Backend.get_set_other _ hh]; simp

theorem GrB_mxm_spec {st : Backend n} {C A B : GrB_Matrix} {c a b : Mat n}
    (hC : st.get C = some c) (hA : st.get A = some a) (hB : st.get B = some b)
    (d : Option GrB_Descriptor) :
    ∃ st', GrB_mxm C A B d st = .ok () st' ∧
      Wrote st C (Mat.mxm (Mat.tran (descINP0 d) a) (Mat.tran (descINP1 d) b)) st' := by
  refine ⟨_, ?_, wrote_set hC (.mxm C A B d) _⟩
  simp [GrB_mxm, hC, hA, hB]

theorem GrB_eWiseAdd_spec {st : Backend n} {C A B : GrB_Matrix} {c a b : Mat n}
    (hC : st.get C = some c) (hA : st.get A = some a) (hB : st.get B = some b)
    (d : Option GrB_Descriptor) :
    ∃ st', GrB_eWiseAdd_Matrix_Semiring C A B d st = .ok () st' ∧
      Wrote st C (Mat.eWiseAdd (Mat.tran (descINP0 d) a) (Mat.tran (descINP1 d) b)) st' := by
  refine ⟨_, ?_, wrote_set hC (.eWiseAdd C A B d) _⟩
  simp [GrB_eWiseAdd_Matrix_Semiring, hC, hA, hB]

theorem GrB_Matrix_apply_spec {st : Backend n} {C A : GrB_Matrix} {c a : Mat n}
    (hC : st.get C = some c) (hA : st.get A = some a) (d : Option GrB_Descriptor) :
    ∃ st', GrB_Matrix_apply C A d st = .ok () st' ∧
      Wrote st C (Mat.tran (descINP0 d) a) st' := by
  refine ⟨_, ?_, wrote_set hC (.apply C A d) _⟩
  simp [GrB_Matrix_apply, hC, hA]

theorem GrB_transpose_spec {st : Backend n} {C A : GrB_Matrix} {c a : Mat n}
    (hC : st.get C = some c) (hA : st.get A = some a) :
    ∃ st', GrB_transpose C A st = .ok () st' ∧ Wrote st C a.transpose st' := by
  refine ⟨_, ?_, wrote_set hC (.transpose C A) _⟩
  simp [GrB_transpose, hC, hA]

theorem GrB_Matrix_nvals_spec {st : Backend n} {h : GrB_Matrix} {M : Mat n}
    (hh : st.get h = some M) : GrB_Matrix_nvals h st = .ok M.nvals st := by
  simp [GrB_Matrix_nvals, hh]

theorem GrB_Matrix_nrows_spec {st : Backend n} {h : GrB_Matrix} {M : Mat n}
    (hh : st.get h = some M) : GrB_Matrix_nrows h st = .ok n st := by
  simp [GrB_Matrix_nrows, hh]

theorem GrB_Matrix_new_spec (st : Backend n) :
    ∃ st', GrB_Matrix_new st = .ok (.ptr st.next) st' ∧
      st'.get (.ptr st.next) = some Mat.zero ∧ st'.next = st.next + 1 ∧
      ∀ h, h ≠ .ptr st.next → st'.get h = st.get h := by
  refine ⟨_, rfl, by simp, rfl, ?_⟩
  intro h hh
  cases h with
  | IDENTITY_MATRIX => rfl
  | ptr c =>
    have : c ≠ st.next := fun e => hh (by rw [e])
    simp [Function.update, this]

theorem GrB_Matrix_free_spec (st : Backend n) (a : Nat) :
    ∃ st', GrB_Matrix_free (.ptr a) st = .ok () st' ∧ st'.next = st.next ∧
      ∀ h, h ≠ .ptr a → st'.get h = st.get h := by
  refine ⟨_, rfl, rfl, ?_⟩
  intro h hh
  cases h with
  | IDENTITY_MATRIX => rfl
  | ptr c =>
    have : c ≠ a := fun e => hh (by rw [e])
    simp [Function.update, this]

/-! ## Matrix algebra -/

namespace Mat

theorem mxm_apply (A B : Mat n) (i j : Fin n) :
    mxm A B i j = true ↔ ∃ k, A i k = true ∧ B k j = true := by
  simp [mxm, List.any_eq_true]

@[simp] theorem tran_false (A : Mat n) : tran false A = A := rfl

@[simp] theorem tran_true (A : Mat n) : tran true A = A.transpose := rfl

theorem eq_of_iff {A B : Mat n} (h : ∀ i j, A i j = true ↔ B i j = true) : A = B := by
  funext i j
  have := h i j
  cases hA : A i j <;> cases hB : B i j <;> simp_all

theorem mxm_assoc (A B C : Mat n) : mxm (mxm A B) C = mxm A (mxm B C) := by
  apply eq_of_iff
  intro i j
  simp only [mxm_apply]
  constructor
  · rintro ⟨k, ⟨l, h1, h2⟩, h3⟩
    exact ⟨l, h1, k, h2, h3⟩
  · rintro ⟨l, h1, k, h2, h3⟩
    exact ⟨k, ⟨l, h1, h2⟩, h3⟩

theorem transpose_mxm (A B : Mat n) : (mxm A B).transpose = mxm B.transpose A.transpose := by
  apply eq_of_iff
  intro i j
  simp only [transpose, mxm_apply]
  constructor
  · rintro ⟨k, h1, h2⟩; exact ⟨k, h2, h1⟩
  · rintro ⟨k, h1, h2⟩; exact ⟨k, h2, h1⟩

theorem transpose_eWiseAdd (A B : Mat n) :
    (eWiseAdd A B).transpose = eWiseAdd A.transpose B.transpose := rfl

@[simp] theorem zero_mxm (B : Mat n) : mxm zero B = zero := by
  funext i j
  simp [mxm, zero]

@[simp] theorem mxm_zero (A : Mat n) : mxm A zero = zero := by
  funext i j
  simp [mxm, zero]

@[simp] theorem mxm_one (A : Mat n) : mxm A one = A := by
  apply eq_of_iff
  intro i j
  simp [mxm_apply, one]

@[simp] theorem one_mxm (A : Mat n) : mxm one A = A := by
  apply eq_of_iff
  intro i j
  simp [mxm_apply, one]

@[simp] theorem transpose_one : (one : Mat n).transpose = one := by
  funext i j
  simp [transpose, one, eq_comm]

theorem eWiseAdd_comm (A B : Mat n) : eWiseAdd A B = eWiseAdd B A := by
  funext i j
  simp [eWiseAdd, Bool.or_comm]

theorem eWiseAdd_assoc (A B C : Mat n) :
    eWiseAdd (eWiseAdd A B) C = eWiseAdd A (eWiseAdd B C) := by
  funext i j
  simp [eWiseAdd, Bool.or_assoc]

theorem nvals_eq_zero {A : Mat n} : A.nvals = 0 ↔ A = zero := by
  constructor
  · intro h
    funext i j
    simp only [nvals, List.sum_eq_zero_iff, List.mem_map, forall_exists_index, and_imp] at h
    have hi := h _ i (List.mem_finRange i) rfl
    rw [List.countP_eq_zero] at hi
    have := hi j (List.mem_finRange j)
    simpa [zero] using this
  · rintro rfl
    simp [nvals, zero]

theorem foldl_mxm_zero (Ms : List (Mat n)) : Ms.foldl mxm zero = zero := by
  induction Ms with
  | nil => rfl
  | cons M Ms ih => simpa using ih

end Mat

/-! ## Correctness of the evaluator on Multiply / Add trees -/

theorem Ready.sub {V : GrB_Matrix → Mat n} {b : Nat} {st : Backend n} {dst : GrB_Matrix}
    {ms ms' : List GrB_Matrix} (h : Ready V b st dst ms) (hs : ∀ m ∈ ms', m ∈ ms) :
    Ready V b st dst ms' :=
  ⟨h.bound, h.dst_live, fun m hm => h.leaf m (hs m hm)⟩

theorem Ready.dst_get {V : GrB_Matrix → Mat n} {b : Nat} {st : Backend n} {dst : GrB_Matrix}
    {ms : List GrB_Matrix} (h : Ready V b st dst ms) : ∃ d, st.get dst = some d := by
  obtain ⟨r, rfl, _, hr⟩ := h.dst_live
  exact Option.isSome_iff_exists.mp hr

theorem Ready.leaf_get {V : GrB_Matrix → Mat n} {b : Nat} {st : Backend n} {dst : GrB_Matrix}
    {ms : List GrB_Matrix} (h : Ready V b st dst ms) {m : GrB_Matrix} (hm : m ∈ ms) :
    st.get m = some (V m) := by
  obtain ⟨_, a, rfl, _, ha⟩ := h.leaf m hm
  exact ha

/-- Readiness survives any change that leaves the objects below `b` alone,
except that `dst` may get new content. -/
theorem Ready.frame {V : GrB_Matrix → Mat n} {b : Nat} {st st' : Backend n} {dst : GrB_Matrix}
    {ms : List GrB_Matrix} (h : Ready V b st dst ms) (hn : st.next ≤ st'.next)
    (hd : ∃ d, st'.get dst = some d)
    (hf : ∀ a, a < b → GrB_Matrix.ptr a ≠ dst → st'.heap a = st.heap a) :
    Ready V b st' dst ms := by
  refine ⟨le_trans h.bound hn, ?_, ?_⟩
  · obtain ⟨r, rfl, hr, _⟩ := h.dst_live
    obtain ⟨d, hd⟩ := hd
    exact ⟨r, rfl, hr, by simpa using Option.isSome_iff_exists.mpr ⟨d, hd⟩⟩
  · intro m hm
    obtain ⟨hne, a, rfl, ha, hv⟩ := h.leaf m hm
    exact ⟨hne, a, rfl, ha, by rw [hf a ha hne]; exact hv⟩

/-- Readiness for an evaluation into the scratch matrix. -/
theorem Ready.toInter {V : GrB_Matrix → Mat n} {b : Nat} {st : Backend n} {dst : GrB_Matrix}
    {ms : List GrB_Matrix} (h : Ready V b st dst ms) {a : Nat} (hb : b ≤ a)
    (ha : a < st.next) (hl : (st.heap a).isSome = true) :
    Ready V st.next st (.ptr a) ms := by
  refine ⟨le_refl _, ⟨a, rfl, ha, hl⟩, ?_⟩
  intro m hm
  obtain ⟨_, a', rfl, ha', hv⟩ := h.leaf m hm
  refine ⟨?_, a', rfl, lt_of_lt_of_le ha' h.bound, hv⟩
  intro e
  injection e with e
  omega

/-- Operand `i >= 2` of a k-ary node over a Multiply/Add subtree: the handle
obtained holds the value of the child; no object below `b` changed. -/
theorem resolveNext_spec {V : GrB_Matrix → Mat n} {ev : Eval n} {c : AlgebraicExpression}
    {b : Nat} {res : GrB_Matrix} {st : Backend n} {inter : Option GrB_Matrix}
    (hc : c.isMulAdd = true) (hev : c.isOperation = true → EvalOK V ev c)
    (hr : Ready V b st res c.leaves) (hi : InterOK b st inter) :
    ∃ B inter' st', resolveNext ev c res inter st = .ok (B, false, inter') st' ∧
      st'.get B = some (denote V c) ∧ st.next ≤ st'.next ∧
      (∀ a, a < b → st'.heap a = st.heap a) ∧ InterOK b st' inter' := by
  cases c with
  | operand m =>
    refine ⟨m, inter, st, rfl, ?_, le_refl _, fun _ _ => rfl, hi⟩
    simpa [denote] using hr.leaf_get (m := m) (by simp [AlgebraicExpression.leaves])
  | operation op cs =>
    have hop : op ≠ .AL_EXP_TRANSPOSE := by
      simp [AlgebraicExpression.isMulAdd] at hc
      exact hc.1.1
    have hev := hev rfl
    obtain ⟨d, hd⟩ := hr.dst_get
    -- the scratch matrix to evaluate into
    have hscratch : ∃ a st1, obtainInter res inter st = .ok (.ptr a) st1 ∧ b ≤ a ∧ a < st1.next ∧
          (st1.heap a).isSome = true ∧ st.next ≤ st1.next ∧
          (∀ a', a' < b → st1.heap a' = st.heap a') := by
      cases inter with
      | none =>
        obtain ⟨st1, h1, h2, h3, h4⟩ := GrB_Matrix_new_spec st
        refine ⟨st.next, st1, ?_, hr.bound, by omega, by simpa using congrArg Option.isSome h2,
          by omega, ?_⟩
        · simp [obtainInter, GrB_Matrix_nrows_spec hd, h1]
        · intro a' ha'
          have := h4 (.ptr a') (by intro e; injection e with e; have := hr.bound; omega)
          simpa using this
      | some h =>
        obtain ⟨a, rfl, h1, h2, h3⟩ := hi h rfl
        exact ⟨a, st, rfl, h1, h2, h3, le_refl _, fun _ _ => rfl⟩
    obtain ⟨a, st1, e1, hba, ha1, hl1, hn1, hf1⟩ := hscratch
    have hr1 : Ready V b st1 res (AlgebraicExpression.operation op cs).leaves := by
      refine hr.frame hn1 ?_ (fun a' ha' _ => hf1 a' ha')
      obtain ⟨r, rfl, hrb, _⟩ := hr.dst_live
      exact ⟨d, by simpa [hf1 r hrb] using hd⟩
    obtain ⟨st2, e2, hv2, hn2, hf2⟩ := hev st1.next (.ptr a) st1 (hr1.toInter hba ha1 hl1)
    refine ⟨.ptr a, some (.ptr a), st2, ?_, hv2, le_trans hn1 hn2, ?_, ?_⟩
    · simp [resolveNext, e1, e2, hop]
    · intro a' ha'
      rw [hf2 a' (by omega) (by intro e; injection e with e; omega), hf1 a' ha']
    · intro h hh
      injection hh with hh
      subst hh
      refine ⟨a, rfl, hba, by omega, ?_⟩
      simpa using congrArg Option.isSome hv2

theorem InterOK.wrote {b : Nat} {st st' : Backend n} {inter : Option GrB_Matrix} {r : Nat}
    {M : Mat n} (hi : InterOK b st inter) (hw : Wrote st (.ptr r) M st') (hr : r < b) :
    InterOK b st' inter := by
  intro h hh
  obtain ⟨a, rfl, h1, h2, h3⟩ := hi h hh
  refine ⟨a, rfl, h1, by rw [hw.2.1]; exact h2, ?_⟩
  have := hw.2.2 (.ptr a) (by intro e; injection e with e; omega)
  simp only [Backend.get_ptr] at this
  rw [this]; exact h3

theorem leaves_cons (c : AlgebraicExpression) (cs : List AlgebraicExpression) :
    leavesList (c :: cs) = c.leaves ++ leavesList cs := by
  simp [leavesList]

theorem allMulAdd_cons (c : AlgebraicExpression) (cs : List AlgebraicExpression) :
    allMulAdd (c :: cs) = true ↔ c.isMulAdd = true ∧ allMulAdd cs = true := by
  simp [allMulAdd]

theorem denoteList_cons (V : GrB_Matrix → Mat n) (c : AlgebraicExpression)
    (cs : List AlgebraicExpression) : denoteList V (c :: cs) = denote V c :: denoteList V cs := by
  simp [denoteList]

/-- What one further operand of a k-ary node needs from the state and gives
back, shared by the Multiply and the Add loop. -/
theorem next_operand {V : GrB_Matrix → Mat n} {ev : Eval n} {c : AlgebraicExpression}
    {b : Nat} {res : GrB_Matrix} {st : Backend n} {inter : Option GrB_Matrix} {R : Mat n}
    (hc : c.isMulAdd = true) (hev : c.isOperation = true → EvalOK V ev c)
    (hr : Ready V b st res c.leaves) (hR : st.get res = some R) (hi : InterOK b st inter) :
    ∃ B inter' st', resolveNext ev c res inter st = .ok (B, false, inter') st' ∧
      st'.get B = some (denote V c) ∧ st'.get res = some R ∧ st.next ≤ st'.next ∧
      (∀ a, a < b → st'.heap a = st.heap a) ∧ InterOK b st' inter' := by
  obtain ⟨B, inter', st', e, hB, hn, hf, hi'⟩ := resolveNext_spec hc hev hr hi
  refine ⟨B, inter', st', e, hB, ?_, hn, hf, hi'⟩
  obtain ⟨r, rfl, hrb, _⟩ := hr.dst_live
  simpa [hf r hrb] using hR

/-- The loop of `_Eval_MulArbitrary` over Multiply/Add subtrees and operands
multiplies the accumulator by the value of each child in turn. -/
theorem mulLoop_spec (V : GrB_Matrix → Mat n) (ev : Eval n) (b : Nat) (res : GrB_Matrix) :
    ∀ (rest : List AlgebraicExpression), allMulAdd rest = true →
      (∀ c ∈ rest, c.isOperation = true → EvalOK V ev c) →
      ∀ (inter : Option GrB_Matrix) (st : Backend n) (R : Mat n),
        Ready V b st res (leavesList rest) → st.get res = some R → InterOK b st inter →
        ∃ inter' st', mulLoop ev res rest inter st = .ok inter' st' ∧
          st'.get res = some ((denoteList V rest).foldl Mat.mxm R) ∧ st.next ≤ st'.next ∧
          (∀ a, a < b → GrB_Matrix.ptr a ≠ res → st'.heap a = st.heap a) ∧
          InterOK b st' inter' := by
  intro rest
  induction rest with
  | nil =>
    intro _ _ inter st R _ hR hi
    exact ⟨inter, st, rfl, by simpa [denoteList] using hR, le_refl _, fun _ _ _ => rfl, hi⟩
  | cons c rest ih =>
    intro hc hev inter st R hr hR hi
    rw [allMulAdd_cons] at hc
    rw [leaves_cons] at hr
    obtain ⟨B, inter1, st1, e1, hB, hR1, hn1, hf1, hi1⟩ :=
      next_operand hc.1 (hev c (List.mem_cons_self _ _))
        (hr.sub (fun m hm => List.mem_append_left _ hm)) hR hi
    obtain ⟨st2, e2, hw2⟩ := GrB_mxm_spec hR1 hR1 hB (some { INP0 := false, INP1 := false })
    have hBne := Backend.ne_identity_of_get hB
    obtain ⟨r, hres, hrb, _⟩ := hr.dst_live
    have hr2 : Ready V b st2 res (leavesList rest) := by
      refine (hr.sub (fun m hm => List.mem_append_right _ hm)).frame ?_ ⟨_, hw2.1⟩ ?_
      · rw [hw2.2.1]; exact hn1
      · intro a ha hne
        have := hw2.2.2 (.ptr a) hne
        simp only [Backend.get_ptr] at this
        rw [this, hf1 a ha]
    have hi2 : InterOK b st2 inter1 := by
      subst hres; exact hi1.wrote hw2 hrb
    have hstep : mulStep ev c res inter st =
        .ok (inter1, (Mat.mxm R (denote V c)).nvals) st2 := by
      simp [mulStep, e1, hBne, e2, GrB_Matrix_nvals_spec hw2.1, descINP0, descINP1]
    have hframe : ∀ a, a < b → GrB_Matrix.ptr a ≠ res → st2.heap a = st.heap a := by
      intro a ha hne
      have := hw2.2.2 (.ptr a) hne
      simp only [Backend.get_ptr] at this
      rw [this, hf1 a ha]
    by_cases hz : (Mat.mxm R (denote V c)).nvals = 0
    · refine ⟨inter1, st2, ?_, ?_, ?_, hframe, hi2⟩
      · simp [mulLoop, hstep, hz]
      · rw [denoteList_cons, List.foldl_cons, Mat.nvals_eq_zero.mp hz, Mat.foldl_mxm_zero]
        simpa [descINP0, descINP1, Mat.nvals_eq_zero.mp hz] using hw2.1
      · rw [hw2.2.1]; exact hn1
    · obtain ⟨inter', st', e3, hv3, hn3, hf3, hi3⟩ :=
        ih hc.2 (fun c' hc' => hev c' (List.mem_cons_of_mem _ hc')) inter1 st2 _ hr2
          (by simpa [descINP0, descINP1] using hw2.1) hi2
      refine ⟨inter', st', ?_, ?_, ?_, ?_, hi3⟩
      · simp [mulLoop, hstep, hz, e3]
      · rw [denoteList_cons, List.foldl_cons]; exact hv3
      · rw [hw2.2.1] at hn3; omega
      · intro a ha hne
        rw [hf3 a ha hne, hframe a ha hne]

/-- The loop of `_Eval_AddArbitrary` over Multiply/Add subtrees and operands ORs
the value of each child into the accumulator in turn. -/
theorem addLoop_spec (V : GrB_Matrix → Mat n) (ev : Eval n) (b : Nat) (res : GrB_Matrix) :
    ∀ (rest : List AlgebraicExpression), allMulAdd rest = true →
      (∀ c ∈ rest, c.isOperation = true → EvalOK V ev c) →
      ∀ (inter : Option GrB_Matrix) (st : Backend n) (R : Mat n),
        Ready V b st res (leavesList rest) → st.get res = some R → InterOK b st inter →
        ∃ inter' st', addLoop ev res rest inter st = .ok inter' st' ∧
          st'.get res = some ((denoteList V rest).foldl Mat.eWiseAdd R) ∧
          st.next ≤ st'.next ∧
          (∀ a, a < b → GrB_Matrix.ptr a ≠ res → st'.heap a = st.heap a) ∧
          InterOK b st' inter' := by
  intro rest
  induction rest with
  | nil =>
    intro _ _ inter st R _ hR hi
    exact ⟨inter, st, rfl, by simpa [denoteList] using hR, le_refl _, fun _ _ _ => rfl, hi⟩
  | cons c rest ih =>
    intro hc hev inter st R hr hR hi
    rw [allMulAdd_cons] at hc
    rw [leaves_cons] at hr
    obtain ⟨B, inter1, st1, e1, hB, hR1, hn1, hf1, hi1⟩ :=
      next_operand hc.1 (hev c (List.mem_cons_self _ _))
        (hr.sub (fun m hm => List.mem_append_left _ hm)) hR hi
    obtain ⟨st2, e2, hw2⟩ := GrB_eWiseAdd_spec hR1 hR1 hB none
    obtain ⟨r, hres, hrb, _⟩ := hr.dst_live
    have hframe : ∀ a, a < b → GrB_Matrix.ptr a ≠ res → st2.heap a = st.heap a := by
      intro a ha hne
      have := hw2.2.2 (.ptr a) hne
      simp only [Backend.get_ptr] at this
      rw [this, hf1 a ha]
    have hr2 : Ready V b st2 res (leavesList rest) := by
      refine (hr.sub (fun m hm => List.mem_append_right _ hm)).frame ?_ ⟨_, hw2.1⟩ hframe
      rw [hw2.2.1]; exact hn1
    have hi2 : InterOK b st2 inter1 := by
      subst hres; exact hi1.wrote hw2 hrb
    obtain ⟨inter', st', e3, hv3, hn3, hf3, hi3⟩ :=
      ih hc.2 (fun c' hc' => hev c' (List.mem_cons_of_mem _ hc')) inter1 st2 _ hr2
        (by simpa [descINP0, descINP1] using hw2.1) hi2
    refine ⟨inter', st', ?_, ?_, ?_, ?_, hi3⟩
    · simp [addLoop, addStep, e1, e2, e3]
    · rw [denoteList_cons, List.foldl_cons]; exact hv3
    · rw [hw2.2.1] at hn3; omega
    · intro a ha hne
      rw [hf3 a ha hne, hframe a ha hne]

/-- The left operand of a binary activation over a Multiply/Add subtree or an
operand: no transposition is requested and the handle holds the child's value. -/
theorem resolveLeft_spec {V : GrB_Matrix → Mat n} {ev : Eval n} {c : AlgebraicExpression}
    {b : Nat} {res : GrB_Matrix} {st : Backend n}
    (hc : c.isMulAdd = true) (hev : c.isOperation = true → EvalOK V ev c)
    (hr : Ready V b st res c.leaves) :
    ∃ A u st1, resolveLeft ev c res st = .ok (A, false, u) st1 ∧
      st1.get A = some (denote V c) ∧ st.next ≤ st1.next ∧
      (∀ a, a < b → GrB_Matrix.ptr a ≠ res → st1.heap a = st.heap a) ∧
      (u = false → A ≠ res) ∧ (∃ a, A = .ptr a ∧ a < b) ∧ (∃ d, st1.get res = some d) := by
  cases c with
  | operand m =>
    have hm : m ∈ (AlgebraicExpression.operand m).leaves := by simp [AlgebraicExpression.leaves]
    obtain ⟨hne, a, ha, hab, _⟩ := hr.leaf m hm
    refine ⟨m, false, st, rfl, ?_, le_refl _, fun _ _ _ => rfl, fun _ => hne, ⟨a, ha, hab⟩,
      hr.dst_get⟩
    simpa [denote] using hr.leaf_get hm
  | operation op cs =>
    have hop : op ≠ .AL_EXP_TRANSPOSE := by
      simp [AlgebraicExpression.isMulAdd] at hc
      exact hc.1.1
    obtain ⟨st1, e1, hv1, hn1, hf1⟩ := hev rfl b res st hr
    obtain ⟨r, hres, hrb, _⟩ := hr.dst_live
    refine ⟨res, true, st1, ?_, hv1, hn1, hf1, by simp, ⟨r, hres, hrb⟩, ⟨_, hv1⟩⟩
    simp [resolveLeft, hop, e1]

/-- The right operand of a binary activation over a Multiply/Add subtree or an
operand: no transposition is requested, the handle holds the child's value, and
the left operand still holds its own. -/
theorem resolveRight_spec {V : GrB_Matrix → Mat n} {ev : Eval n} {c : AlgebraicExpression}
    {b : Nat} {res A : GrB_Matrix} {u : Bool} {st : Backend n} {MA : Mat n}
    (hc : c.isMulAdd = true) (hev : c.isOperation = true → EvalOK V ev c)
    (hr : Ready V b st res c.leaves) (hA : st.get A = some MA)
    (hAb : ∃ a, A = .ptr a ∧ a < b) (hu : u = false → A ≠ res) :
    ∃ B inter st2, resolveRight ev c A u res st = .ok (B, false, inter) st2 ∧
      st2.get B = some (denote V c) ∧ st2.get A = some MA ∧ (∃ d, st2.get res = some d) ∧
      st.next ≤ st2.next ∧
      (∀ a, a < b → GrB_Matrix.ptr a ≠ res → st2.heap a = st.heap a) ∧
      InterOK b st2 inter := by
  cases c with
  | operand m =>
    have hm : m ∈ (AlgebraicExpression.operand m).leaves := by simp [AlgebraicExpression.leaves]
    refine ⟨m, none, st, rfl, ?_, hA, hr.dst_get, le_refl _, fun _ _ _ => rfl, ?_⟩
    · simpa [denote] using hr.leaf_get hm
    · intro h hh; simp at hh
  | operation op cs =>
    have hop : op ≠ .AL_EXP_TRANSPOSE := by
      simp [AlgebraicExpression.isMulAdd] at hc
      exact hc.1.1
    have hev := hev rfl
    obtain ⟨aA, hAp, hAlt⟩ := hAb
    obtain ⟨r, hres, hrb, hrl⟩ := hr.dst_live
    have hunf : resolveRight ev (.operation op cs) A u res st =
        (resolveRightStripped ev (.operation op cs) A u res st).bind fun r st =>
          .ok (r.1, false, r.2) st := by
      cases op <;> first | rfl | exact absurd rfl hop
    cases u with
    | false =>
      obtain ⟨st2, e2, hv2, hn2, hf2⟩ := hev b res st hr
      have hne := hu rfl
      refine ⟨res, none, st2, ?_, hv2, ?_, ⟨_, hv2⟩, hn2, hf2, ?_⟩
      · rw [hunf]; simp [resolveRightStripped, hop, e2]
      · subst hAp
        simpa [hf2 aA hAlt hne] using hA
      · intro h hh; simp at hh
    | true =>
      obtain ⟨st1, e1, h1z, h1n, h1f⟩ := GrB_Matrix_new_spec st
      have hf1 : ∀ a, a < b → st1.heap a = st.heap a := by
        intro a ha
        have := h1f (.ptr a) (by intro e; injection e with e; have := hr.bound; omega)
        simpa using this
      have hr1 : Ready V b st1 res (AlgebraicExpression.operation op cs).leaves := by
        refine hr.frame (by omega) ?_ (fun a ha _ => hf1 a ha)
        obtain ⟨d, hd⟩ := hr.dst_get
        subst hres
        exact ⟨d, by simpa [hf1 r hrb] using hd⟩
      have hlive : (st1.heap st.next).isSome = true := by
        simpa using congrArg Option.isSome h1z
      obtain ⟨st2, e2, hv2, hn2, hf2⟩ :=
        hev st1.next (.ptr st.next) st1 (hr1.toInter hr.bound (by omega) hlive)
      have hf : ∀ a, a < b → st2.heap a = st.heap a := by
        intro a ha
        have := hr.bound
        rw [hf2 a (by omega) (by intro e; injection e with e; omega), hf1 a ha]
      refine ⟨.ptr st.next, some (.ptr st.next), st2, ?_, hv2, ?_, ?_, by omega,
        fun a ha _ => hf a ha, ?_⟩
      · rw [hunf]
        simp [resolveRightStripped, hop, GrB_Matrix_nrows_spec hA, e1, e2]
      · subst hAp
        simpa [hf aA hAlt] using hA
      · obtain ⟨d, hd⟩ := hr.dst_get
        subst hres
        exact ⟨d, by simpa [hf r hrb] using hd⟩
      · intro h hh
        injection hh with hh
        subst hh
        refine ⟨st.next, rfl, hr.bound, by omega, ?_⟩
        simpa using congrArg Option.isSome hv2

/-- Release of the scratch matrix: nothing below `b` changes. -/
theorem freeInter_spec {b : Nat} {st : Backend n} {inter : Option GrB_Matrix}
    (hi : InterOK b st inter) :
    ∃ st', freeInter inter st = .ok () st' ∧ st'.next = st.next ∧
      ∀ a, a < b → st'.heap a = st.heap a := by
  cases inter with
  | none => exact ⟨st, rfl, rfl, fun _ _ => rfl⟩
  | some h =>
    obtain ⟨a, rfl, hba, _, _⟩ := hi _ rfl
    obtain ⟨st', e, hn, hf⟩ := GrB_Matrix_free_spec st a
    refine ⟨st', e, hn, ?_⟩
    intro a' ha'
    have := hf (.ptr a') (by intro e; injection e with e; omega)
    simpa using this

/-- A Multiply activation over Multiply/Add subtrees and operands leaves in
`res` the left-to-right product of the values of its children. -/
theorem mul_node {V : GrB_Matrix → Mat n} {ev : Eval n} {op : AL_EXP_OP}
    {cs : List AlgebraicExpression} {b : Nat} {res : GrB_Matrix} {st : Backend n}
    (hlen : 2 ≤ cs.length) (hc : allMulAdd cs = true)
    (hev : ∀ c ∈ cs, c.isOperation = true → EvalOK V ev c)
    (hr : Ready V b st res (leavesList cs)) :
    Post b st res (Mat.prod (denoteList V cs)) (_Eval_MulArbitrary ev (.operation op cs) res st) := by
  match cs, hlen with
  | c0 :: c1 :: rest, _ =>
    rw [allMulAdd_cons, allMulAdd_cons] at hc
    rw [leaves_cons, leaves_cons] at hr
    have hr0 : Ready V b st res c0.leaves := hr.sub (fun m hm => List.mem_append_left _ hm)
    obtain ⟨A, u, st1, e1, hA1, hn1, hf1, hu, hAb, hres1⟩ :=
      resolveLeft_spec hc.1 (hev c0 (by simp)) hr0
    have hrall1 : Ready V b st1 res (c1.leaves ++ leavesList rest) :=
      (hr.sub (fun m hm => List.mem_append_right _ hm)).frame hn1 hres1 hf1
    obtain ⟨B, inter, st2, e2, hB2, hA2, hres2, hn2, hf2, hi2⟩ :=
      resolveRight_spec hc.2.1 (hev c1 (by simp))
        (hrall1.sub (fun m hm => List.mem_append_left _ hm)) hA1 hAb hu
    obtain ⟨d2, hd2⟩ := hres2
    obtain ⟨st3, e3, hw3⟩ := GrB_mxm_spec hd2 hA2 hB2 (some { INP0 := false, INP1 := false })
    have hBne := Backend.ne_identity_of_get hB2
    obtain ⟨r, hres, hrb, _⟩ := hr.dst_live
    have hf3 : ∀ a, a < b → GrB_Matrix.ptr a ≠ res → st3.heap a = st.heap a := by
      intro a ha hne
      have := hw3.2.2 (.ptr a) hne
      simp only [Backend.get_ptr] at this
      rw [this, hf2 a ha hne, hf1 a ha hne]
    have hr3 : Ready V b st3 res (leavesList rest) :=
      (hr.sub (fun m hm => List.mem_append_right _ (List.mem_append_right _ hm))).frame
        (by rw [hw3.2.1]; omega) ⟨_, hw3.1⟩ hf3
    have hi3 : InterOK b st3 inter := by
      subst hres; exact hi2.wrote hw3 hrb
    obtain ⟨inter4, st4, e4, hv4, hn4, hf4, hi4⟩ :=
      mulLoop_spec V ev b res rest hc.2.2
        (fun c hcm => hev c (List.mem_cons_of_mem _ (List.mem_cons_of_mem _ hcm)))
        inter st3 _ hr3 (by simpa [descINP0, descINP1] using hw3.1) hi3
    obtain ⟨st5, e5, hn5, hf5⟩ := freeInter_spec hi4
    refine ⟨st5, ?_, ?_, ?_, ?_⟩
    · simp [_Eval_MulArbitrary, AlgebraicExpression_ChildCount, e1, e2, hBne, e3,
        GrB_Matrix_nvals_spec hw3.1, e4, e5]
    · subst hres
      simp only [Backend.get_ptr, hf5 r hrb]
      simpa [Mat.prod, denoteList_cons] using hv4
    · rw [hn5, hw3.2.1] at *; omega
    · intro a ha hne
      rw [hf5 a ha, hf4 a ha hne, hf3 a ha hne]

/-- An Add activation over Multiply/Add subtrees and operands leaves in `res`
the element-wise OR of the values of its children. -/
theorem add_node {V : GrB_Matrix → Mat n} {ev : Eval n} {op : AL_EXP_OP}
    {cs : List AlgebraicExpression} {b : Nat} {res : GrB_Matrix} {st : Backend n}
    (hlen : 2 ≤ cs.length) (hc : allMulAdd cs = true)
    (hev : ∀ c ∈ cs, c.isOperation = true → EvalOK V ev c)
    (hr : Ready V b st res (leavesList cs)) :
    Post b st res (Mat.sum (denoteList V cs)) (_Eval_AddArbitrary ev (.operation op cs) res st) := by
  match cs, hlen with
  | c0 :: c1 :: rest, _ =>
    rw [allMulAdd_cons, allMulAdd_cons] at hc
    rw [leaves_cons, leaves_cons] at hr
    have hr0 : Ready V b st res c0.leaves := hr.sub (fun m hm => List.mem_append_left _ hm)
    obtain ⟨A, u, st1, e1, hA1, hn1, hf1, hu, hAb, hres1⟩ :=
      resolveLeft_spec hc.1 (hev c0 (by simp)) hr0
    have hrall1 : Ready V b st1 res (c1.leaves ++ leavesList rest) :=
      (hr.sub (fun m hm => List.mem_append_right _ hm)).frame hn1 hres1 hf1
    obtain ⟨B, inter, st2, e2, hB2, hA2, hres2, hn2, hf2, hi2⟩ :=
      resolveRight_spec hc.2.1 (hev c1 (by simp))
        (hrall1.sub (fun m hm => List.mem_append_left _ hm)) hA1 hAb hu
    obtain ⟨d2, hd2⟩ := hres2
    obtain ⟨st3, e3, hw3⟩ :=
      GrB_eWiseAdd_spec hd2 hA2 hB2 (some { INP0 := false, INP1 := false })
    obtain ⟨r, hres, hrb, _⟩ := hr.dst_live
    have hf3 : ∀ a, a < b → GrB_Matrix.ptr a ≠ res → st3.heap a = st.heap a := by
      intro a ha hne
      have := hw3.2.2 (.ptr a) hne
      simp only [Backend.get_ptr] at this
      rw [this, hf2 a ha hne, hf1 a ha hne]
    have hr3 : Ready V b st3 res (leavesList rest) :=
      (hr.sub (fun m hm => List.mem_append_right _ (List.mem_append_right _ hm))).frame
        (by rw [hw3.2.1]; omega) ⟨_, hw3.1⟩ hf3
    have hi3 : InterOK b st3 inter := by
      subst hres; exact hi2.wrote hw3 hrb
    obtain ⟨inter4, st4, e4, hv4, hn4, hf4, hi4⟩ :=
      addLoop_spec V ev b res rest hc.2.2
        (fun c hcm => hev c (List.mem_cons_of_mem _ (List.mem_cons_of_mem _ hcm)))
        inter st3 _ hr3 (by simpa [descINP0, descINP1] using hw3.1) hi3
    obtain ⟨st5, e5, hn5, hf5⟩ := freeInter_spec hi4
    refine ⟨st5, ?_, ?_, ?_, ?_⟩
    · simp [_Eval_AddArbitrary, AlgebraicExpression_ChildCount, e1, e2, e3, e4, e5]
    · subst hres
      simp only [Backend.get_ptr, hf5 r hrb]
      simpa [Mat.sum, denoteList_cons] using hv4
    · rw [hn5, hw3.2.1] at *; omega
    · intro a ha hne
      rw [hf5 a ha, hf4 a ha hne, hf3 a ha hne]

theorem allMulAdd_mem {cs : List AlgebraicExpression} (h : allMulAdd cs = true) :
    ∀ c ∈ cs, c.isMulAdd = true := by
  induction cs with
  | nil => intro c hc; cases hc
  | cons c0 cs ih =>
    rw [allMulAdd_cons] at h
    intro c hc
    rcases List.mem_cons.mp hc with rfl | hc
    · exact h.1
    · exact ih h.2 c hc

theorem depth_le_depthList {cs : List AlgebraicExpression} :
    ∀ c ∈ cs, c.depth ≤ depthList cs := by
  induction cs with
  | nil => intro c hc; cases hc
  | cons c0 cs ih =>
    intro c hc
    simp only [depthList]
    rcases List.mem_cons.mp hc with rfl | hc
    · exact le_max_left _ _
    · exact le_trans (ih c hc) (le_max_right _ _)

/-- The recursive evaluator is correct on every Multiply/Add operation tree once
it is given more levels than the tree has. -/
theorem eval_mulAdd (V : GrB_Matrix → Mat n) :
    ∀ (fuel : Nat) (e : AlgebraicExpression), e.isMulAdd = true → e.isOperation = true →
      e.depth < fuel → EvalOK V (_AlgebraicExpression_EvalArbitrary fuel) e := by
  intro fuel
  induction fuel with
  | zero => intro e _ _ h; omega
  | succ fuel ih =>
    intro e hc ho hd
    cases e with
    | operand m => simp [AlgebraicExpression.isOperation] at ho
    | operation op cs =>
      simp only [AlgebraicExpression.isMulAdd, Bool.and_eq_true, decide_eq_true_eq] at hc
      obtain ⟨⟨hop, hlen⟩, hall⟩ := hc
      simp only [AlgebraicExpression.depth] at hd
      have hev : ∀ c ∈ cs, c.isOperation = true →
          EvalOK V (_AlgebraicExpression_EvalArbitrary fuel) c := by
        intro c hcm hco
        have := depth_le_depthList c hcm
        exact ih c (allMulAdd_mem hall c hcm) hco (by omega)
      intro b dst st hr
      simp only [AlgebraicExpression.leaves] at hr
      cases op with
      | AL_EXP_TRANSPOSE => exact absurd rfl hop
      | AL_EXP_MUL =>
        simpa [_AlgebraicExpression_EvalArbitrary, denote] using mul_node hlen hall hev hr
      | AL_EXP_ADD =>
        simpa [_AlgebraicExpression_EvalArbitrary, denote] using add_node hlen hall hev hr

theorem ready_of_live {st : Backend n} {res : GrB_Matrix} {ms : List GrB_Matrix}
    (hres : st.liveBelow st.next res = true)
    (hms : ∀ m ∈ ms, m ≠ res ∧ st.liveBelow st.next m = true) :
    Ready st.val st.next st res ms := by
  refine ⟨le_refl _, ?_, ?_⟩
  · cases res with
    | IDENTITY_MATRIX => simp [Backend.liveBelow] at hres
    | ptr r =>
      simp only [Backend.liveBelow, Bool.and_eq_true, decide_eq_true_eq] at hres
      exact ⟨r, rfl, hres.1, hres.2⟩
  · intro m hm
    obtain ⟨hne, hl⟩ := hms m hm
    refine ⟨hne, ?_⟩
    cases m with
    | IDENTITY_MATRIX => simp [Backend.liveBelow] at hl
    | ptr a =>
      simp only [Backend.liveBelow, Bool.and_eq_true, decide_eq_true_eq] at hl
      obtain ⟨d, hd⟩ := Option.isSome_iff_exists.mp hl.2
      exact ⟨a, rfl, hl.1, by simp [Backend.val, hd]⟩

/-- The top-level entry point on an operation root: the recursive evaluator with
as many levels as the tree has. -/
theorem evalArbitrary_operation (op : AL_EXP_OP) (cs : List AlgebraicExpression)
    (res : GrB_Matrix) (st : Backend n) :
    AlgebraicExpression_EvalArbitrary (.operation op cs) res st =
      (_AlgebraicExpression_EvalArbitrary ((AlgebraicExpression.operation op cs).depth + 1)
        (.operation op cs) res st).bind fun _ st => .ok () st := rfl

/-- The top-level evaluation of a Multiply/Add tree over live operands completes
and leaves in `res` the denotation of the tree. -/
theorem evalArbitrary_mulAdd_core (e : AlgebraicExpression) (res : GrB_Matrix)
    (st : Backend n) (he : e.isMulAdd = true) (hop : e.isOperation = true)
    (hres : st.liveBelow st.next res = true)
    (hleaves : ∀ m ∈ e.leaves, m ≠ res ∧ st.liveBelow st.next m = true) :
    ∃ st', AlgebraicExpression_EvalArbitrary e res st = .ok () st' ∧
      st'.get res = some (denote st.val e) := by
  obtain ⟨st', e1, hv, _, _⟩ :=
    eval_mulAdd st.val (e.depth + 1) e he hop (Nat.lt_succ_self _) st.next res st
      (ready_of_live hres hleaves)
  cases e with
  | operand m => simp [AlgebraicExpression.isOperation] at hop
  | operation op cs =>
    exact ⟨st', by rw [evalArbitrary_operation, e1]; rfl, hv⟩

/-! ## Chains of operands -/

theorem leavesList_operands (ms : List GrB_Matrix) :
    leavesList (ms.map AlgebraicExpression.operand) = ms := by
  induction ms with
  | nil => rfl
  | cons m ms ih => simp [leavesList, AlgebraicExpression.leaves, ih]

theorem denoteList_operands (V : GrB_Matrix → Mat n) (ms : List GrB_Matrix) :
    denoteList V (ms.map AlgebraicExpression.operand) = ms.map V := by
  induction ms with
  | nil => rfl
  | cons m ms ih => simp [denoteList, denote, ih]

theorem allMulAdd_operands {st : Backend n} {b : Nat} (ms : List GrB_Matrix)
    (h : ∀ m ∈ ms, st.liveBelow b m = true) :
    allMulAdd (ms.map AlgebraicExpression.operand) = true := by
  induction ms with
  | nil => rfl
  | cons m ms ih =>
    have hm := h m (List.mem_cons_self _ _)
    have hne : m ≠ .IDENTITY_MATRIX := by
      rintro rfl; simp [Backend.liveBelow] at hm
    simp [allMulAdd, AlgebraicExpression.isMulAdd, hne,
      ih (fun m' hm' => h m' (List.mem_cons_of_mem _ hm'))]

/-- A k-ary node over operands that are live matrices is a Multiply/Add tree. -/
theorem isMulAdd_operands {st : Backend n} {b : Nat} {op : AL_EXP_OP} (ms : List GrB_Matrix)
    (hop : op ≠ .AL_EXP_TRANSPOSE) (hk : 2 ≤ ms.length)
    (h : ∀ m ∈ ms, st.liveBelow b m = true) :
    (AlgebraicExpression.operation op (ms.map AlgebraicExpression.operand)).isMulAdd = true := by
  simp [AlgebraicExpression.isMulAdd, hop, hk, allMulAdd_operands ms h]

theorem foldl_mxm_walk (Ms : List (Mat n)) :
    ∀ (M : Mat n) (i j : Fin n),
      Ms.foldl Mat.mxm M i j = true ↔ ∃ k, M i k = true ∧ Walk Ms k j := by
  induction Ms with
  | nil =>
    intro M i j
    simp [Walk]
  | cons M' Ms ih =>
    intro M i j
    rw [List.foldl_cons, ih]
    simp only [Mat.mxm_apply, Walk]
    constructor
    · rintro ⟨k, ⟨l, h1, h2⟩, h3⟩
      exact ⟨l, h1, k, h2, h3⟩
    · rintro ⟨l, h1, k, h2, h3⟩
      exact ⟨k, ⟨l, h1, h2⟩, h3⟩

theorem prod_walk (M : Mat n) (Ms : List (Mat n)) (i j : Fin n) :
    Mat.prod (M :: Ms) i j = true ↔ Walk (M :: Ms) i j := by
  simp only [Mat.prod, foldl_mxm_walk, Walk]

theorem prod_walk_of_ne_nil {Ms : List (Mat n)} (h : Ms ≠ []) (i j : Fin n) :
    Mat.prod Ms i j = true ↔ Walk Ms i j := by
  cases Ms with
  | nil => exact absurd rfl h
  | cons M Ms => exact prod_walk M Ms i j

/-- A walk is a sequence of indices `x 0, ..., x k` with each step a stored
entry of the matrix at that position. -/
theorem walk_iff_indices (Ms : List (Mat n)) :
    ∀ (i j : Fin n), Walk Ms i j ↔
      ∃ x : Nat → Fin n, x 0 = i ∧ x Ms.length = j ∧
        ∀ (t : Nat) (ht : t < Ms.length), Ms.get ⟨t, ht⟩ (x t) (x (t + 1)) = true := by
  induction Ms with
  | nil =>
    intro i j
    simp only [Walk, List.length_nil]
    constructor
    · rintro rfl
      exact ⟨fun _ => i, rfl, rfl, fun t ht => absurd ht (Nat.not_lt_zero t)⟩
    · rintro ⟨x, h0, h1, _⟩
      rw [← h0, ← h1]
  | cons M Ms ih =>
    intro i j
    simp only [Walk, List.length_cons]
    constructor
    · rintro ⟨k, hk, hw⟩
      obtain ⟨x, h0, h1, hx⟩ := (ih k j).mp hw
      refine ⟨fun t => if t = 0 then i else x (t - 1), by simp, by simpa using h1, ?_⟩
      intro t ht
      cases t with
      | zero => simpa [h0] using hk
      | succ t =>
        have := hx t (by omega)
        simpa using this
    · rintro ⟨x, h0, h1, hx⟩
      refine ⟨x 1, ?_, (ih (x 1) j).mpr ⟨fun t => x (t + 1), rfl, h1, ?_⟩⟩
      · have := hx 0 (by omega)
        simpa [h0] using this
      · intro t ht
        have := hx (t + 1) (by omega)
        simpa using this

/-! ### Transpose absorption -/

/-- The recursive evaluator on a Multiply/Add tree or an operand, with enough
levels: the handle it returns holds the value of the tree. -/
theorem eval_mulAdd_any (V : GrB_Matrix → Mat n) {fuel : Nat} {X : AlgebraicExpression}
    (hX : X.isMulAdd = true) (hd : X.depth < fuel) {b : Nat} {dst : GrB_Matrix}
    {st : Backend n} (hr : Ready V b st dst X.leaves) :
    ∃ A st1, _AlgebraicExpression_EvalArbitrary fuel X dst st = .ok A st1 ∧
      st1.get A = some (denote V X) ∧ st.next ≤ st1.next ∧
      (∀ a, a < b → GrB_Matrix.ptr a ≠ dst → st1.heap a = st.heap a) ∧
      (∃ a, A = .ptr a ∧ a < b) ∧ (∃ d, st1.get dst = some d) := by
  cases X with
  | operand m =>
    have hm : m ∈ (AlgebraicExpression.operand m).leaves := by simp [AlgebraicExpression.leaves]
    obtain ⟨_, a, ha, hab, _⟩ := hr.leaf m hm
    cases fuel with
    | zero => omega
    | succ fuel =>
      refine ⟨m, st, rfl, ?_, le_refl _, fun _ _ _ => rfl, ⟨a, ha, hab⟩, hr.dst_get⟩
      simpa [denote] using hr.leaf_get hm
  | operation op cs =>
    obtain ⟨st1, e1, hv, hn, hf⟩ := eval_mulAdd V fuel _ hX rfl hd b dst st hr
    obtain ⟨r, hres, hrb, _⟩ := hr.dst_live
    exact ⟨dst, st1, e1, hv, hn, hf, ⟨r, hres, hrb⟩, ⟨_, hv⟩⟩

/-- Multiply with a Transpose as first child and an operand as second. -/
theorem mul_transpose_left {V : GrB_Matrix → Mat n} {ev : Eval n} {X : AlgebraicExpression}
    {Y res : GrB_Matrix} {b : Nat} {st : Backend n}
    (hr : Ready V b st res (Y :: X.leaves))
    (hev : ∃ A st1, ev X res st = .ok A st1 ∧
      st1.get A = some (denote V X) ∧ st.next ≤ st1.next ∧
      (∀ a, a < b → GrB_Matrix.ptr a ≠ res → st1.heap a = st.heap a) ∧
      (∃ a, A = .ptr a ∧ a < b) ∧ (∃ d, st1.get res = some d)) :
    Post b st res (Mat.mxm (denote V X).transpose (V Y))
      (_Eval_MulArbitrary ev
        (.operation .AL_EXP_MUL [.operation .AL_EXP_TRANSPOSE [X], .operand Y]) res st) := by
  obtain ⟨A, st1, e1, hA, hn1, hf1, _, d, hd⟩ := hev
  obtain ⟨hYne, y, hYp, hyb, hYv⟩ := hr.leaf Y (List.mem_cons_self _ _)
  have hY1 : st1.get Y = some (V Y) := by
    subst hYp
    simpa [hf1 y hyb hYne] using hYv
  obtain ⟨st2, e2, hw2⟩ := GrB_mxm_spec hd hA hY1 (some { INP0 := true, INP1 := false })
  have hYid := Backend.ne_identity_of_get hY1
  refine ⟨st2, ?_, by simpa [descINP0, descINP1] using hw2.1, by rw [hw2.2.1]; exact hn1, ?_⟩
  · simp [_Eval_MulArbitrary, AlgebraicExpression_ChildCount, resolveLeft, e1, resolveRight,
      resolveRightStripped, hYid, e2, GrB_Matrix_nvals_spec hw2.1, mulLoop, freeInter]
  · intro a ha hne
    have := hw2.2.2 (.ptr a) hne
    simp only [Backend.get_ptr] at this
    rw [this, hf1 a ha hne]

/-- Add with a Transpose as first child and an operand as second. -/
theorem add_transpose_left {V : GrB_Matrix → Mat n} {ev : Eval n} {X : AlgebraicExpression}
    {Y res : GrB_Matrix} {b : Nat} {st : Backend n}
    (hr : Ready V b st res (Y :: X.leaves))
    (hev : ∃ A st1, ev X res st = .ok A st1 ∧
      st1.get A = some (denote V X) ∧ st.next ≤ st1.next ∧
      (∀ a, a < b → GrB_Matrix.ptr a ≠ res → st1.heap a = st.heap a) ∧
      (∃ a, A = .ptr a ∧ a < b) ∧ (∃ d, st1.get res = some d)) :
    Post b st res (Mat.eWiseAdd (denote V X).transpose (V Y))
      (_Eval_AddArbitrary ev
        (.operation .AL_EXP_ADD [.operation .AL_EXP_TRANSPOSE [X], .operand Y]) res st) := by
  obtain ⟨A, st1, e1, hA, hn1, hf1, _, d, hd⟩ := hev
  obtain ⟨hYne, y, hYp, hyb, hYv⟩ := hr.leaf Y (List.mem_cons_self _ _)
  have hY1 : st1.get Y = some (V Y) := by
    subst hYp
    simpa [hf1 y hyb hYne] using hYv
  obtain ⟨st2, e2, hw2⟩ := GrB_eWiseAdd_spec hd hA hY1 (some { INP0 := true, INP1 := false })
  refine ⟨st2, ?_, by simpa [descINP0, descINP1] using hw2.1, by rw [hw2.2.1]; exact hn1, ?_⟩
  · simp [_Eval_AddArbitrary, AlgebraicExpression_ChildCount, resolveLeft, e1, resolveRight,
      resolveRightStripped, e2, addLoop, freeInter]
  · intro a ha hne
    have := hw2.2.2 (.ptr a) hne
    simp only [Backend.get_ptr] at this
    rw [this, hf1 a ha hne]

/-- The right operand of a binary activation whose left child is the operand
`Y` and whose right child is `Transpose (X)`: slot `INP1` is set and the handle
holds the value of `X`. -/
theorem resolveRight_transpose {V : GrB_Matrix → Mat n} {ev : Eval n}
    {X : AlgebraicExpression} {Y res : GrB_Matrix} {b : Nat} {st : Backend n}
    (hX : X.isMulAdd = true) (hev : X.isOperation = true → EvalOK V ev X)
    (hr : Ready V b st res (Y :: X.leaves)) :
    ∃ B st1, resolveRight ev (.operation .AL_EXP_TRANSPOSE [X]) Y false res st =
        .ok (B, true, none) st1 ∧
      st1.get B = some (denote V X) ∧ st1.get Y = some (V Y) ∧
      (∃ d, st1.get res = some d) ∧ st.next ≤ st1.next ∧
      (∀ a, a < b → GrB_Matrix.ptr a ≠ res → st1.heap a = st.heap a) := by
  obtain ⟨hYne, y, hYp, hyb, hYv⟩ := hr.leaf Y (List.mem_cons_self _ _)
  have hrX : Ready V b st res X.leaves := hr.sub (fun m hm => List.mem_cons_of_mem _ hm)
  cases X with
  | operand m =>
    have hm : m ∈ (AlgebraicExpression.operand m).leaves := by simp [AlgebraicExpression.leaves]
    refine ⟨m, st, rfl, ?_, ?_, hr.dst_get, le_refl _, fun _ _ _ => rfl⟩
    · simpa [denote] using hrX.leaf_get hm
    · subst hYp; exact hYv
  | operation op cs =>
    have hop : op ≠ .AL_EXP_TRANSPOSE := by
      simp [AlgebraicExpression.isMulAdd] at hX
      exact hX.1.1
    obtain ⟨st1, e1, hv1, hn1, hf1⟩ := hev rfl b res st hrX
    refine ⟨res, st1, ?_, hv1, ?_, ⟨_, hv1⟩, hn1, hf1⟩
    · simp [resolveRight, resolveRightStripped, hop, e1]
    · subst hYp
      simpa [hf1 y hyb hYne] using hYv

/-- Multiply with an operand as first child and a Transpose as second. -/
theorem mul_transpose_right {V : GrB_Matrix → Mat n} {ev : Eval n} {X : AlgebraicExpression}
    {Y res : GrB_Matrix} {b : Nat} {st : Backend n}
    (hX : X.isMulAdd = true) (hev : X.isOperation = true → EvalOK V ev X)
    (hr : Ready V b st res (Y :: X.leaves)) :
    Post b st res (Mat.mxm (V Y) (denote V X).transpose)
      (_Eval_MulArbitrary ev
        (.operation .AL_EXP_MUL [.operand Y, .operation .AL_EXP_TRANSPOSE [X]]) res st) := by
  obtain ⟨B, st1, e1, hB, hY, ⟨d, hd⟩, hn1, hf1⟩ := resolveRight_transpose hX hev hr
  obtain ⟨st2, e2, hw2⟩ := GrB_mxm_spec hd hY hB (some { INP0 := false, INP1 := true })
  have hBid := Backend.ne_identity_of_get hB
  refine ⟨st2, ?_, by simpa [descINP0, descINP1] using hw2.1, by rw [hw2.2.1]; exact hn1, ?_⟩
  · simp [_Eval_MulArbitrary, AlgebraicExpression_ChildCount, resolveLeft, e1,
      hBid, e2, GrB_Matrix_nvals_spec hw2.1, mulLoop, freeInter]
  · intro a ha hne
    have := hw2.2.2 (.ptr a) hne
    simp only [Backend.get_ptr] at this
    rw [this, hf1 a ha hne]

/-- Add with an operand as first child and a Transpose as second. -/
theorem add_transpose_right {V : GrB_Matrix → Mat n} {ev : Eval n} {X : AlgebraicExpression}
    {Y res : GrB_Matrix} {b : Nat} {st : Backend n}
    (hX : X.isMulAdd = true) (hev : X.isOperation = true → EvalOK V ev X)
    (hr : Ready V b st res (Y :: X.leaves)) :
    Post b st res (Mat.eWiseAdd (V Y) (denote V X).transpose)
      (_Eval_AddArbitrary ev
        (.operation .AL_EXP_ADD [.operand Y, .operation .AL_EXP_TRANSPOSE [X]]) res st) := by
  obtain ⟨B, st1, e1, hB, hY, ⟨d, hd⟩, hn1, hf1⟩ := resolveRight_transpose hX hev hr
  obtain ⟨st2, e2, hw2⟩ := GrB_eWiseAdd_spec hd hY hB (some { INP0 := false, INP1 := true })
  refine ⟨st2, ?_, by simpa [descINP0, descINP1] using hw2.1, by rw [hw2.2.1]; exact hn1, ?_⟩
  · simp [_Eval_AddArbitrary, AlgebraicExpression_ChildCount, resolveLeft, e1,
      e2, addLoop, freeInter]
  · intro a ha hne
    have := hw2.2.2 (.ptr a) hne
    simp only [Backend.get_ptr] at this
    rw [this, hf1 a ha hne]

/-- From the recursive evaluator on an operation root to the top-level entry
point. -/
theorem evalArbitrary_of_post {op : AL_EXP_OP} {cs : List AlgebraicExpression}
    {res : GrB_Matrix} {st : Backend n} {b : Nat} {M : Mat n}
    (h : Post b st res M
      (_AlgebraicExpression_EvalArbitrary ((AlgebraicExpression.operation op cs).depth + 1)
        (.operation op cs) res st)) :
    ∃ st', AlgebraicExpression_EvalArbitrary (.operation op cs) res st = .ok () st' ∧
      st'.get res = some M := by
  obtain ⟨st', e, hv, _, _⟩ := h
  exact ⟨st', by rw [evalArbitrary_operation, e]; rfl, hv⟩

theorem ready_cons_of_live {st : Backend n} {res Y : GrB_Matrix} {ms : List GrB_Matrix}
    (hres : st.liveBelow st.next res = true)
    (hY : Y ≠ res ∧ st.liveBelow st.next Y = true)
    (hms : ∀ m ∈ ms, m ≠ res ∧ st.liveBelow st.next m = true) :
    Ready st.val st.next st res (Y :: ms) := by
  apply ready_of_live hres
  intro m hm
  rcases List.mem_cons.mp hm with rfl | hm
  · exact hY
  · exact hms m hm

/-- The top-level entry point on a Multiply root, from its activation. -/
theorem evalArbitrary_mul_of_post {cs : List AlgebraicExpression} {res : GrB_Matrix}
    {st : Backend n} {b fuel : Nat} {M : Mat n} (hf : depthList cs + 1 = fuel)
    (h : Post b st res M
      (_Eval_MulArbitrary (_AlgebraicExpression_EvalArbitrary fuel)
        (.operation .AL_EXP_MUL cs) res st)) :
    ∃ st', AlgebraicExpression_EvalArbitrary (.operation .AL_EXP_MUL cs) res st = .ok () st' ∧
      st'.get res = some M := by
  subst hf
  exact evalArbitrary_of_post h

/-- The top-level entry point on an Add root, from its activation. -/
theorem evalArbitrary_add_of_post {cs : List AlgebraicExpression} {res : GrB_Matrix}
    {st : Backend n} {b fuel : Nat} {M : Mat n} (hf : depthList cs + 1 = fuel)
    (h : Post b st res M
      (_Eval_AddArbitrary (_AlgebraicExpression_EvalArbitrary fuel)
        (.operation .AL_EXP_ADD cs) res st)) :
    ∃ st', AlgebraicExpression_EvalArbitrary (.operation .AL_EXP_ADD cs) res st = .ok () st' ∧
      st'.get res = some M := by
  subst hf
  exact evalArbitrary_of_post h

/-- The top-level entry point on a Transpose root, from its activation. -/
theorem evalArbitrary_transpose_of_post {cs : List AlgebraicExpression} {res : GrB_Matrix}
    {st : Backend n} {b fuel : Nat} {M : Mat n} (hf : depthList cs + 1 = fuel)
    (h : Post b st res M
      (_Eval_TransposeArbitrary (_AlgebraicExpression_EvalArbitrary fuel)
        (.operation .AL_EXP_TRANSPOSE cs) res st)) :
    ∃ st', AlgebraicExpression_EvalArbitrary (.operation .AL_EXP_TRANSPOSE cs) res st
        = .ok () st' ∧
      st'.get res = some M := by
  subst hf
  exact evalArbitrary_of_post h

/-- Transpose absorption, the four shapes together. -/
theorem transpose_absorbed_core (X : AlgebraicExpression) (Y res : GrB_Matrix)
    (st : Backend n) (hX : X.isMulAdd = true)
    (hres : st.liveBelow st.next res = true)
    (hY : Y ≠ res ∧ st.liveBelow st.next Y = true)
    (hleaves : ∀ m ∈ X.leaves, m ≠ res ∧ st.liveBelow st.next m = true) :
    (∃ st', AlgebraicExpression_EvalArbitrary (mulOf [transposeOf X, .operand Y]) res st
        = .ok () st' ∧
      st'.get res = some (Mat.mxm (denote st.val X).transpose (st.val Y))) ∧
    (∃ st', AlgebraicExpression_EvalArbitrary (mulOf [.operand Y, transposeOf X]) res st
        = .ok () st' ∧
      st'.get res = some (Mat.mxm (st.val Y) (denote st.val X).transpose)) ∧
    (∃ st', AlgebraicExpression_EvalArbitrary (addOf [transposeOf X, .operand Y]) res st
        = .ok () st' ∧
      st'.get res = some (Mat.eWiseAdd (denote st.val X).transpose (st.val Y))) ∧
    (∃ st', AlgebraicExpression_EvalArbitrary (addOf [.operand Y, transposeOf X]) res st
        = .ok () st' ∧
      st'.get res = some (Mat.eWiseAdd (st.val Y) (denote st.val X).transpose)) := by
  have hr := ready_cons_of_live hres hY hleaves
  have hrX : Ready st.val st.next st res X.leaves :=
    hr.sub (fun m hm => List.mem_cons_of_mem _ hm)
  have hany := eval_mulAdd_any st.val hX (show X.depth < X.depth + 1 + 1 by omega) hrX
  have hev : X.isOperation = true →
      EvalOK st.val (_AlgebraicExpression_EvalArbitrary (X.depth + 1 + 1)) X :=
    fun ho => eval_mulAdd st.val _ X hX ho (by omega)
  have hd1 : depthList [transposeOf X, .operand Y] + 1 = X.depth + 1 + 1 := by
    simp [depthList, AlgebraicExpression.depth, transposeOf]
  have hd2 : depthList [.operand Y, transposeOf X] + 1 = X.depth + 1 + 1 := by
    simp [depthList, AlgebraicExpression.depth, transposeOf]
  exact ⟨evalArbitrary_mul_of_post hd1 (mul_transpose_left hr hany),
    evalArbitrary_mul_of_post hd2 (mul_transpose_right hX hev hr),
    evalArbitrary_add_of_post hd1 (add_transpose_left hr hany),
    evalArbitrary_add_of_post hd2 (add_transpose_right hX hev hr)⟩

/-- A Transpose activation over an operation child: the child is evaluated into
`res`, which is then transposed in place. -/
theorem transpose_node (ev : Eval n) (X : AlgebraicExpression) {res : GrB_Matrix}
    {st : Backend n} {b : Nat} {M : Mat n} (hX : X.isOperation = true)
    (h : Post b st res M (ev X res st)) :
    Post b st res M.transpose
      (_Eval_TransposeArbitrary ev (.operation .AL_EXP_TRANSPOSE [X]) res st) := by
  obtain ⟨st1, e1, hv1, hn1, hf1⟩ := h
  obtain ⟨st2, e2, hw2⟩ := GrB_transpose_spec hv1 hv1
  cases X with
  | operand m => simp [AlgebraicExpression.isOperation] at hX
  | operation op cs =>
    refine ⟨st2, ?_, hw2.1, by rw [hw2.2.1]; exact hn1, ?_⟩
    · simp [_Eval_TransposeArbitrary, AlgebraicExpression_ChildCount, FIRST_CHILD, CHILD_AT,
        e1, e2]
    · intro a ha hne
      have := hw2.2.2 (.ptr a) hne
      simp only [Backend.get_ptr] at this
      rw [this, hf1 a ha hne]

theorem eval_succ_transpose (fuel : Nat) (cs : List AlgebraicExpression) (res : GrB_Matrix)
    (st : Backend n) :
    _AlgebraicExpression_EvalArbitrary (fuel + 1) (.operation .AL_EXP_TRANSPOSE cs) res st =
      _Eval_TransposeArbitrary (_AlgebraicExpression_EvalArbitrary fuel)
        (.operation .AL_EXP_TRANSPOSE cs) res st := rfl

theorem eval_succ_operand (fuel : Nat) (m res : GrB_Matrix) (st : Backend n) :
    _AlgebraicExpression_EvalArbitrary (fuel + 1) (.operand m) res st = .ok m st := rfl

/-- Multiply of two transposed operands. -/
theorem mul_transpose_both {V : GrB_Matrix → Mat n} {ev : Eval n} {A B res : GrB_Matrix}
    {b : Nat} {st : Backend n} (hr : Ready V b st res [A, B])
    (hev : ev (.operand B) res st = .ok B st) :
    Post b st res (Mat.mxm (V B).transpose (V A).transpose)
      (_Eval_MulArbitrary ev
        (.operation .AL_EXP_MUL [.operation .AL_EXP_TRANSPOSE [.operand B],
          .operation .AL_EXP_TRANSPOSE [.operand A]]) res st) := by
  have hA := hr.leaf_get (m := A) (by simp)
  have hB := hr.leaf_get (m := B) (by simp)
  obtain ⟨d, hd⟩ := hr.dst_get
  obtain ⟨st2, e2, hw2⟩ := GrB_mxm_spec hd hB hA (some { INP0 := true, INP1 := true })
  have hAid := Backend.ne_identity_of_get hA
  refine ⟨st2, ?_, by simpa [descINP0, descINP1] using hw2.1, by rw [hw2.2.1], ?_⟩
  · simp [_Eval_MulArbitrary, AlgebraicExpression_ChildCount, resolveLeft, hev, resolveRight,
      resolveRightStripped, hAid, e2, GrB_Matrix_nvals_spec hw2.1, mulLoop, freeInter]
  · intro a _ hne
    have := hw2.2.2 (.ptr a) hne
    simpa using this

theorem ne_identity_of_live {st : Backend n} {b : Nat} {m : GrB_Matrix}
    (h : st.liveBelow b m = true) : m ≠ .IDENTITY_MATRIX := by
  rintro rfl
  simp [Backend.liveBelow] at h

theorem isMulAdd_leaf {st : Backend n} {b : Nat} {m : GrB_Matrix}
    (h : st.liveBelow b m = true) : (AlgebraicExpression.operand m).isMulAdd = true := by
  cases m with
  | IDENTITY_MATRIX => simp [Backend.liveBelow] at h
  | ptr a => simp [AlgebraicExpression.isMulAdd]

/-- `Transpose (Multiply (A, B))` and `Multiply (Transpose (B), Transpose (A))`. -/
theorem transpose_mul_core (A B res : GrB_Matrix) (st : Backend n)
    (hres : st.liveBelow st.next res = true)
    (hA : A ≠ res ∧ st.liveBelow st.next A = true)
    (hB : B ≠ res ∧ st.liveBelow st.next B = true) :
    ∃ st1 st2,
      AlgebraicExpression_EvalArbitrary (transposeOf (mulOf [.operand A, .operand B])) res st
        = .ok () st1 ∧
      AlgebraicExpression_EvalArbitrary
        (mulOf [transposeOf (.operand B), transposeOf (.operand A)]) res st = .ok () st2 ∧
      st1.get res = st2.get res ∧
      st2.get res = some (Mat.mxm (st.val A) (st.val B)).transpose := by
  have hr : Ready st.val st.next st res [A, B] :=
    ready_cons_of_live hres hA (by
      intro m hm
      rw [List.mem_singleton] at hm
      subst hm
      exact hB)
  have hmul : (mulOf [.operand A, .operand B]).isMulAdd = true := by
    simp [mulOf, AlgebraicExpression.isMulAdd, allMulAdd, ne_identity_of_live hA.2,
      ne_identity_of_live hB.2]
  have h1 := eval_mulAdd st.val (0 + 1 + 1) (mulOf [.operand A, .operand B]) hmul rfl
    (by simp [mulOf, AlgebraicExpression.depth, depthList]) st.next res st
    (by simpa [mulOf, AlgebraicExpression.leaves, leavesList] using hr)
  obtain ⟨st1, e1, hv1⟩ := evalArbitrary_transpose_of_post
    (by simp [mulOf, AlgebraicExpression.depth, depthList]) (transpose_node _ (mulOf [.operand A, .operand B]) rfl h1)
  have hd2 : depthList [transposeOf (.operand B), transposeOf (.operand A)] + 1
      = 0 + 1 + 1 := by
    simp [transposeOf, AlgebraicExpression.depth, depthList]
  obtain ⟨st2, e2, hv2⟩ := evalArbitrary_mul_of_post hd2
    (mul_transpose_both hr (eval_succ_operand _ B res st))
  refine ⟨st1, st2, e1, e2, ?_, ?_⟩
  · rw [hv1, hv2]
    simp [mulOf, denote, denoteList, Mat.prod, Mat.transpose_mxm]
  · rw [hv2, Mat.transpose_mxm]

/-- The recursive evaluator on `Transpose (T)` for a Multiply/Add operation
`T`. -/
theorem eval_transposeOf (V : GrB_Matrix → Mat n) {fuel : Nat} {T : AlgebraicExpression}
    (hT : T.isMulAdd = true) (hop : T.isOperation = true) (hd : T.depth + 1 < fuel)
    {b : Nat} {res : GrB_Matrix} {st : Backend n} (hr : Ready V b st res T.leaves) :
    Post b st res (denote V T).transpose
      (_AlgebraicExpression_EvalArbitrary fuel (transposeOf T) res st) := by
  cases fuel with
  | zero => omega
  | succ fuel =>
    exact transpose_node _ T hop (eval_mulAdd V fuel T hT hop (by omega) b res st hr)

theorem evalArbitrary_mulOf (cs : List AlgebraicExpression) (res : GrB_Matrix)
    (st : Backend n) :
    AlgebraicExpression_EvalArbitrary (mulOf cs) res st =
      (_Eval_MulArbitrary (_AlgebraicExpression_EvalArbitrary (depthList cs + 1)) (mulOf cs)
        res st).bind fun _ st => .ok () st := rfl

theorem evalArbitrary_addOf (cs : List AlgebraicExpression) (res : GrB_Matrix)
    (st : Backend n) :
    AlgebraicExpression_EvalArbitrary (addOf cs) res st =
      (_Eval_AddArbitrary (_AlgebraicExpression_EvalArbitrary (depthList cs + 1)) (addOf cs)
        res st).bind fun _ st => .ok () st := rfl

/-- Commutativity and associativity of Add under the evaluator. -/
theorem add_comm_assoc_core (A B C res : GrB_Matrix) (st : Backend n)
    (hres : st.liveBelow st.next res = true)
    (hA : A ≠ res ∧ st.liveBelow st.next A = true)
    (hB : B ≠ res ∧ st.liveBelow st.next B = true)
    (hC : C ≠ res ∧ st.liveBelow st.next C = true) :
    (∃ st1 st2,
      AlgebraicExpression_EvalArbitrary (addOf [.operand A, .operand B]) res st = .ok () st1 ∧
      AlgebraicExpression_EvalArbitrary (addOf [.operand B, .operand A]) res st = .ok () st2 ∧
      st1.get res = st2.get res) ∧
    (∃ st1 st2,
      AlgebraicExpression_EvalArbitrary
        (addOf [.operand A, addOf [.operand B, .operand C]]) res st = .ok () st1 ∧
      AlgebraicExpression_EvalArbitrary
        (addOf [addOf [.operand A, .operand B], .operand C]) res st = .ok () st2 ∧
      st1.get res = st2.get res) := by
  have hAi := ne_identity_of_live hA.2
  have hBi := ne_identity_of_live hB.2
  have hCi := ne_identity_of_live hC.2
  have hl : ∀ ms : List GrB_Matrix, (∀ m ∈ ms, m = A ∨ m = B ∨ m = C) →
      ∀ m ∈ ms, m ≠ res ∧ st.liveBelow st.next m = true := by
    intro ms h m hm
    rcases h m hm with rfl | rfl | rfl
    · exact hA
    · exact hB
    · exact hC
  constructor
  · obtain ⟨st1, e1, hv1⟩ := evalArbitrary_mulAdd_core (addOf [.operand A, .operand B]) res st
      (by simp [addOf, AlgebraicExpression.isMulAdd, allMulAdd, hAi, hBi]) rfl hres
      (hl _ (by simp [addOf, AlgebraicExpression.leaves, leavesList]))
    obtain ⟨st2, e2, hv2⟩ := evalArbitrary_mulAdd_core (addOf [.operand B, .operand A]) res st
      (by simp [addOf, AlgebraicExpression.isMulAdd, allMulAdd, hAi, hBi]) rfl hres
      (hl _ (by simp [addOf, AlgebraicExpression.leaves, leavesList]))
    refine ⟨st1, st2, e1, e2, ?_⟩
    rw [hv1, hv2]
    simp [addOf, denote, denoteList, Mat.sum, Mat.eWiseAdd_comm (st.val A)]
  · obtain ⟨st1, e1, hv1⟩ := evalArbitrary_mulAdd_core
      (addOf [.operand A, addOf [.operand B, .operand C]]) res st
      (by simp [addOf, AlgebraicExpression.isMulAdd, allMulAdd, hAi, hBi, hCi]) rfl hres
      (hl _ (by
        simp only [addOf, AlgebraicExpression.leaves, leavesList]
        intro m hm; simp at hm; tauto))
    obtain ⟨st2, e2, hv2⟩ := evalArbitrary_mulAdd_core
      (addOf [addOf [.operand A, .operand B], .operand C]) res st
      (by simp [addOf, AlgebraicExpression.isMulAdd, allMulAdd, hAi, hBi, hCi]) rfl hres
      (hl _ (by
        simp only [addOf, AlgebraicExpression.leaves, leavesList]
        intro m hm; simp at hm; tauto))
    refine ⟨st1, st2, e1, e2, ?_⟩
    rw [hv1, hv2]
    simp [addOf, denote, denoteList, Mat.sum, Mat.eWiseAdd_assoc]

theorem foldl_eWiseAdd_apply (Ms : List (Mat n)) :
    ∀ (M : Mat n) (i j : Fin n),
      Ms.foldl Mat.eWiseAdd M i j = true ↔ M i j = true ∨ ∃ N ∈ Ms, N i j = true := by
  induction Ms with
  | nil => intro M i j; simp
  | cons N Ms ih =>
    intro M i j
    rw [List.foldl_cons, ih]
    simp [Mat.eWiseAdd, or_assoc]

/-- An entry of the element-wise OR of a sequence is set exactly when it is set
in one of its matrices. -/
theorem sum_apply (Ms : List (Mat n)) (i j : Fin n) :
    Mat.sum Ms i j = true ↔ ∃ N ∈ Ms, N i j = true := by
  cases Ms with
  | nil => simp [Mat.sum, Mat.zero]
  | cons M Ms => simp [Mat.sum, foldl_eWiseAdd_apply]

/-- The k-ary Add of operands is the element-wise OR of all of them, in any
order of the children. -/
theorem add_operands_core (ms ms' : List GrB_Matrix) (res : GrB_Matrix) (st : Backend n)
    (hperm : ms.Perm ms') (hk : 2 ≤ ms.length)
    (hres : st.liveBelow st.next res = true)
    (hms : ∀ m ∈ ms, m ≠ res ∧ st.liveBelow st.next m = true) :
    ∃ st1 st2 R,
      AlgebraicExpression_EvalArbitrary
        (.operation .AL_EXP_ADD (ms.map AlgebraicExpression.operand)) res st = .ok () st1 ∧
      AlgebraicExpression_EvalArbitrary
        (.operation .AL_EXP_ADD (ms'.map AlgebraicExpression.operand)) res st = .ok () st2 ∧
      st1.get res = some R ∧ st2.get res = some R ∧
      ∀ i j : Fin n, R i j = true ↔ ∃ m ∈ ms, st.val m i j = true := by
  have hms' : ∀ m ∈ ms', m ≠ res ∧ st.liveBelow st.next m = true :=
    fun m hm => hms m (hperm.mem_iff.mpr hm)
  have hk' : 2 ≤ ms'.length := by rw [← hperm.length_eq]; exact hk
  obtain ⟨st1, e1, hv1⟩ :=
    evalArbitrary_mulAdd_core (.operation .AL_EXP_ADD (ms.map AlgebraicExpression.operand))
      res st (isMulAdd_operands ms (by decide) hk (fun m hm => (hms m hm).2)) rfl hres
      (by simpa [AlgebraicExpression.leaves, leavesList_operands] using hms)
  obtain ⟨st2, e2, hv2⟩ :=
    evalArbitrary_mulAdd_core (.operation .AL_EXP_ADD (ms'.map AlgebraicExpression.operand))
      res st (isMulAdd_operands ms' (by decide) hk' (fun m hm => (hms' m hm).2)) rfl hres
      (by simpa [AlgebraicExpression.leaves, leavesList_operands] using hms')
  simp only [denote, denoteList_operands] at hv1 hv2
  have hR : ∀ i j : Fin n,
      Mat.sum (ms.map st.val) i j = true ↔ ∃ m ∈ ms, st.val m i j = true := by
    intro i j
    simp [sum_apply]
  refine ⟨st1, st2, _, e1, e2, hv1, ?_, hR⟩
  rw [hv2]
  congr 1
  apply Mat.eq_of_iff
  intro i j
  rw [hR, sum_apply]
  simp only [List.mem_map, exists_exists_and_eq_and]
  constructor
  · rintro ⟨m, hm, h⟩; exact ⟨m, hperm.mem_iff.mpr hm, h⟩
  · rintro ⟨m, hm, h⟩; exact ⟨m, hperm.mem_iff.mp hm, h⟩

/-! ### What an evaluation may write to -/

theorem Keeps.ok {α : Type} {p : Nat → Prop} {st : Backend n} {Q : α → Prop} {v : α}
    (h : Q v) : Keeps p st Q (.ok v st) :=
  ⟨le_refl _, fun _ _ => rfl, fun v' _ e => by injection e with e1 _; rw [← e1]; exact h⟩

theorem Keeps.abort {α : Type} {p : Nat → Prop} {st : Backend n} {Q : α → Prop} {f : Fault} :
    Keeps p st Q (.abort f st : Outcome n α) :=
  ⟨le_refl _, fun _ _ => rfl, fun _ _ e => by cases e⟩

theorem Keeps.andThen {α β : Type} {p : Nat → Prop} {st : Backend n} {Q : α → Prop}
    {Q' : β → Prop} {o : Outcome n α} {k : α → Backend n → Outcome n β}
    (h1 : Keeps p st Q o)
    (h2 : ∀ v st1, Q v → st.next ≤ st1.next → Keeps p st1 Q' (k v st1)) :
    Keeps p st Q' (o.bind k) := by
  cases o with
  | abort f st1 => exact ⟨h1.1, h1.2.1, fun _ _ e => by cases e⟩
  | ok v st1 =>
    have hk := h2 v st1 (h1.2.2 v st1 rfl) h1.1
    refine ⟨le_trans h1.1 hk.1, ?_, hk.2.2⟩
    intro a ha
    rw [Outcome.bind_ok, hk.2.1 a ha]
    exact h1.2.1 a ha

theorem Keeps.mono {α : Type} {p q : Nat → Prop} {st : Backend n} {Q Q' : α → Prop}
    {o : Outcome n α} (h : Keeps q st Q o) (hpq : ∀ a, p a → q a) (hQ : ∀ v, Q v → Q' v) :
    Keeps p st Q' o :=
  ⟨h.1, fun a ha => h.2.1 a (hpq a ha), fun v st' e => hQ v (h.2.2 v st' e)⟩

/-- A recorded write to `C` keeps every address other than that of `C`. -/
theorem keeps_write {α : Type} {p : Nat → Prop} {st : Backend n} {C : GrB_Matrix}
    (hC : ∀ a, p a → GrB_Matrix.ptr a ≠ C) (k : Call) (M : Mat n) (v : α) :
    Keeps p st (fun _ => True) (.ok v ((st.record k).set C M)) := by
  refine ⟨by simp [Outcome.state], ?_, fun _ _ _ => trivial⟩
  intro a ha
  have := Backend.get_set_other (st.record k) (hC a ha) M
  simpa [Outcome.state] using this

theorem keeps_record {α : Type} {p : Nat → Prop} {st : Backend n} (k : Call) (f : Fault) :
    Keeps p st (fun _ => True) (.abort f (st.record k) : Outcome n α) :=
  ⟨le_refl _, fun _ _ => rfl, fun _ _ e => by cases e⟩

theorem GrB_mxm_keeps {p : Nat → Prop} {st : Backend n} {C : GrB_Matrix}
    (hC : ∀ a, p a → GrB_Matrix.ptr a ≠ C) (A B : GrB_Matrix) (d : Option GrB_Descriptor) :
    Keeps p st (fun _ => True) (GrB_mxm C A B d st) := by
  unfold GrB_mxm
  split
  · exact keeps_write hC _ _ _
  · exact keeps_record _ _

theorem GrB_eWiseAdd_keeps {p : Nat → Prop} {st : Backend n} {C : GrB_Matrix}
    (hC : ∀ a, p a → GrB_Matrix.ptr a ≠ C) (A B : GrB_Matrix) (d : Option GrB_Descriptor) :
    Keeps p st (fun _ => True) (GrB_eWiseAdd_Matrix_Semiring C A B d st) := by
  unfold GrB_eWiseAdd_Matrix_Semiring
  split
  · exact keeps_write hC _ _ _
  · exact keeps_record _ _

theorem GrB_Matrix_apply_keeps {p : Nat → Prop} {st : Backend n} {C : GrB_Matrix}
    (hC : ∀ a, p a → GrB_Matrix.ptr a ≠ C) (A : GrB_Matrix) (d : Option GrB_Descriptor) :
    Keeps p st (fun _ => True) (GrB_Matrix_apply C A d st) := by
  unfold GrB_Matrix_apply
  split
  · exact keeps_write hC _ _ _
  · exact keeps_record _ _

theorem GrB_transpose_keeps {p : Nat → Prop} {st : Backend n} {C : GrB_Matrix}
    (hC : ∀ a, p a → GrB_Matrix.ptr a ≠ C) (A : GrB_Matrix) :
    Keeps p st (fun _ => True) (GrB_transpose C A st) := by
  unfold GrB_transpose
  split
  · exact keeps_write hC _ _ _
  · exact keeps_record _ _

theorem GrB_Matrix_nrows_keeps {p : Nat → Prop} {st : Backend n} (h : GrB_Matrix) :
    Keeps p st (fun _ => True) (GrB_Matrix_nrows h st) := by
  unfold GrB_Matrix_nrows
  split
  · exact Keeps.ok trivial
  · exact Keeps.abort

theorem GrB_Matrix_nvals_keeps {p : Nat → Prop} {st : Backend n} (h : GrB_Matrix) :
    Keeps p st (fun _ => True) (GrB_Matrix_nvals h st) := by
  unfold GrB_Matrix_nvals
  split
  · exact Keeps.ok trivial
  · exact Keeps.abort

/-- Allocation keeps every address below the frontier and returns a handle at
the old frontier. -/
theorem GrB_Matrix_new_keeps {p : Nat → Prop} {st : Backend n}
    (hp : ∀ a, p a → a < st.next) :
    Keeps p st (fun h => h = GrB_Matrix.ptr st.next) (GrB_Matrix_new st) := by
  refine ⟨Nat.le_succ _, ?_, ?_⟩
  · intro a ha
    have := hp a ha
    simp [GrB_Matrix_new, Outcome.state, Function.update, Nat.ne_of_lt this]
  · intro v st' e
    simp only [GrB_Matrix_new, Outcome.ok.injEq] at e
    exact e.1.symm

theorem freeInter_keeps {p : Nat → Prop} {st : Backend n} {inter : Option GrB_Matrix}
    (hi : ∀ a, p a → inter ≠ some (.ptr a)) :
    Keeps p st (fun _ => True) (freeInter inter st) := by
  cases inter with
  | none => exact Keeps.ok trivial
  | some h =>
    cases h with
    | IDENTITY_MATRIX => exact keeps_record _ _
    | ptr c =>
      refine ⟨le_refl _, ?_, fun _ _ _ => trivial⟩
      intro a ha
      have : a ≠ c := fun e => hi a ha (by rw [e])
      simp [freeInter, GrB_Matrix_free, Outcome.state, Function.update, this]

theorem obtainInter_keeps {b : Nat} {res : GrB_Matrix} {inter : Option GrB_Matrix}
    {st : Backend n} (hb : b ≤ st.next) (hi : InterAbove b inter) :
    Keeps (fun a => a < b) st (fun h => ∃ c, h = GrB_Matrix.ptr c ∧ b ≤ c)
      (obtainInter res inter st) := by
  cases inter with
  | some h => exact Keeps.ok (hi h rfl)
  | none =>
    refine Keeps.andThen (GrB_Matrix_nrows_keeps res) (fun _ st1 _ hn1 => ?_)
    refine Keeps.andThen (GrB_Matrix_nrows_keeps res) (fun _ st2 _ hn2 => ?_)
    exact (GrB_Matrix_new_keeps (p := fun a => a < b) (fun a ha => by
      have : a < b := ha
      omega)).mono (fun _ h => h) (fun h hh => ⟨st2.next, hh, by omega⟩)

/-- An evaluation into a scratch matrix at or above `b` keeps everything below
`b`. -/
theorem ev_into_scratch {ev : Eval n} (hev : EvKeeps ev) {b c : Nat} {st : Backend n}
    (hb : b ≤ st.next) (hc : b ≤ c) (e : AlgebraicExpression) :
    Keeps (fun a => a < b) st (fun _ => True) (ev e (.ptr c) st) :=
  (hev e (.ptr c) st).mono (fun a ha => by
    have : a < b := ha
    exact ⟨by omega, by intro h; injection h with h; omega⟩) (fun _ h => h)

theorem resolveNext_keeps {ev : Eval n} (hev : EvKeeps ev) {b : Nat} {res : GrB_Matrix}
    {inter : Option GrB_Matrix} {st : Backend n} (hb : b ≤ st.next) (hi : InterAbove b inter)
    (right : AlgebraicExpression) :
    Keeps (fun a => a < b) st (fun v => InterAbove b v.2.2)
      (resolveNext ev right res inter st) := by
  cases right with
  | operand m => exact Keeps.ok hi
  | operation op cs =>
    refine Keeps.andThen (obtainInter_keeps hb hi) (fun h st1 hh hn1 => ?_)
    obtain ⟨c, rfl, hc⟩ := hh
    refine Keeps.andThen (ev_into_scratch hev (by omega) hc _) (fun v st2 _ _ => ?_)
    refine Keeps.ok ?_
    intro h hh
    injection hh with hh
    exact ⟨c, hh.symm, hc⟩

theorem below_of_protected {b : Nat} {res : GrB_Matrix} :
    ∀ a, (a < b ∧ GrB_Matrix.ptr a ≠ res) → a < b :=
  fun _ h => h.1

theorem mulLoop_keeps {ev : Eval n} (hev : EvKeeps ev) {b : Nat} {res : GrB_Matrix} :
    ∀ (rest : List AlgebraicExpression) (inter : Option GrB_Matrix) (st : Backend n),
      b ≤ st.next → InterAbove b inter →
      Keeps (fun a => a < b ∧ GrB_Matrix.ptr a ≠ res) st (InterAbove b)
        (mulLoop ev res rest inter st) := by
  intro rest
  induction rest with
  | nil => intro inter st _ hi; exact Keeps.ok hi
  | cons c rest ih =>
    intro inter st hb hi
    refine Keeps.andThen (Q := fun v => InterAbove b v.1) ?_ (fun v st1 hv hn1 => ?_)
    · refine Keeps.andThen ((resolveNext_keeps hev hb hi c).mono below_of_protected
        (fun _ h => h)) (fun r st1 hr hn1 => ?_)
      refine Keeps.andThen (Q := fun _ => True) ?_ (fun _ st2 _ hn2 => ?_)
      · split
        · exact GrB_mxm_keeps (fun a ha => ha.2) _ _ _
        · exact Keeps.ok trivial
      · refine Keeps.andThen (GrB_Matrix_nvals_keeps res) (fun nv st3 _ _ => ?_)
        exact Keeps.ok hr
    · split
      · exact Keeps.ok hv
      · exact ih v.1 st1 (by omega) hv

theorem addLoop_keeps {ev : Eval n} (hev : EvKeeps ev) {b : Nat} {res : GrB_Matrix} :
    ∀ (rest : List AlgebraicExpression) (inter : Option GrB_Matrix) (st : Backend n),
      b ≤ st.next → InterAbove b inter →
      Keeps (fun a => a < b ∧ GrB_Matrix.ptr a ≠ res) st (InterAbove b)
        (addLoop ev res rest inter st) := by
  intro rest
  induction rest with
  | nil => intro inter st _ hi; exact Keeps.ok hi
  | cons c rest ih =>
    intro inter st hb hi
    refine Keeps.andThen (Q := InterAbove b) ?_ (fun v st1 hv hn1 => ih v st1 (by omega) hv)
    refine Keeps.andThen ((resolveNext_keeps hev hb hi c).mono below_of_protected
      (fun _ h => h)) (fun r st1 hr hn1 => ?_)
    refine Keeps.andThen (GrB_eWiseAdd_keeps (fun a ha => ha.2) _ _ _) (fun _ st2 _ _ => ?_)
    exact Keeps.ok hr

theorem ev_into_res {ev : Eval n} (hev : EvKeeps ev) {b : Nat} {res : GrB_Matrix}
    {st : Backend n} (hb : b ≤ st.next) (e : AlgebraicExpression) :
    Keeps (fun a => a < b ∧ GrB_Matrix.ptr a ≠ res) st (fun _ => True) (ev e res st) :=
  (hev e res st).mono (fun a ha => ⟨by have := ha.1; omega, ha.2⟩) (fun _ h => h)

theorem resolveLeft_keeps {ev : Eval n} (hev : EvKeeps ev) {b : Nat} {res : GrB_Matrix}
    {st : Backend n} (hb : b ≤ st.next) (left : AlgebraicExpression) :
    Keeps (fun a => a < b ∧ GrB_Matrix.ptr a ≠ res) st (fun _ => True)
      (resolveLeft ev left res st) := by
  cases left with
  | operand m => exact Keeps.ok trivial
  | operation op cs =>
    simp only [resolveLeft]
    split
    · split
      · exact Keeps.abort
      · exact Keeps.andThen (ev_into_res hev hb _) (fun _ _ _ _ => Keeps.ok trivial)
    · exact Keeps.andThen (ev_into_res hev hb _) (fun _ _ _ _ => Keeps.ok trivial)

theorem resolveRightStripped_keeps {ev : Eval n} (hev : EvKeeps ev) {b : Nat}
    {res : GrB_Matrix} {st : Backend n} (hb : b ≤ st.next) (right : AlgebraicExpression)
    (a : GrB_Matrix) (u : Bool) :
    Keeps (fun a => a < b ∧ GrB_Matrix.ptr a ≠ res) st (fun v => InterAbove b v.2)
      (resolveRightStripped ev right a u res st) := by
  have hnone : InterAbove b none := fun h hh => by cases hh
  cases right with
  | operand m => exact Keeps.ok hnone
  | operation op cs =>
    simp only [resolveRightStripped]
    split
    · exact Keeps.abort
    · split
      · refine Keeps.andThen (GrB_Matrix_nrows_keeps a) (fun _ st1 _ hn1 => ?_)
        refine Keeps.andThen (GrB_Matrix_nrows_keeps a) (fun _ st2 _ hn2 => ?_)
        refine Keeps.andThen ((GrB_Matrix_new_keeps (p := fun a => a < b) (fun a ha => by
          have : a < b := ha
          omega)).mono below_of_protected (fun _ h => h)) (fun h st3 hh hn3 => ?_)
        subst hh
        refine Keeps.andThen ((ev_into_scratch hev (by omega) (by omega) _).mono
          below_of_protected (fun _ h => h)) (fun v st4 _ _ => ?_)
        refine Keeps.ok ?_
        intro h hh
        injection hh with hh
        exact ⟨st2.next, hh.symm, by omega⟩
      · exact Keeps.andThen (ev_into_res hev hb _) (fun _ _ _ _ => Keeps.ok hnone)

theorem resolveRight_keeps {ev : Eval n} (hev : EvKeeps ev) {b : Nat}
    {res : GrB_Matrix} {st : Backend n} (hb : b ≤ st.next) (right : AlgebraicExpression)
    (a : GrB_Matrix) (u : Bool) :
    Keeps (fun a => a < b ∧ GrB_Matrix.ptr a ≠ res) st (fun v => InterAbove b v.2.2)
      (resolveRight ev right a u res st) := by
  unfold resolveRight
  split
  · split
    · exact Keeps.abort
    · exact Keeps.andThen (resolveRightStripped_keeps hev hb _ a u)
        (fun _ _ hv _ => Keeps.ok hv)
  · exact Keeps.andThen (resolveRightStripped_keeps hev hb _ a u)
      (fun _ _ hv _ => Keeps.ok hv)

theorem freeInter_protected {b : Nat} {res : GrB_Matrix} {inter : Option GrB_Matrix}
    (hi : InterAbove b inter) (st : Backend n) :
    Keeps (fun a => a < b ∧ GrB_Matrix.ptr a ≠ res) st (fun _ => True)
      (freeInter inter st) := by
  apply freeInter_keeps
  intro a ha e
  obtain ⟨c, hc, hbc⟩ := hi _ e
  injection hc with hc
  have := ha.1
  omega

theorem mul_keeps {ev : Eval n} (hev : EvKeeps ev) (exp : AlgebraicExpression)
    (res : GrB_Matrix) (st : Backend n) :
    Keeps (fun a => a < st.next ∧ GrB_Matrix.ptr a ≠ res) st (fun _ => True)
      (_Eval_MulArbitrary ev exp res st) := by
  unfold _Eval_MulArbitrary
  split
  · exact Keeps.abort
  · split
    · refine Keeps.andThen (resolveLeft_keeps hev (le_refl _) _) (fun l st1 _ hn1 => ?_)
      refine Keeps.andThen (resolveRight_keeps hev hn1 _ _ _) (fun r st2 hr hn2 => ?_)
      refine Keeps.andThen (Q := fun _ => True) ?_ (fun _ st3 _ hn3 => ?_)
      · split
        · exact GrB_Matrix_apply_keeps (fun a ha => ha.2) _ _
        · exact GrB_mxm_keeps (fun a ha => ha.2) _ _ _
      · refine Keeps.andThen (GrB_Matrix_nvals_keeps res) (fun _ st4 _ hn4 => ?_)
        refine Keeps.andThen (mulLoop_keeps hev _ _ st4 (by omega) hr)
          (fun inter st5 hi _ => ?_)
        exact Keeps.andThen (freeInter_protected hi st5) (fun _ _ _ _ => Keeps.ok trivial)
    · exact Keeps.abort

theorem add_keeps {ev : Eval n} (hev : EvKeeps ev) (exp : AlgebraicExpression)
    (res : GrB_Matrix) (st : Backend n) :
    Keeps (fun a => a < st.next ∧ GrB_Matrix.ptr a ≠ res) st (fun _ => True)
      (_Eval_AddArbitrary ev exp res st) := by
  unfold _Eval_AddArbitrary
  split
  · exact Keeps.abort
  · split
    · refine Keeps.andThen (resolveLeft_keeps hev (le_refl _) _) (fun l st1 _ hn1 => ?_)
      refine Keeps.andThen (resolveRight_keeps hev hn1 _ _ _) (fun r st2 hr hn2 => ?_)
      refine Keeps.andThen (GrB_eWiseAdd_keeps (fun a ha => ha.2) _ _ _)
        (fun _ st3 _ hn3 => ?_)
      refine Keeps.andThen (addLoop_keeps hev _ _ st3 (by omega) hr)
        (fun inter st5 hi _ => ?_)
      exact Keeps.andThen (freeInter_protected hi st5) (fun _ _ _ _ => Keeps.ok trivial)
    · exact Keeps.abort

theorem transpose_keeps {ev : Eval n} (hev : EvKeeps ev) (exp : AlgebraicExpression)
    (res : GrB_Matrix) (st : Backend n) :
    Keeps (fun a => a < st.next ∧ GrB_Matrix.ptr a ≠ res) st (fun _ => True)
      (_Eval_TransposeArbitrary ev exp res st) := by
  unfold _Eval_TransposeArbitrary
  split
  · exact Keeps.abort
  · split
    · exact Keeps.abort
    · refine Keeps.andThen (Q := fun _ => True) ?_ (fun _ st1 _ hn1 => ?_)
      · split
        · exact ev_into_res hev (le_refl _) _
        · exact Keeps.ok trivial
      · exact Keeps.andThen (GrB_transpose_keeps (fun a ha => ha.2) _)
          (fun _ _ _ _ => Keeps.ok trivial)

/-- The recursive evaluator, on any tree and with any number of levels, writes
only to its destination and to objects it allocates, whether it completes or
aborts. -/
theorem eval_keeps : ∀ fuel : Nat, EvKeeps (n := n) (_AlgebraicExpression_EvalArbitrary fuel) := by
  intro fuel
  induction fuel with
  | zero => intro e dst st; exact Keeps.abort
  | succ fuel ih =>
    intro e dst st
    cases e with
    | operand m => exact Keeps.ok trivial
    | operation op cs =>
      cases op with
      | AL_EXP_MUL => exact mul_keeps ih _ dst st
      | AL_EXP_ADD => exact add_keeps ih _ dst st
      | AL_EXP_TRANSPOSE => exact transpose_keeps ih _ dst st

/-! ### The Multiply loop on an empty accumulator -/

/-- Operand `i >= 2` of a Multiply or Add node keeps the accumulator, for any
child. -/
theorem resolveNext_keeps_res {ev : Eval n} (hev : EvKeeps ev) {r : Nat}
    {inter : Option GrB_Matrix} {st : Backend n} (hr : r < st.next)
    (hi : inter ≠ some (.ptr r)) (right : AlgebraicExpression) :
    Keeps (fun a => a = r) st (fun v => v.2.2 ≠ some (GrB_Matrix.ptr r))
      (resolveNext ev right (.ptr r) inter st) := by
  cases right with
  | operand m => exact Keeps.ok hi
  | operation op cs =>
    refine Keeps.andThen (Q := fun h => h ≠ GrB_Matrix.ptr r) ?_ (fun h st1 hh hn1 => ?_)
    · cases inter with
      | some h => exact Keeps.ok (fun e => hi (by rw [e]))
      | none =>
        refine Keeps.andThen (GrB_Matrix_nrows_keeps _) (fun _ st1 _ hn1 => ?_)
        refine Keeps.andThen (GrB_Matrix_nrows_keeps _) (fun _ st2 _ hn2 => ?_)
        refine (GrB_Matrix_new_keeps (p := fun a => a = r) (fun a ha => by
          have : a = r := ha
          omega)).mono (fun _ h => h) (fun h hh => ?_)
        rw [hh]
        intro e
        injection e with e
        omega
    · refine Keeps.andThen ((hev _ h st1).mono (fun a ha => by
        have : a = r := ha
        subst this
        exact ⟨by omega, fun e => hh e.symm⟩) (fun _ h => h)) (fun v st2 _ _ => ?_)
      refine Keeps.ok ?_
      intro e
      injection e with e
      exact hh e

theorem mulLoop_break (ev : Eval n) (res : GrB_Matrix) (c : AlgebraicExpression)
    (rest : List AlgebraicExpression) (inter0 inter1 : Option GrB_Matrix)
    (st0 st1 : Backend n) (h : mulStep ev c res inter0 st0 = .ok (inter1, 0) st1) :
    mulLoop ev res (c :: rest) inter0 st0 = .ok inter1 st1 := by
  simp [mulLoop, h]

/-- Entered with an empty accumulator, the loop of `_Eval_MulArbitrary` can only
end with the accumulator as it was. -/
theorem mulLoop_empty {ev : Eval n} (hev : EvKeeps ev) (rest : List AlgebraicExpression)
    {r : Nat} {inter : Option GrB_Matrix} {st : Backend n} {R : Mat n}
    (hr : r < st.next) (hR : st.heap r = some R) (hz : R.nvals = 0)
    (hi : inter ≠ some (.ptr r)) (inter' : Option GrB_Matrix) (st' : Backend n)
    (h : mulLoop ev (.ptr r) rest inter st = .ok inter' st') :
    st'.heap r = some R ∧ inter' ≠ some (.ptr r) := by
  cases rest with
  | nil =>
    simp only [mulLoop, Outcome.ok.injEq] at h
    obtain ⟨rfl, rfl⟩ := h
    exact ⟨hR, hi⟩
  | cons c rest =>
    have hk := resolveNext_keeps_res hev hr hi c
    have hR0 := Mat.nvals_eq_zero.mp hz
    cases h1 : resolveNext ev c (.ptr r) inter st with
    | abort f st1 => simp [mulLoop, mulStep, h1] at h
    | ok v st1 =>
      rw [h1] at hk
      have hR1 : st1.get (.ptr r) = some R := by
        have := hk.2.1 r rfl
        simp only [Outcome.state] at this
        simpa [this] using hR
      have hv := hk.2.2 v st1 rfl
      by_cases hB : v.1 = .IDENTITY_MATRIX
      · simp [mulLoop, mulStep, h1, hB, GrB_Matrix_nvals_spec hR1, hz] at h
        obtain ⟨rfl, rfl⟩ := h
        exact ⟨by simpa using hR1, hv⟩
      · cases hBm : st1.get v.1 with
        | none =>
          simp [mulLoop, mulStep, h1, hB, GrB_mxm, hR1, hBm] at h
        | some Bm =>
          obtain ⟨st2, e2, hw2⟩ :=
            GrB_mxm_spec hR1 hR1 hBm (some { INP0 := false, INP1 := v.2.1 })
          have hres2 : st2.get (.ptr r) = some R := by
            have := hw2.1
            simp only [descINP0, Mat.tran_false] at this
            rw [hR0, Mat.zero_mxm] at this
            rw [hR0]; exact this
          simp [mulLoop, mulStep, h1, hB, e2, GrB_Matrix_nvals_spec hres2, hz] at h
          obtain ⟨rfl, rfl⟩ := h
          exact ⟨by simpa using hres2, hv⟩

theorem ready_of_liveBelow {st : Backend n} {b : Nat} {res : GrB_Matrix} {ms : List GrB_Matrix}
    (hb : b ≤ st.next) (hres : st.liveBelow b res = true)
    (hms : ∀ m ∈ ms, m ≠ res ∧ st.liveBelow b m = true) :
    Ready st.val b st res ms := by
  refine ⟨hb, ?_, ?_⟩
  · cases res with
    | IDENTITY_MATRIX => simp [Backend.liveBelow] at hres
    | ptr r =>
      simp only [Backend.liveBelow, Bool.and_eq_true, decide_eq_true_eq] at hres
      exact ⟨r, rfl, hres.1, hres.2⟩
  · intro m hm
    obtain ⟨hne, hl⟩ := hms m hm
    refine ⟨hne, ?_⟩
    cases m with
    | IDENTITY_MATRIX => simp [Backend.liveBelow] at hl
    | ptr a =>
      simp only [Backend.liveBelow, Bool.and_eq_true, decide_eq_true_eq] at hl
      obtain ⟨d, hd⟩ := Option.isSome_iff_exists.mp hl.2
      exact ⟨a, rfl, hl.1, by simp [Backend.val, hd]⟩

/-- Short-circuit correctness of the Multiply loop, in full. -/
theorem mulLoop_empty_core (fuel : Nat) (rest : List AlgebraicExpression) (r : Nat)
    (inter : Option GrB_Matrix) (st : Backend n) (R : Mat n)
    (hr : r < st.next) (hR : st.heap r = some R) (hz : R.nvals = 0)
    (hi : inter ≠ some (.ptr r)) :
    (∀ inter' st' st'',
      mulLoop (_AlgebraicExpression_EvalArbitrary fuel) (.ptr r) rest inter st = .ok inter' st' →
      freeInter inter' st' = .ok () st'' →
      st'.get (.ptr r) = some R ∧ st''.get (.ptr r) = some R) ∧
    (∀ b : Nat, b ≤ st.next → r < b → allMulAdd rest = true → depthList rest < fuel →
      (∀ m ∈ leavesList rest, m ≠ .ptr r ∧ st.liveBelow b m = true) →
      (∀ h, inter = some h → ∃ c, h = .ptr c ∧ b ≤ c ∧ st.liveBelow st.next h = true) →
      ∃ inter' st' st'',
        mulLoop (_AlgebraicExpression_EvalArbitrary fuel) (.ptr r) rest inter st
          = .ok inter' st' ∧
        freeInter inter' st' = .ok () st'') ∧
    (∀ (c : AlgebraicExpression) (more : List AlgebraicExpression)
      (inter0 inter1 : Option GrB_Matrix) (st0 st1 : Backend n),
      mulStep (_AlgebraicExpression_EvalArbitrary fuel) c (.ptr r) inter0 st0
        = .ok (inter1, 0) st1 →
      mulLoop (_AlgebraicExpression_EvalArbitrary fuel) (.ptr r) (c :: more) inter0 st0
        = .ok inter1 st1) := by
  refine ⟨?_, ?_, ?_⟩
  · intro inter' st' st'' h1 h2
    obtain ⟨h3, h4⟩ := mulLoop_empty (eval_keeps fuel) rest hr hR hz hi inter' st' h1
    refine ⟨by simpa using h3, ?_⟩
    have hk := @freeInter_keeps n (fun a => a = r) st' inter'
      (fun a ha => by
        have : a = r := ha
        subst this
        exact h4)
    rw [h2] at hk
    have := hk.2.1 r rfl
    simp only [Outcome.state] at this
    simpa [this] using h3
  · intro b hb hrb hc hd hl hint
    have hres : st.liveBelow b (.ptr r) = true := by
      simp [Backend.liveBelow, hrb, hR]
    have hready := ready_of_liveBelow hb hres hl
    have hio : InterOK b st inter := by
      intro h hh
      obtain ⟨c, rfl, hbc, hlive⟩ := hint h hh
      simp only [Backend.liveBelow, Bool.and_eq_true, decide_eq_true_eq] at hlive
      exact ⟨c, rfl, hbc, hlive.1, hlive.2⟩
    obtain ⟨inter', st', e1, _, _, _, hi'⟩ :=
      mulLoop_spec st.val (_AlgebraicExpression_EvalArbitrary fuel) b (.ptr r) rest hc
        (fun c hcm hco => eval_mulAdd st.val fuel c (allMulAdd_mem hc c hcm) hco
          (lt_of_le_of_lt (depth_le_depthList c hcm) hd))
        inter st R hready (by simpa using hR) hio
    obtain ⟨st'', e2, _⟩ := freeInter_spec hi'
    exact ⟨inter', st', st'', e1, e2⟩
  · intro c more inter0 inter1 st0 st1 h
    exact mulLoop_break _ _ c more inter0 inter1 st0 st1 h

/-! ## Scratch accounting, frame and shape -/

theorem Outcome.bind_eq_ok {α β : Type} {o : Outcome n α} {k : α → Backend n → Outcome n β}
    {w : β} {st' : Backend n} (h : o.bind k = .ok w st') :
    ∃ v st1, o = .ok v st1 ∧ k v st1 = .ok w st' := by
  cases o with
  | ok v st1 => exact ⟨v, st1, rfl, h⟩
  | abort f st1 => cases h

theorem Step.refl {b : Nat} {res : GrB_Matrix} {K : Nat → Prop} (hK : Additive K)
    (st : Backend n) : Step b res K st st 0 0 :=
  ⟨le_refl _, [], 0, by simp, by simp, hK.1, by simp, by simp⟩

theorem Step.trans {b : Nat} {res : GrB_Matrix} {K : Nat → Prop} (hK : Additive K)
    {st st1 st2 : Backend n} {da1 df1 da2 df2 : Nat}
    (h1 : Step b res K st st1 da1 df1) (h2 : Step b res K st1 st2 da2 df2) :
    Step b res K st st2 (da1 + da2) (df1 + df2) := by
  obtain ⟨x1, k1, e1, t1, hk1, a1, f1⟩ := h1.log
  obtain ⟨x2, k2, e2, t2, hk2, a2, f2⟩ := h2.log
  refine ⟨le_trans h1.next_le h2.next_le, x1 ++ x2, k1 + k2, ?_, ?_, hK.2 _ _ hk1 hk2, ?_, ?_⟩
  · rw [e2, e1, List.append_assoc]
  · intro c hc
    rcases List.mem_append.mp hc with hc | hc
    · exact t1 c hc
    · exact t2 c hc
  · rw [List.countP_append, a1, a2]; omega
  · rw [List.countP_append, f1, f2]; omega

/-- A run into a destination at or above `b`, or into `r` itself, seen from an
activation with destination `r` and base `b`. -/
theorem Step.rebase {b b' : Nat} {r dst : GrB_Matrix} {K : Nat → Prop}
    {st st' : Backend n} {da df : Nat} (h : Step b' dst K st st' da df) (hb : b ≤ b')
    (hd : dst = r ∨ ∃ c, dst = .ptr c ∧ b ≤ c) : Step b r K st st' da df := by
  obtain ⟨x, k, e, t, hk, a, f⟩ := h.log
  refine ⟨h.next_le, x, k, e, ?_, hk, a, f⟩
  intro c hc
  rcases t c hc with h1 | ⟨a', h1, h2⟩
  · rcases hd with hd | ⟨c', hd, hc'⟩
    · left; rw [h1, hd]
    · right; exact ⟨c', by rw [h1, hd], hc'⟩
  · right; exact ⟨a', h1, le_trans hb h2⟩

theorem step_of_write {b : Nat} {res : GrB_Matrix} {K : Nat → Prop} (hK : Additive K)
    (st : Backend n) (k : Call) (M : Mat n) (ht : k.target = res) (hn : k.isNew = false)
    (hf : k.isFree = false) : Step b res K st ((st.record k).set res M) 0 0 := by
  refine ⟨by simp, [k], 0, ?_, ?_, hK.1, by simp [hn], by simp [hf]⟩
  · cases res <;> rfl
  · intro c hc
    rw [List.mem_singleton] at hc
    left; rw [hc, ht]

theorem GrB_mxm_step {b : Nat} {res : GrB_Matrix} {K : Nat → Prop} (hK : Additive K)
    {st st' : Backend n} {A B : GrB_Matrix} {d : Option GrB_Descriptor} {u : Unit}
    (h : GrB_mxm res A B d st = .ok u st') : Step b res K st st' 0 0 := by
  unfold GrB_mxm at h
  split at h
  · injection h with _ h; rw [← h]; exact step_of_write hK st _ _ rfl rfl rfl
  · cases h

theorem GrB_eWiseAdd_step {b : Nat} {res : GrB_Matrix} {K : Nat → Prop} (hK : Additive K)
    {st st' : Backend n} {A B : GrB_Matrix} {d : Option GrB_Descriptor} {u : Unit}
    (h : GrB_eWiseAdd_Matrix_Semiring res A B d st = .ok u st') : Step b res K st st' 0 0 := by
  unfold GrB_eWiseAdd_Matrix_Semiring at h
  split at h
  · injection h with _ h; rw [← h]; exact step_of_write hK st _ _ rfl rfl rfl
  · cases h

theorem GrB_Matrix_apply_step {b : Nat} {res : GrB_Matrix} {K : Nat → Prop}
    (hK : Additive K) {st st' : Backend n} {A : GrB_Matrix} {d : Option GrB_Descriptor}
    {u : Unit} (h : GrB_Matrix_apply res A d st = .ok u st') : Step b res K st st' 0 0 := by
  unfold GrB_Matrix_apply at h
  split at h
  · injection h with _ h; rw [← h]; exact step_of_write hK st _ _ rfl rfl rfl
  · cases h

theorem GrB_transpose_step {b : Nat} {res : GrB_Matrix} {K : Nat → Prop} (hK : Additive K)
    {st st' : Backend n} {A : GrB_Matrix} {u : Unit}
    (h : GrB_transpose res A st = .ok u st') : Step b res K st st' 0 0 := by
  unfold GrB_transpose at h
  split at h
  · injection h with _ h; rw [← h]; exact step_of_write hK st _ _ rfl rfl rfl
  · cases h

theorem GrB_Matrix_nrows_same {st st' : Backend n} {h : GrB_Matrix} {v : Nat}
    (e : GrB_Matrix_nrows h st = .ok v st') : st' = st := by
  unfold GrB_Matrix_nrows at e
  split at e
  · injection e with _ e; exact e.symm
  · cases e

theorem GrB_Matrix_nvals_same {st st' : Backend n} {h : GrB_Matrix} {v : Nat}
    (e : GrB_Matrix_nvals h st = .ok v st') : st' = st := by
  unfold GrB_Matrix_nvals at e
  split at e
  · injection e with _ e; exact e.symm
  · cases e

theorem GrB_Matrix_new_step {b : Nat} {r : GrB_Matrix} {K : Nat → Prop} (hK : Additive K)
    {st st' : Backend n} {h : GrB_Matrix} (hb : b ≤ st.next)
    (e : GrB_Matrix_new st = .ok h st') :
    h = .ptr st.next ∧ Step b r K st st' 1 0 := by
  simp only [GrB_Matrix_new, Outcome.ok.injEq] at e
  obtain ⟨rfl, rfl⟩ := e
  refine ⟨rfl, Nat.le_succ _, [.Matrix_new (.ptr st.next)], 0, rfl, ?_, hK.1, by simp [Call.isNew],
    by simp [Call.isFree]⟩
  intro c hc
  rw [List.mem_singleton] at hc
  right; exact ⟨st.next, by rw [hc]; rfl, hb⟩

theorem freeInter_step {b : Nat} {r : GrB_Matrix} {K : Nat → Prop} (hK : Additive K)
    {st st' : Backend n} {inter : Option GrB_Matrix} {u : Unit} (hi : InterAbove b inter)
    (e : freeInter inter st = .ok u st') : Step b r K st st' 0 (pending inter) := by
  cases inter with
  | none =>
    simp only [freeInter, Outcome.ok.injEq] at e
    rw [← e.2]; exact Step.refl hK st
  | some h =>
    obtain ⟨c, rfl, hc⟩ := hi h rfl
    simp only [freeInter, GrB_Matrix_free, Outcome.ok.injEq] at e
    rw [← e.2]
    refine ⟨le_refl _, [.Matrix_free (.ptr c)], 0, rfl, ?_, hK.1, by simp [Call.isNew],
      by simp [Call.isFree, pending]⟩
    intro c' hc'
    rw [List.mem_singleton] at hc'
    right; exact ⟨c, by rw [hc']; rfl, hc⟩

theorem pending_le_one (inter : Option GrB_Matrix) : pending inter ≤ 1 := by
  cases inter <;> simp [pending]

theorem obtainInter_step {K : Nat → Prop} (hK : Additive K) {b : Nat} {r : GrB_Matrix}
    {inter : Option GrB_Matrix} {st st1 : Backend n} {h : GrB_Matrix}
    (hb : b ≤ st.next) (hi : InterAbove b inter)
    (e : obtainInter r inter st = .ok h st1) :
    (∃ c, h = .ptr c ∧ b ≤ c) ∧
      ∃ da, da + pending inter = 1 ∧ Step b r K st st1 da 0 := by
  cases inter with
  | some h0 =>
    simp only [obtainInter, Outcome.ok.injEq] at e
    obtain ⟨rfl, rfl⟩ := e
    exact ⟨hi h0 rfl, 0, by simp [pending], Step.refl hK st⟩
  | none =>
    simp only [obtainInter] at e
    obtain ⟨_, s1, e1, k1⟩ := Outcome.bind_eq_ok e
    obtain ⟨_, s2, e2, k2⟩ := Outcome.bind_eq_ok k1
    have h1 := GrB_Matrix_nrows_same e1
    subst h1
    have h2 := GrB_Matrix_nrows_same e2
    subst h2
    obtain ⟨hh, hs⟩ := GrB_Matrix_new_step (r := r) hK hb k2
    exact ⟨⟨_, hh, hb⟩, 1, by simp [pending], hs⟩

theorem resolveNext_step {K : Nat → Prop} (hK : Additive K) {ev : Eval n}
    (hev : EvStep K ev) {b : Nat} {res : GrB_Matrix} {inter : Option GrB_Matrix}
    {st st' : Backend n} {right : AlgebraicExpression}
    {v : GrB_Matrix × Bool × Option GrB_Matrix}
    (hb : b ≤ st.next) (hi : InterAbove b inter)
    (e : resolveNext ev right res inter st = .ok v st') :
    InterAbove b v.2.2 ∧ ∃ da, da + pending inter = pending v.2.2 ∧ Step b res K st st' da 0 := by
  cases right with
  | operand m =>
    simp only [resolveNext, Outcome.ok.injEq] at e
    obtain ⟨rfl, rfl⟩ := e
    exact ⟨hi, 0, by simp, Step.refl hK st⟩
  | operation op cs =>
    simp only [resolveNext] at e
    obtain ⟨h, s1, e1, e⟩ := Outcome.bind_eq_ok e
    obtain ⟨bb, s2, e2, e⟩ := Outcome.bind_eq_ok e
    simp only [Outcome.ok.injEq] at e
    obtain ⟨rfl, rfl⟩ := e
    obtain ⟨⟨c, hc, hbc⟩, da, hda, hs1⟩ := obtainInter_step (r := res) hK hb hi e1
    have hs2 := (hev _ _ _ _ _ e2).rebase (r := res) (le_trans hb hs1.next_le)
      (Or.inr ⟨c, hc, hbc⟩)
    refine ⟨?_, da, by simpa [pending] using hda, by simpa using hs1.trans hK hs2⟩
    intro h' hh'
    injection hh' with hh'
    exact ⟨c, by rw [← hh', hc], hbc⟩

theorem mulLoop_step {K : Nat → Prop} (hK : Additive K) {ev : Eval n} (hev : EvStep K ev)
    {b : Nat} {res : GrB_Matrix} :
    ∀ (rest : List AlgebraicExpression) (inter : Option GrB_Matrix) (st : Backend n)
      (inter' : Option GrB_Matrix) (st' : Backend n), b ≤ st.next → InterAbove b inter →
      mulLoop ev res rest inter st = .ok inter' st' →
      InterAbove b inter' ∧ ∃ da, da + pending inter = pending inter' ∧
        Step b res K st st' da 0 := by
  intro rest
  induction rest with
  | nil =>
    intro inter st inter' st' _ hi e
    simp only [mulLoop, Outcome.ok.injEq] at e
    obtain ⟨rfl, rfl⟩ := e
    exact ⟨hi, 0, by simp, Step.refl hK st⟩
  | cons c rest ih =>
    intro inter st inter' st' hb hi e
    simp only [mulLoop, mulStep] at e
    obtain ⟨r, s4, k0, e5⟩ := Outcome.bind_eq_ok e
    obtain ⟨v, s1, e1, k1⟩ := Outcome.bind_eq_ok k0
    obtain ⟨_, s2, e2, k2⟩ := Outcome.bind_eq_ok k1
    obtain ⟨nv, s3, e3, k3⟩ := Outcome.bind_eq_ok k2
    simp only [Outcome.ok.injEq] at k3
    obtain ⟨rfl, rfl⟩ := k3
    have h3 := GrB_Matrix_nvals_same e3
    subst h3
    obtain ⟨hi1, da1, hda1, hs1⟩ := resolveNext_step hK hev hb hi e1
    have hs2 : Step b res K s1 s3 0 0 := by
      split at e2
      · exact GrB_mxm_step hK e2
      · simp only [Outcome.ok.injEq] at e2
        rw [← e2.2]; exact Step.refl hK s1
    have hs12 := hs1.trans hK hs2
    split at e5
    · simp only [Outcome.ok.injEq] at e5
      obtain ⟨rfl, rfl⟩ := e5
      exact ⟨hi1, da1, hda1, by simpa using hs12⟩
    · obtain ⟨hi2, da2, hda2, hs3⟩ :=
        ih _ _ _ _ (le_trans hb hs12.next_le) hi1 e5
      exact ⟨hi2, da1 + da2, by omega, by simpa using hs12.trans hK hs3⟩

theorem addLoop_step {K : Nat → Prop} (hK : Additive K) {ev : Eval n} (hev : EvStep K ev)
    {b : Nat} {res : GrB_Matrix} :
    ∀ (rest : List AlgebraicExpression) (inter : Option GrB_Matrix) (st : Backend n)
      (inter' : Option GrB_Matrix) (st' : Backend n), b ≤ st.next → InterAbove b inter →
      addLoop ev res rest inter st = .ok inter' st' →
      InterAbove b inter' ∧ ∃ da, da + pending inter = pending inter' ∧
        Step b res K st st' da 0 := by
  intro rest
  induction rest with
  | nil =>
    intro inter st inter' st' _ hi e
    simp only [addLoop, Outcome.ok.injEq] at e
    obtain ⟨rfl, rfl⟩ := e
    exact ⟨hi, 0, by simp, Step.refl hK st⟩
  | cons c rest ih =>
    intro inter st inter' st' hb hi e
    simp only [addLoop, addStep] at e
    obtain ⟨r, s4, e, e5⟩ := Outcome.bind_eq_ok e
    obtain ⟨v, s1, e1, e⟩ := Outcome.bind_eq_ok e
    obtain ⟨_, s2, e2, e⟩ := Outcome.bind_eq_ok e
    simp only [Outcome.ok.injEq] at e
    obtain ⟨rfl, rfl⟩ := e
    obtain ⟨hi1, da1, hda1, hs1⟩ := resolveNext_step hK hev hb hi e1
    have hs12 := hs1.trans hK (GrB_eWiseAdd_step (b := b) hK e2)
    obtain ⟨hi2, da2, hda2, hs3⟩ := ih _ _ _ _ (le_trans hb hs12.next_le) hi1 e5
    exact ⟨hi2, da1 + da2, by omega, by simpa using hs12.trans hK hs3⟩

theorem resolveLeft_step {K : Nat → Prop} (hK : Additive K) {ev : Eval n}
    (hev : EvStep K ev) {b : Nat} {res : GrB_Matrix} {st st' : Backend n}
    {left : AlgebraicExpression} {v : GrB_Matrix × Bool × Bool} (hb : b ≤ st.next)
    (e : resolveLeft ev left res st = .ok v st') : Step b res K st st' 0 0 := by
  cases left with
  | operand m =>
    simp only [resolveLeft, Outcome.ok.injEq] at e
    rw [← e.2]; exact Step.refl hK st
  | operation op cs =>
    simp only [resolveLeft] at e
    split at e
    · split at e
      · cases e
      · obtain ⟨a, s1, e1, e⟩ := Outcome.bind_eq_ok e
        simp only [Outcome.ok.injEq] at e
        rw [← e.2]
        exact (hev _ _ _ _ _ e1).rebase hb (Or.inl rfl)
    · obtain ⟨a, s1, e1, e⟩ := Outcome.bind_eq_ok e
      simp only [Outcome.ok.injEq] at e
      rw [← e.2]
      exact (hev _ _ _ _ _ e1).rebase hb (Or.inl rfl)

theorem resolveRightStripped_step {K : Nat → Prop} (hK : Additive K) {ev : Eval n}
    (hev : EvStep K ev) {b : Nat} {res a : GrB_Matrix} {u : Bool} {st st' : Backend n}
    {right : AlgebraicExpression} {v : GrB_Matrix × Option GrB_Matrix} (hb : b ≤ st.next)
    (e : resolveRightStripped ev right a u res st = .ok v st') :
    InterAbove b v.2 ∧ Step b res K st st' (pending v.2) 0 := by
  have hnone : InterAbove b none := fun h hh => by cases hh
  cases right with
  | operand m =>
    simp only [resolveRightStripped, Outcome.ok.injEq] at e
    obtain ⟨rfl, rfl⟩ := e
    exact ⟨hnone, Step.refl hK st⟩
  | operation op cs =>
    simp only [resolveRightStripped] at e
    split at e
    · cases e
    · split at e
      · obtain ⟨_, s1, e1, e⟩ := Outcome.bind_eq_ok e
        obtain ⟨_, s2, e2, k1⟩ := Outcome.bind_eq_ok e
        obtain ⟨h, s3, e3, k2⟩ := Outcome.bind_eq_ok k1
        obtain ⟨bb, s4, e4, k3⟩ := Outcome.bind_eq_ok k2
        simp only [Outcome.ok.injEq] at k3
        obtain ⟨rfl, rfl⟩ := k3
        have h1 := GrB_Matrix_nrows_same e1
        subst h1
        have h2 := GrB_Matrix_nrows_same e2
        subst h2
        obtain ⟨hh, hs3⟩ := GrB_Matrix_new_step (r := res) hK hb e3
        have hs4 := (hev _ _ _ _ _ e4).rebase (r := res) (le_trans hb hs3.next_le)
          (Or.inr ⟨_, hh, hb⟩)
        refine ⟨?_, by simpa [pending] using hs3.trans hK hs4⟩
        intro h' hh'
        injection hh' with hh'
        exact ⟨_, by rw [← hh', hh], hb⟩
      · obtain ⟨bb, s1, e1, e⟩ := Outcome.bind_eq_ok e
        simp only [Outcome.ok.injEq] at e
        obtain ⟨rfl, rfl⟩ := e
        exact ⟨hnone, (hev _ _ _ _ _ e1).rebase hb (Or.inl rfl)⟩

theorem resolveRight_step {K : Nat → Prop} (hK : Additive K) {ev : Eval n}
    (hev : EvStep K ev) {b : Nat} {res a : GrB_Matrix} {u : Bool} {st st' : Backend n}
    {right : AlgebraicExpression} {v : GrB_Matrix × Bool × Option GrB_Matrix}
    (hb : b ≤ st.next) (e : resolveRight ev right a u res st = .ok v st') :
    InterAbove b v.2.2 ∧ Step b res K st st' (pending v.2.2) 0 := by
  unfold resolveRight at e
  split at e
  · split at e
    · cases e
    · obtain ⟨r, s1, e1, e⟩ := Outcome.bind_eq_ok e
      simp only [Outcome.ok.injEq] at e
      obtain ⟨rfl, rfl⟩ := e
      exact resolveRightStripped_step hK hev hb e1
  · obtain ⟨r, s1, e1, e⟩ := Outcome.bind_eq_ok e
    simp only [Outcome.ok.injEq] at e
    obtain ⟨rfl, rfl⟩ := e
    exact resolveRightStripped_step hK hev hb e1

/-- A completed Multiply activation returns its destination; of its own it
allocated `p <= 1` scratch matrices and released as many. -/
theorem mul_step {K : Nat → Prop} (hK : Additive K) {ev : Eval n} (hev : EvStep K ev)
    {exp : AlgebraicExpression} {res h : GrB_Matrix} {st st' : Backend n}
    (e : _Eval_MulArbitrary ev exp res st = .ok h st') :
    h = res ∧ ∃ p, p ≤ 1 ∧ Step st.next res K st st' p p := by
  unfold _Eval_MulArbitrary at e
  split at e
  · cases e
  · split at e
    · obtain ⟨l, s1, e1, e⟩ := Outcome.bind_eq_ok e
      obtain ⟨r, s2, e2, k1⟩ := Outcome.bind_eq_ok e
      obtain ⟨_, s3, e3, k2⟩ := Outcome.bind_eq_ok k1
      obtain ⟨_, s4, e4, k3⟩ := Outcome.bind_eq_ok k2
      obtain ⟨i5, s5, e5, k4⟩ := Outcome.bind_eq_ok k3
      obtain ⟨_, s6, e6, k5⟩ := Outcome.bind_eq_ok k4
      simp only [Outcome.ok.injEq] at k5
      obtain ⟨rfl, rfl⟩ := k5
      have h4 := GrB_Matrix_nvals_same e4
      subst h4
      have hs1 := resolveLeft_step hK hev (le_refl _) e1
      obtain ⟨hi2, hs2⟩ := resolveRight_step hK hev hs1.next_le e2
      have hs3 : Step st.next res K s2 s4 0 0 := by
        split at e3
        · exact GrB_Matrix_apply_step hK e3
        · exact GrB_mxm_step hK e3
      have hs123 := (hs1.trans hK hs2).trans hK hs3
      obtain ⟨hi5, da, hda, hs5⟩ := mulLoop_step hK hev _ _ _ _ _ hs123.next_le hi2 e5
      have hs6 := freeInter_step (r := res) hK hi5 e6
      have hall := (hs123.trans hK hs5).trans hK hs6
      refine ⟨rfl, pending i5, pending_le_one _, ?_⟩
      have h1 : 0 + pending r.2.2 + 0 + da + 0 = pending i5 := by omega
      have h2 : 0 + 0 + 0 + 0 + pending i5 = pending i5 := by omega
      rw [h1, h2] at hall
      exact hall
    · cases e

/-- A completed Add activation returns its destination; of its own it allocated
`p <= 1` scratch matrices and released as many. -/
theorem add_step {K : Nat → Prop} (hK : Additive K) {ev : Eval n} (hev : EvStep K ev)
    {exp : AlgebraicExpression} {res h : GrB_Matrix} {st st' : Backend n}
    (e : _Eval_AddArbitrary ev exp res st = .ok h st') :
    h = res ∧ ∃ p, p ≤ 1 ∧ Step st.next res K st st' p p := by
  unfold _Eval_AddArbitrary at e
  split at e
  · cases e
  · split at e
    · obtain ⟨l, s1, e1, e⟩ := Outcome.bind_eq_ok e
      obtain ⟨r, s2, e2, e⟩ := Outcome.bind_eq_ok e
      obtain ⟨_, s3, e3, e⟩ := Outcome.bind_eq_ok e
      obtain ⟨i5, s5, e5, e⟩ := Outcome.bind_eq_ok e
      obtain ⟨_, s6, e6, e⟩ := Outcome.bind_eq_ok e
      simp only [Outcome.ok.injEq] at e
      obtain ⟨rfl, rfl⟩ := e
      have hs1 := resolveLeft_step hK hev (le_refl _) e1
      obtain ⟨hi2, hs2⟩ := resolveRight_step hK hev hs1.next_le e2
      have hs3 : Step st.next res K s2 s3 0 0 := GrB_eWiseAdd_step hK e3
      have hs123 := (hs1.trans hK hs2).trans hK hs3
      obtain ⟨hi5, da, hda, hs5⟩ := addLoop_step hK hev _ _ _ _ _ hs123.next_le hi2 e5
      have hs6 := freeInter_step (r := res) hK hi5 e6
      have hall := (hs123.trans hK hs5).trans hK hs6
      refine ⟨rfl, pending i5, pending_le_one _, ?_⟩
      have h1 : 0 + pending r.2.2 + 0 + da + 0 = pending i5 := by omega
      have h2 : 0 + 0 + 0 + 0 + pending i5 = pending i5 := by omega
      rw [h1, h2] at hall
      exact hall
    · cases e

/-- A completed Transpose activation returns its destination and allocates
nothing of its own. -/
theorem transpose_step {K : Nat → Prop} (hK : Additive K) {ev : Eval n} (hev : EvStep K ev)
    {exp : AlgebraicExpression} {res h : GrB_Matrix} {st st' : Backend n}
    (e : _Eval_TransposeArbitrary ev exp res st = .ok h st') :
    h = res ∧ Step st.next res K st st' 0 0 := by
  unfold _Eval_TransposeArbitrary at e
  split at e
  · cases e
  · split at e
    · cases e
    · obtain ⟨_, s1, e1, e⟩ := Outcome.bind_eq_ok e
      obtain ⟨_, s2, e2, e⟩ := Outcome.bind_eq_ok e
      simp only [Outcome.ok.injEq] at e
      obtain ⟨rfl, rfl⟩ := e
      have hs1 : Step st.next res K st s1 0 0 := by
        split at e1
        · exact hev _ _ _ _ _ e1
        · simp only [Outcome.ok.injEq] at e1
          rw [← e1.2]; exact Step.refl hK st
      exact ⟨rfl, by simpa using hs1.trans hK (GrB_transpose_step hK e2)⟩

theorem additive_true : Additive (fun _ : Nat => True) := ⟨trivial, fun _ _ _ _ => trivial⟩

/-- When the share of nested activations is unconstrained, an activation's own
scratch matrix counts as part of the share of its parent. -/
theorem Step.nested {b : Nat} {res : GrB_Matrix} {st st' : Backend n} {p : Nat}
    (h : Step b res (fun _ => True) st st' p p) : Step b res (fun _ => True) st st' 0 0 := by
  obtain ⟨x, k, e, t, _, a, f⟩ := h.log
  exact ⟨h.next_le, x, k + p, e, t, trivial, by omega, by omega⟩

/-- The recursive evaluator, on any tree: a completed run adds to the log only
primitives on its destination or on objects it allocated, with as many
allocations as releases. -/
theorem eval_step : ∀ fuel : Nat,
    EvStep (n := n) (fun _ => True) (_AlgebraicExpression_EvalArbitrary fuel) := by
  intro fuel
  induction fuel with
  | zero => intro e dst st v st' h; cases h
  | succ fuel ih =>
    intro e dst st v st' h
    cases e with
    | operand m =>
      simp only [_AlgebraicExpression_EvalArbitrary, Outcome.ok.injEq] at h
      rw [← h.2]; exact Step.refl additive_true st
    | operation op cs =>
      cases op with
      | AL_EXP_MUL =>
        obtain ⟨_, p, _, hs⟩ := mul_step additive_true ih h
        exact hs.nested
      | AL_EXP_ADD =>
        obtain ⟨_, p, _, hs⟩ := add_step additive_true ih h
        exact hs.nested
      | AL_EXP_TRANSPOSE => exact (transpose_step additive_true ih h).2

theorem Outcome.ok_of_fault_none {α : Type} {o : Outcome n α} (h : o.fault? = none) :
    ∃ v, o = .ok v o.state := by
  cases o with
  | ok v st => exact ⟨v, rfl⟩
  | abort f st => cases h

theorem Step.counts {b : Nat} {res : GrB_Matrix} {K : Nat → Prop} {st st' : Backend n}
    {da df : Nat} (h : Step b res K st st' da df) :
    ∃ k, K k ∧ st'.allocated = st.allocated + k + da ∧ st'.freed = st.freed + k + df := by
  obtain ⟨x, k, e, _, hk, a, f⟩ := h.log
  refine ⟨k, hk, ?_, ?_⟩
  · simp only [Backend.allocated, e, List.countP_append, a]; omega
  · simp only [Backend.freed, e, List.countP_append, f]; omega

/-- The top-level entry point seen through the recursive evaluator. -/
theorem evalArbitrary_eq_ok {exp : AlgebraicExpression} {res : GrB_Matrix}
    {st st' : Backend n} {u : Unit} (h : AlgebraicExpression_EvalArbitrary exp res st = .ok u st') :
    ∃ v, _AlgebraicExpression_EvalArbitrary (exp.depth + 1) exp res st = .ok v st' := by
  cases exp with
  | operand m => cases h
  | operation op cs =>
    rw [evalArbitrary_operation] at h
    obtain ⟨v, s1, e1, e2⟩ := Outcome.bind_eq_ok h
    simp only [Outcome.ok.injEq] at e2
    exact ⟨v, by rw [e1, e2.2]⟩

/-- The state the top-level entry point ends in is the one the recursive
evaluator ends in. -/
theorem evalArbitrary_state (op : AL_EXP_OP) (cs : List AlgebraicExpression)
    (res : GrB_Matrix) (st : Backend n) :
    (AlgebraicExpression_EvalArbitrary (.operation op cs) res st).state =
      (_AlgebraicExpression_EvalArbitrary ((AlgebraicExpression.operation op cs).depth + 1)
        (.operation op cs) res st).state := by
  rw [evalArbitrary_operation]
  cases _AlgebraicExpression_EvalArbitrary
    ((AlgebraicExpression.operation op cs).depth + 1) (.operation op cs) res st <;> rfl

/-- A completed top-level evaluation allocated as many scratch matrices as it
released. -/
theorem scratch_balanced_core (exp : AlgebraicExpression) (res : GrB_Matrix) (st : Backend n)
    (h : (AlgebraicExpression_EvalArbitrary exp res st).fault? = none) :
    (AlgebraicExpression_EvalArbitrary exp res st).state.allocated + st.freed =
      (AlgebraicExpression_EvalArbitrary exp res st).state.freed + st.allocated := by
  obtain ⟨u, hu⟩ := Outcome.ok_of_fault_none h
  obtain ⟨v, hv⟩ := evalArbitrary_eq_ok hu
  obtain ⟨k, _, ha, hf⟩ := (eval_step _ _ _ _ _ _ hv).counts
  omega

/-- Operand matrices are left alone by the top-level evaluation. -/
theorem operands_kept_core (exp : AlgebraicExpression) (res : GrB_Matrix) (st : Backend n)
    (hleaves : ∀ m ∈ exp.leaves,
      m ≠ res ∧ (m = .IDENTITY_MATRIX ∨ st.liveBelow st.next m = true))
    (h : (AlgebraicExpression_EvalArbitrary exp res st).fault? = none) :
    (∀ m ∈ exp.leaves,
      (AlgebraicExpression_EvalArbitrary exp res st).state.get m = st.get m) ∧
    ∃ extra, (AlgebraicExpression_EvalArbitrary exp res st).state.log = st.log ++ extra ∧
      ∀ c ∈ extra, (c.target = res ∨ ∃ a, c.target = .ptr a ∧ st.next ≤ a) ∧
        ∀ m ∈ exp.leaves, c.target ≠ m := by
  have hm : ∀ m ∈ exp.leaves, m ≠ res ∧
      (m = .IDENTITY_MATRIX ∨ ∃ a, m = .ptr a ∧ a < st.next) := by
    intro m hm
    obtain ⟨hne, hl⟩ := hleaves m hm
    refine ⟨hne, ?_⟩
    rcases hl with hl | hl
    · exact Or.inl hl
    · cases m with
      | IDENTITY_MATRIX => exact Or.inl rfl
      | ptr a =>
        simp only [Backend.liveBelow, Bool.and_eq_true, decide_eq_true_eq] at hl
        exact Or.inr ⟨a, rfl, hl.1⟩
  cases exp with
  | operand m => cases h
  | operation op cs =>
    constructor
    · intro m hmem
      obtain ⟨hne, hid | ⟨a, rfl, ha⟩⟩ := hm m hmem
      · subst hid; rfl
      · rw [evalArbitrary_state]
        exact (eval_keeps _ _ res st).2.1 a ⟨ha, hne⟩
    · obtain ⟨u, hu⟩ := Outcome.ok_of_fault_none h
      obtain ⟨v, hv⟩ := evalArbitrary_eq_ok hu
      obtain ⟨x, k, e, t, _, _, _⟩ := (eval_step _ _ _ _ _ _ hv).log
      refine ⟨x, e, ?_⟩
      intro c hc
      refine ⟨t c hc, ?_⟩
      intro m hmem hcm
      obtain ⟨hne, hid | ⟨a, rfl, ha⟩⟩ := hm m hmem
      · subst hid
        rcases t c hc with h1 | ⟨a', h1, h2⟩
        · exact hne (by rw [← hcm, h1])
        · rw [hcm] at h1; cases h1
      · rcases t c hc with h1 | ⟨a', h1, h2⟩
        · exact hne (by rw [← hcm, h1])
        · rw [hcm] at h1
          injection h1 with h1
          omega

/-- What the recursive evaluator returns. -/
theorem eval_returns_core :
    (∀ (fuel : Nat) (m dst : GrB_Matrix) (st : Backend n),
      _AlgebraicExpression_EvalArbitrary (fuel + 1) (.operand m) dst st = .ok m st) ∧
    (∀ (fuel : Nat) (op : AL_EXP_OP) (cs : List AlgebraicExpression) (dst h : GrB_Matrix)
      (st st' : Backend n),
      _AlgebraicExpression_EvalArbitrary fuel (.operation op cs) dst st = .ok h st' →
      h = dst) := by
  refine ⟨fun _ _ _ _ => rfl, ?_⟩
  intro fuel op cs dst h st st' e
  cases fuel with
  | zero => cases e
  | succ fuel =>
    cases op with
    | AL_EXP_MUL => exact (mul_step additive_true (eval_step fuel) e).1
    | AL_EXP_ADD => exact (add_step additive_true (eval_step fuel) e).1
    | AL_EXP_TRANSPOSE => exact (transpose_step additive_true (eval_step fuel) e).1

theorem NoShapeAbort.of_ok {α : Type} (v : α) (st : Backend n) : NoShapeAbort (.ok v st) :=
  fun _ _ e => by cases e

theorem NoShapeAbort.of_fault {α : Type} {f : Fault} (st : Backend n) (h : f.isShape = false) :
    NoShapeAbort (.abort f st : Outcome n α) :=
  fun _ _ e => by injection e with e1 _; rw [← e1]; exact h

theorem NoShapeAbort.seq {α β : Type} {o : Outcome n α} {k : α → Backend n → Outcome n β}
    (h1 : NoShapeAbort o) (h2 : ∀ v st1, NoShapeAbort (k v st1)) : NoShapeAbort (o.bind k) := by
  cases o with
  | ok v st1 => exact h2 v st1
  | abort f st1 => exact fun f' st' e => h1 f' st' (by simpa using e)

theorem GrB_mxm_noShape (C A B : GrB_Matrix) (d : Option GrB_Descriptor) (st : Backend n) :
    NoShapeAbort (GrB_mxm C A B d st) := by
  unfold GrB_mxm
  split
  · exact NoShapeAbort.of_ok _ _
  · exact NoShapeAbort.of_fault _ rfl

theorem GrB_eWiseAdd_noShape (C A B : GrB_Matrix) (d : Option GrB_Descriptor)
    (st : Backend n) : NoShapeAbort (GrB_eWiseAdd_Matrix_Semiring C A B d st) := by
  unfold GrB_eWiseAdd_Matrix_Semiring
  split
  · exact NoShapeAbort.of_ok _ _
  · exact NoShapeAbort.of_fault _ rfl

theorem GrB_Matrix_apply_noShape (C A : GrB_Matrix) (d : Option GrB_Descriptor)
    (st : Backend n) : NoShapeAbort (GrB_Matrix_apply C A d st) := by
  unfold GrB_Matrix_apply
  split
  · exact NoShapeAbort.of_ok _ _
  · exact NoShapeAbort.of_fault _ rfl

theorem GrB_transpose_noShape (C A : GrB_Matrix) (st : Backend n) :
    NoShapeAbort (GrB_transpose C A st) := by
  unfold GrB_transpose
  split
  · exact NoShapeAbort.of_ok _ _
  · exact NoShapeAbort.of_fault _ rfl

theorem GrB_Matrix_nrows_noShape (h : GrB_Matrix) (st : Backend n) :
    NoShapeAbort (GrB_Matrix_nrows h st) := by
  unfold GrB_Matrix_nrows
  split
  · exact NoShapeAbort.of_ok _ _
  · exact NoShapeAbort.of_fault _ rfl

theorem GrB_Matrix_nvals_noShape (h : GrB_Matrix) (st : Backend n) :
    NoShapeAbort (GrB_Matrix_nvals h st) := by
  unfold GrB_Matrix_nvals
  split
  · exact NoShapeAbort.of_ok _ _
  · exact NoShapeAbort.of_fault _ rfl

theorem freeInter_noShape (inter : Option GrB_Matrix) (st : Backend n) :
    NoShapeAbort (freeInter inter st) := by
  cases inter with
  | none => exact NoShapeAbort.of_ok _ _
  | some h =>
    cases h with
    | IDENTITY_MATRIX => exact NoShapeAbort.of_fault _ rfl
    | ptr a => exact NoShapeAbort.of_ok _ _

theorem obtainInter_noShape (res : GrB_Matrix) (inter : Option GrB_Matrix) (st : Backend n) :
    NoShapeAbort (obtainInter res inter st) := by
  cases inter with
  | some h => exact NoShapeAbort.of_ok _ _
  | none =>
    exact NoShapeAbort.seq (GrB_Matrix_nrows_noShape _ _) (fun _ _ =>
      NoShapeAbort.seq (GrB_Matrix_nrows_noShape _ _) (fun _ _ => NoShapeAbort.of_ok _ _))

theorem arityOKList_cons (c : AlgebraicExpression) (cs : List AlgebraicExpression) :
    arityOKList (c :: cs) = true ↔ c.arityOK = true ∧ arityOKList cs = true := by
  simp [arityOKList]

theorem arityOKList_mem {cs : List AlgebraicExpression} (h : arityOKList cs = true) :
    ∀ c ∈ cs, c.arityOK = true := by
  induction cs with
  | nil => intro c hc; cases hc
  | cons c0 cs ih =>
    rw [arityOKList_cons] at h
    intro c hc
    rcases List.mem_cons.mp hc with rfl | hc
    · exact h.1
    · exact ih h.2 c hc

theorem arityOK_children {op : AL_EXP_OP} {cs : List AlgebraicExpression}
    (h : (AlgebraicExpression.operation op cs).arityOK = true) : arityOKList cs = true := by
  simp only [AlgebraicExpression.arityOK, Bool.and_eq_true] at h
  exact h.2

theorem arityOK_get {cs : List AlgebraicExpression} (h : arityOKList cs = true) {i : Nat}
    {c : AlgebraicExpression} (hc : cs.get? i = some c) : c.arityOK = true :=
  arityOKList_mem h c (List.get?_mem hc)

theorem resolveNext_noShape {ev : Eval n} (hev : EvNoShape ev) {right : AlgebraicExpression}
    (hr : right.arityOK = true) (res : GrB_Matrix) (inter : Option GrB_Matrix)
    (st : Backend n) : NoShapeAbort (resolveNext ev right res inter st) := by
  cases right with
  | operand m => exact NoShapeAbort.of_ok _ _
  | operation op cs =>
    exact NoShapeAbort.seq (obtainInter_noShape _ _ _) (fun _ _ =>
      NoShapeAbort.seq (hev _ hr _ _) (fun _ _ => NoShapeAbort.of_ok _ _))

theorem mulLoop_noShape {ev : Eval n} (hev : EvNoShape ev) (res : GrB_Matrix) :
    ∀ (rest : List AlgebraicExpression), arityOKList rest = true →
      ∀ (inter : Option GrB_Matrix) (st : Backend n),
        NoShapeAbort (mulLoop ev res rest inter st) := by
  intro rest
  induction rest with
  | nil => intro _ inter st; exact NoShapeAbort.of_ok _ _
  | cons c rest ih =>
    intro h inter st
    rw [arityOKList_cons] at h
    refine NoShapeAbort.seq ?_ (fun v st1 => ?_)
    · refine NoShapeAbort.seq (resolveNext_noShape hev h.1 _ _ _) (fun r st1 => ?_)
      refine NoShapeAbort.seq ?_ (fun _ st2 =>
        NoShapeAbort.seq (GrB_Matrix_nvals_noShape _ _) (fun _ _ => NoShapeAbort.of_ok _ _))
      split
      · exact GrB_mxm_noShape _ _ _ _ _
      · exact NoShapeAbort.of_ok _ _
    · split
      · exact NoShapeAbort.of_ok _ _
      · exact ih h.2 _ _

theorem addLoop_noShape {ev : Eval n} (hev : EvNoShape ev) (res : GrB_Matrix) :
    ∀ (rest : List AlgebraicExpression), arityOKList rest = true →
      ∀ (inter : Option GrB_Matrix) (st : Backend n),
        NoShapeAbort (addLoop ev res rest inter st) := by
  intro rest
  induction rest with
  | nil => intro _ inter st; exact NoShapeAbort.of_ok _ _
  | cons c rest ih =>
    intro h inter st
    rw [arityOKList_cons] at h
    refine NoShapeAbort.seq ?_ (fun v st1 => ih h.2 _ _)
    refine NoShapeAbort.seq (resolveNext_noShape hev h.1 _ _ _) (fun r st1 => ?_)
    exact NoShapeAbort.seq (GrB_eWiseAdd_noShape _ _ _ _ _) (fun _ _ =>
      NoShapeAbort.of_ok _ _)

theorem resolveLeft_noShape {ev : Eval n} (hev : EvNoShape ev) {left : AlgebraicExpression}
    (hl : left.arityOK = true) (res : GrB_Matrix) (st : Backend n) :
    NoShapeAbort (resolveLeft ev left res st) := by
  cases left with
  | operand m => exact NoShapeAbort.of_ok _ _
  | operation op cs =>
    simp only [resolveLeft]
    split
    · split
      · exact NoShapeAbort.of_fault _ rfl
      · rename_i c hc
        exact NoShapeAbort.seq (hev _ (arityOK_get (arityOK_children hl) hc) _ _)
          (fun _ _ => NoShapeAbort.of_ok _ _)
    · exact NoShapeAbort.seq (hev _ hl _ _) (fun _ _ => NoShapeAbort.of_ok _ _)

theorem resolveRightStripped_noShape {ev : Eval n} (hev : EvNoShape ev)
    {right : AlgebraicExpression} (hr : right.arityOK = true) (a : GrB_Matrix) (u : Bool)
    (res : GrB_Matrix) (st : Backend n) :
    NoShapeAbort (resolveRightStripped ev right a u res st) := by
  cases right with
  | operand m => exact NoShapeAbort.of_ok _ _
  | operation op cs =>
    simp only [resolveRightStripped]
    split
    · exact NoShapeAbort.of_fault _ rfl
    · split
      · exact NoShapeAbort.seq (GrB_Matrix_nrows_noShape _ _) (fun _ _ =>
          NoShapeAbort.seq (GrB_Matrix_nrows_noShape _ _) (fun _ _ =>
            NoShapeAbort.seq (NoShapeAbort.of_ok _ _) (fun _ _ =>
              NoShapeAbort.seq (hev _ hr _ _) (fun _ _ => NoShapeAbort.of_ok _ _))))
      · exact NoShapeAbort.seq (hev _ hr _ _) (fun _ _ => NoShapeAbort.of_ok _ _)

theorem resolveRight_noShape {ev : Eval n} (hev : EvNoShape ev)
    {right : AlgebraicExpression} (hr : right.arityOK = true) (a : GrB_Matrix) (u : Bool)
    (res : GrB_Matrix) (st : Backend n) :
    NoShapeAbort (resolveRight ev right a u res st) := by
  unfold resolveRight
  split
  · split
    · exact NoShapeAbort.of_fault _ rfl
    · rename_i c hc
      exact NoShapeAbort.seq
        (resolveRightStripped_noShape hev (arityOK_get (arityOK_children hr) hc) _ _ _ _)
        (fun _ _ => NoShapeAbort.of_ok _ _)
  · exact NoShapeAbort.seq (resolveRightStripped_noShape hev hr _ _ _ _)
      (fun _ _ => NoShapeAbort.of_ok _ _)

theorem mul_noShape {ev : Eval n} (hev : EvNoShape ev) {cs : List AlgebraicExpression}
    (h : (AlgebraicExpression.operation .AL_EXP_MUL cs).arityOK = true) (res : GrB_Matrix)
    (st : Backend n) : NoShapeAbort (_Eval_MulArbitrary ev (.operation .AL_EXP_MUL cs) res st) := by
  have hcs := arityOK_children h
  simp only [AlgebraicExpression.arityOK, Bool.and_eq_true, decide_eq_true_eq] at h
  match cs, h, hcs with
  | l :: r :: rest, _, hcs =>
    rw [arityOKList_cons, arityOKList_cons] at hcs
    simp only [_Eval_MulArbitrary, AlgebraicExpression_ChildCount, List.length_cons]
    rw [if_neg (by omega)]
    refine NoShapeAbort.seq (resolveLeft_noShape hev hcs.1 _ _) (fun _ _ => ?_)
    refine NoShapeAbort.seq (resolveRight_noShape hev hcs.2.1 _ _ _ _) (fun _ _ => ?_)
    refine NoShapeAbort.seq ?_ (fun _ _ => ?_)
    · split
      · exact GrB_Matrix_apply_noShape _ _ _ _
      · exact GrB_mxm_noShape _ _ _ _ _
    · refine NoShapeAbort.seq (GrB_Matrix_nvals_noShape _ _) (fun _ _ => ?_)
      refine NoShapeAbort.seq (mulLoop_noShape hev _ _ hcs.2.2 _ _) (fun _ _ => ?_)
      exact NoShapeAbort.seq (freeInter_noShape _ _) (fun _ _ => NoShapeAbort.of_ok _ _)

theorem add_noShape {ev : Eval n} (hev : EvNoShape ev) {cs : List AlgebraicExpression}
    (h : (AlgebraicExpression.operation .AL_EXP_ADD cs).arityOK = true) (res : GrB_Matrix)
    (st : Backend n) : NoShapeAbort (_Eval_AddArbitrary ev (.operation .AL_EXP_ADD cs) res st) := by
  have hcs := arityOK_children h
  simp only [AlgebraicExpression.arityOK, Bool.and_eq_true, decide_eq_true_eq] at h
  match cs, h, hcs with
  | l :: r :: rest, _, hcs =>
    rw [arityOKList_cons, arityOKList_cons] at hcs
    simp only [_Eval_AddArbitrary, AlgebraicExpression_ChildCount, List.length_cons]
    rw [if_neg (by omega)]
    refine NoShapeAbort.seq (resolveLeft_noShape hev hcs.1 _ _) (fun _ _ => ?_)
    refine NoShapeAbort.seq (resolveRight_noShape hev hcs.2.1 _ _ _ _) (fun _ _ => ?_)
    refine NoShapeAbort.seq (GrB_eWiseAdd_noShape _ _ _ _ _) (fun _ _ => ?_)
    refine NoShapeAbort.seq (addLoop_noShape hev _ _ hcs.2.2 _ _) (fun _ _ => ?_)
    exact NoShapeAbort.seq (freeInter_noShape _ _) (fun _ _ => NoShapeAbort.of_ok _ _)

theorem transpose_noShape {ev : Eval n} (hev : EvNoShape ev) {cs : List AlgebraicExpression}
    (h : (AlgebraicExpression.operation .AL_EXP_TRANSPOSE cs).arityOK = true)
    (res : GrB_Matrix) (st : Backend n) :
    NoShapeAbort (_Eval_TransposeArbitrary ev (.operation .AL_EXP_TRANSPOSE cs) res st) := by
  have hcs := arityOK_children h
  simp only [AlgebraicExpression.arityOK, Bool.and_eq_true, decide_eq_true_eq] at h
  match cs, h, hcs with
  | [c], _, hcs =>
    rw [arityOKList_cons] at hcs
    simp only [_Eval_TransposeArbitrary, AlgebraicExpression_ChildCount, List.length_cons,
      List.length_nil, FIRST_CHILD, CHILD_AT]
    refine NoShapeAbort.seq ?_ (fun _ _ =>
      NoShapeAbort.seq (GrB_transpose_noShape _ _ _) (fun _ _ => NoShapeAbort.of_ok _ _))
    cases c with
    | operand m => exact NoShapeAbort.of_ok _ _
    | operation op' cs' => exact hev _ hcs.1 _ _

/-- On a tree whose nodes all have the right number of children, the recursive
evaluator never stops at a shape assertion. -/
theorem eval_noShape : ∀ fuel : Nat,
    EvNoShape (n := n) (_AlgebraicExpression_EvalArbitrary fuel) := by
  intro fuel
  induction fuel with
  | zero => intro e _ dst st; exact NoShapeAbort.of_fault _ rfl
  | succ fuel ih =>
    intro e he dst st
    cases e with
    | operand m => exact NoShapeAbort.of_ok _ _
    | operation op cs =>
      cases op with
      | AL_EXP_MUL => exact mul_noShape ih he dst st
      | AL_EXP_ADD => exact add_noShape ih he dst st
      | AL_EXP_TRANSPOSE => exact transpose_noShape ih he dst st

theorem Aborts.of_abort {α : Type} (f : Fault) (st : Backend n) :
    Aborts (.abort f st : Outcome n α) := by
  simp [Aborts, Outcome.fault?]

theorem Aborts.bind_left {α β : Type} {o : Outcome n α} (h : Aborts o)
    (k : α → Backend n → Outcome n β) : Aborts (o.bind k) := by
  cases o with
  | ok v st => simp [Aborts, Outcome.fault?] at h
  | abort f st => exact Aborts.of_abort f st

theorem Aborts.bind_right {α β : Type} (o : Outcome n α) {k : α → Backend n → Outcome n β}
    (h : ∀ v st, Aborts (k v st)) : Aborts (o.bind k) := by
  cases o with
  | ok v st => exact h v st
  | abort f st => exact Aborts.of_abort f st

theorem eWiseAdd_identity_left (C B : GrB_Matrix) (d : Option GrB_Descriptor)
    (st : Backend n) :
    GrB_eWiseAdd_Matrix_Semiring C .IDENTITY_MATRIX B d st =
      .abort .BackendError (st.record (.eWiseAdd C .IDENTITY_MATRIX B d)) := by
  unfold GrB_eWiseAdd_Matrix_Semiring
  split
  · rename_i h1 h2 h3; simp at h2
  · rfl

theorem eWiseAdd_identity_right (C A : GrB_Matrix) (d : Option GrB_Descriptor)
    (st : Backend n) :
    GrB_eWiseAdd_Matrix_Semiring C A .IDENTITY_MATRIX d st =
      .abort .BackendError (st.record (.eWiseAdd C A .IDENTITY_MATRIX d)) := by
  unfold GrB_eWiseAdd_Matrix_Semiring
  split
  · rename_i h1 h2 h3; simp at h3
  · rfl

theorem addLoop_identity (ev : Eval n) (res : GrB_Matrix) :
    ∀ (rest : List AlgebraicExpression),
      AlgebraicExpression.operand .IDENTITY_MATRIX ∈ rest →
      ∀ (inter : Option GrB_Matrix) (st : Backend n), Aborts (addLoop ev res rest inter st) := by
  intro rest
  induction rest with
  | nil => intro h; cases h
  | cons c rest ih =>
    intro h inter st
    rcases List.mem_cons.mp h with h | h
    · subst h
      apply Aborts.bind_left
      simp only [addStep, resolveNext, Outcome.bind_ok, eWiseAdd_identity_right,
        Outcome.bind_abort]
      exact Aborts.of_abort _ _
    · exact Aborts.bind_right _ (fun _ _ => ih h _ _)

/-- An Add activation with the identity sentinel among its children never
completes, whatever the other children and the nested evaluator are. -/
theorem add_identity_aborts (ev : Eval n) (op : AL_EXP_OP) (cs : List AlgebraicExpression)
    (res : GrB_Matrix) (st : Backend n)
    (h : AlgebraicExpression.operand .IDENTITY_MATRIX ∈ cs) :
    Aborts (_Eval_AddArbitrary ev (.operation op cs) res st) := by
  match cs, h with
  | [c], _ =>
    simp only [_Eval_AddArbitrary, AlgebraicExpression_ChildCount, List.length_cons,
      List.length_nil]
    exact Aborts.of_abort _ _
  | l :: r :: rest, h =>
    simp only [_Eval_AddArbitrary, AlgebraicExpression_ChildCount, List.length_cons]
    rw [if_neg (by omega)]
    rcases List.mem_cons.mp h with h | h
    · subst h
      simp only [resolveLeft, Outcome.bind_ok]
      refine Aborts.bind_right _ (fun r st2 => ?_)
      rw [eWiseAdd_identity_left]
      exact Aborts.of_abort _ _
    · refine Aborts.bind_right _ (fun l st1 => ?_)
      rcases List.mem_cons.mp h with h | h
      · subst h
        simp only [resolveRight, resolveRightStripped, Outcome.bind_ok,
          eWiseAdd_identity_right, Outcome.bind_abort]
        exact Aborts.of_abort _ _
      · refine Aborts.bind_right _ (fun r st2 => ?_)
        refine Aborts.bind_right _ (fun _ st3 => ?_)
        exact Aborts.bind_left (addLoop_identity ev res rest h _ _) _

/-- Add with the identity sentinel among its children, in full. -/
theorem add_identity_core (A res : GrB_Matrix) (st : Backend n) :
    (∀ (ev : Eval n) (op : AL_EXP_OP) (cs : List AlgebraicExpression),
      AlgebraicExpression.operand .IDENTITY_MATRIX ∈ cs →
      (_Eval_AddArbitrary ev (.operation op cs) res st).fault? ≠ none) ∧
    AlgebraicExpression_EvalArbitrary (addOf [.operand A, .operand .IDENTITY_MATRIX]) res st
      = .abort .BackendError
          (st.record (.eWiseAdd res A .IDENTITY_MATRIX (some { INP0 := false, INP1 := false })))
      ∧
    AlgebraicExpression_EvalArbitrary (addOf [.operand .IDENTITY_MATRIX, .operand A]) res st
      = .abort .BackendError
          (st.record (.eWiseAdd res .IDENTITY_MATRIX A (some { INP0 := false, INP1 := false })))
      := by
  refine ⟨fun ev op cs h => add_identity_aborts ev op cs res st h, ?_, ?_⟩
  · rw [evalArbitrary_addOf]
    simp [addOf, _Eval_AddArbitrary, AlgebraicExpression_ChildCount, resolveLeft, resolveRight,
      resolveRightStripped, eWiseAdd_identity_right]
  · rw [evalArbitrary_addOf]
    simp [addOf, _Eval_AddArbitrary, AlgebraicExpression_ChildCount, resolveLeft, resolveRight,
      resolveRightStripped, eWiseAdd_identity_left]

/-- A root Transpose over a bare operand: `res` is transposed in place, the
operand is not looked at. -/
theorem transpose_operand_core (m res : GrB_Matrix) (st : Backend n) (R : Mat n)
    (hres : st.get res = some R) :
    ∃ st', AlgebraicExpression_EvalArbitrary (transposeOf (.operand m)) res st = .ok () st' ∧
      st'.get res = some R.transpose := by
  obtain ⟨st1, e1, hw1⟩ := GrB_transpose_spec hres hres
  refine ⟨st1, ?_, hw1.1⟩
  simp [transposeOf, AlgebraicExpression_EvalArbitrary, _AlgebraicExpression_EvalArbitrary,
    _Eval_TransposeArbitrary, AlgebraicExpression_ChildCount, FIRST_CHILD, CHILD_AT, e1]

/-- The assertions on the shape of the tree. -/
theorem shape_assertions_core (res : GrB_Matrix) (st : Backend n) :
    (∀ m : GrB_Matrix,
      AlgebraicExpression_EvalArbitrary (.operand m) res st = .abort .RootOperand st) ∧
    (∀ (fuel : Nat) (op : AL_EXP_OP) (cs : List AlgebraicExpression),
      nodeArityOK op cs = false →
      _AlgebraicExpression_EvalArbitrary (fuel + 1) (.operation op cs) res st
        = .abort .ChildCount st) ∧
    (∀ (op : AL_EXP_OP) (cs : List AlgebraicExpression),
      (AlgebraicExpression.operation op cs).arityOK = true →
      ∀ f : Fault,
        (AlgebraicExpression_EvalArbitrary (.operation op cs) res st).fault? = some f →
        f.isShape = false) := by
  refine ⟨fun _ => rfl, ?_, ?_⟩
  · intro fuel op cs h
    cases op with
    | AL_EXP_TRANSPOSE =>
      simp only [nodeArityOK, decide_eq_false_iff_not] at h
      simp [_AlgebraicExpression_EvalArbitrary, _Eval_TransposeArbitrary,
        AlgebraicExpression_ChildCount, h]
    | AL_EXP_MUL =>
      simp only [nodeArityOK, decide_eq_false_iff_not, not_le] at h
      simp only [_AlgebraicExpression_EvalArbitrary, _Eval_MulArbitrary,
        AlgebraicExpression_ChildCount]
      rw [if_pos (by omega)]
    | AL_EXP_ADD =>
      simp only [nodeArityOK, decide_eq_false_iff_not, not_le] at h
      simp only [_AlgebraicExpression_EvalArbitrary, _Eval_AddArbitrary,
        AlgebraicExpression_ChildCount]
      rw [if_pos (by omega)]
  · intro op cs h f hf
    have := eval_noShape ((AlgebraicExpression.operation op cs).depth + 1) _ h res st
    rw [evalArbitrary_operation] at hf
    cases hr : _AlgebraicExpression_EvalArbitrary
        ((AlgebraicExpression.operation op cs).depth + 1) (.operation op cs) res st with
    | ok v st1 => rw [hr] at hf; cases hf
    | abort f' st1 =>
      rw [hr] at hf
      simp only [Outcome.bind_abort, Outcome.fault?, Option.some.injEq] at hf
      rw [← hf]
      exact this f' st1 hr

theorem nonIdentity_cons_identity (ms : List GrB_Matrix) :
    nonIdentity (.IDENTITY_MATRIX :: ms) = nonIdentity ms := by
  simp [nonIdentity]

theorem nonIdentity_cons_of_ne {m : GrB_Matrix} (h : m ≠ .IDENTITY_MATRIX)
    (ms : List GrB_Matrix) : nonIdentity (m :: ms) = m :: nonIdentity ms := by
  simp [nonIdentity, h]

/-- The loop of Multiply over operand children, each the identity sentinel or a
live matrix other than `res`: the sentinel leaves `res` as it is, every other
child is multiplied in from the right. -/
theorem mulLoop_operands (V : GrB_Matrix → Mat n) (ev : Eval n) (res : GrB_Matrix) :
    ∀ (ms : List GrB_Matrix) (inter : Option GrB_Matrix) (st : Backend n) (R : Mat n),
      st.get res = some R →
      (∀ x ∈ ms, x = .IDENTITY_MATRIX ∨ (x ≠ res ∧ st.get x = some (V x))) →
      ∃ st', mulLoop ev res (ms.map AlgebraicExpression.operand) inter st = .ok inter st' ∧
        st'.get res = some (((nonIdentity ms).map V).foldl Mat.mxm R) := by
  intro ms
  induction ms with
  | nil =>
    intro inter st R hres _
    exact ⟨st, rfl, by simpa [nonIdentity] using hres⟩
  | cons x ms ih =>
    intro inter st R hres hms
    have hrest : ∀ y ∈ ms, y = .IDENTITY_MATRIX ∨ (y ≠ res ∧ st.get y = some (V y)) :=
      fun y hy => hms y (List.mem_cons_of_mem _ hy)
    rcases hms x (List.mem_cons_self _ _) with hx | ⟨hxr, hxv⟩
    · subst hx
      rw [nonIdentity_cons_identity]
      by_cases hz : R.nvals = 0
      · refine ⟨st, ?_, ?_⟩
        · simp [mulLoop, mulStep, resolveNext, GrB_Matrix_nvals_spec hres, hz]
        · rw [Mat.nvals_eq_zero.mp hz, Mat.foldl_mxm_zero]
          rw [Mat.nvals_eq_zero.mp hz] at hres
          exact hres
      · obtain ⟨st', e, hv⟩ := ih inter st R hres hrest
        refine ⟨st', ?_, hv⟩
        simp [mulLoop, mulStep, resolveNext, GrB_Matrix_nvals_spec hres, hz, e]
    · have hxi : x ≠ .IDENTITY_MATRIX := Backend.ne_identity_of_get hxv
      rw [nonIdentity_cons_of_ne hxi]
      obtain ⟨st1, e1, hw1⟩ :=
        GrB_mxm_spec hres hres hxv (some { INP0 := false, INP1 := false })
      simp only [descINP0, descINP1, Mat.tran, Bool.false_eq_true, if_false] at hw1
      by_cases hz : (Mat.mxm R (V x)).nvals = 0
      · refine ⟨st1, ?_, ?_⟩
        · simp [mulLoop, mulStep, resolveNext, hxi, e1, GrB_Matrix_nvals_spec hw1.1, hz]
        · simp only [List.map_cons, List.foldl_cons]
          rw [Mat.nvals_eq_zero.mp hz, Mat.foldl_mxm_zero]
          rw [Mat.nvals_eq_zero.mp hz] at hw1
          exact hw1.1
      · have hrest1 : ∀ y ∈ ms,
            y = .IDENTITY_MATRIX ∨ (y ≠ res ∧ st1.get y = some (V y)) := by
          intro y hy
          rcases hrest y hy with h | ⟨h1, h2⟩
          · exact Or.inl h
          · exact Or.inr ⟨h1, by rw [hw1.2.2 y h1]; exact h2⟩
        obtain ⟨st', e, hv⟩ := ih inter st1 _ hw1.1 hrest1
        refine ⟨st', ?_, by simpa using hv⟩
        simp [mulLoop, mulStep, resolveNext, hxi, e1, GrB_Matrix_nvals_spec hw1.1, hz, e]

/-- A Multiply over operands whose first child is a live matrix and whose other
children are the identity sentinel or live matrices other than `res`. -/
theorem multiply_skips_identity_core (m : GrB_Matrix) (ms : List GrB_Matrix)
    (res : GrB_Matrix) (st : Backend n) (hk : 1 ≤ ms.length)
    (hres : st.liveBelow st.next res = true)
    (hm : st.liveBelow st.next m = true)
    (hms : ∀ x ∈ ms, x = .IDENTITY_MATRIX ∨ (x ≠ res ∧ st.liveBelow st.next x = true)) :
    ∃ st', AlgebraicExpression_EvalArbitrary
        (mulOf ((m :: ms).map AlgebraicExpression.operand)) res st = .ok () st' ∧
      st'.get res = some (Mat.prod ((nonIdentity (m :: ms)).map st.val)) := by
  have live : ∀ {x : GrB_Matrix}, st.liveBelow st.next x = true → st.get x = some (st.val x) := by
    intro x hx
    cases x with
    | IDENTITY_MATRIX => simp [Backend.liveBelow] at hx
    | ptr a =>
      simp only [Backend.liveBelow, Bool.and_eq_true, decide_eq_true_eq] at hx
      obtain ⟨M, hM⟩ := Option.isSome_iff_exists.mp hx.2
      simp [Backend.val, hM]
  have hmi : m ≠ .IDENTITY_MATRIX := Backend.ne_identity_of_get (live hm)
  have hms' : ∀ x ∈ ms, x = .IDENTITY_MATRIX ∨ (x ≠ res ∧ st.get x = some (st.val x)) := by
    intro x hx
    rcases hms x hx with h | ⟨h1, h2⟩
    · exact Or.inl h
    · exact Or.inr ⟨h1, live h2⟩
  rw [evalArbitrary_mulOf, nonIdentity_cons_of_ne hmi]
  match ms, hk, hms' with
  | x :: rest, _, hms' =>
    have hrest : ∀ y ∈ rest,
        y = .IDENTITY_MATRIX ∨ (y ≠ res ∧ st.get y = some (st.val y)) :=
      fun y hy => hms' y (List.mem_cons_of_mem _ hy)
    rcases hms' x (List.mem_cons_self _ _) with hx | ⟨hxr, hxv⟩
    · subst hx
      obtain ⟨st1, e1, hw1⟩ :=
        GrB_Matrix_apply_spec (live hres) (live hm) (some { INP0 := false, INP1 := false })
      simp only [descINP0, Mat.tran, Bool.false_eq_true, if_false] at hw1
      have hrest1 : ∀ y ∈ rest,
          y = .IDENTITY_MATRIX ∨ (y ≠ res ∧ st1.get y = some (st.val y)) := by
        intro y hy
        rcases hrest y hy with h | ⟨h1, h2⟩
        · exact Or.inl h
        · exact Or.inr ⟨h1, by rw [hw1.2.2 y h1]; exact h2⟩
      obtain ⟨st', e, hv⟩ := mulLoop_operands st.val
        (_AlgebraicExpression_EvalArbitrary
          (depthList ((m :: GrB_Matrix.IDENTITY_MATRIX :: rest).map
            AlgebraicExpression.operand) + 1))
        res rest none st1 _ hw1.1 hrest1
      simp only [List.map_cons] at e
      refine ⟨st', ?_, ?_⟩
      · simp [mulOf, _Eval_MulArbitrary, AlgebraicExpression_ChildCount, resolveLeft,
          resolveRight, resolveRightStripped, e1, GrB_Matrix_nvals_spec hw1.1, e, freeInter]
      · rw [nonIdentity_cons_identity]
        simpa [Mat.prod] using hv
    · have hxi : x ≠ .IDENTITY_MATRIX := Backend.ne_identity_of_get hxv
      obtain ⟨st1, e1, hw1⟩ :=
        GrB_mxm_spec (live hres) (live hm) hxv (some { INP0 := false, INP1 := false })
      simp only [descINP0, descINP1, Mat.tran, Bool.false_eq_true, if_false] at hw1
      have hrest1 : ∀ y ∈ rest,
          y = .IDENTITY_MATRIX ∨ (y ≠ res ∧ st1.get y = some (st.val y)) := by
        intro y hy
        rcases hrest y hy with h | ⟨h1, h2⟩
        · exact Or.inl h
        · exact Or.inr ⟨h1, by rw [hw1.2.2 y h1]; exact h2⟩
      obtain ⟨st', e, hv⟩ := mulLoop_operands st.val
        (_AlgebraicExpression_EvalArbitrary
          (depthList ((m :: x :: rest).map AlgebraicExpression.operand) + 1))
        res rest none st1 _ hw1.1 hrest1
      simp only [List.map_cons] at e
      refine ⟨st', ?_, ?_⟩
      · simp [mulOf, _Eval_MulArbitrary, AlgebraicExpression_ChildCount, resolveLeft,
          resolveRight, resolveRightStripped, hxi, e1, GrB_Matrix_nvals_spec hw1.1, e,
          freeInter]
      · rw [nonIdentity_cons_of_ne hxi]
        simpa [Mat.prod] using hv

/-- A sequence of completed evaluations allocated as many scratch matrices as it
released. -/
theorem evalSequence_balanced :
    ∀ (jobs : List (AlgebraicExpression × GrB_Matrix)) (st : Backend n),
      (evalSequence jobs st).fault? = none →
      (evalSequence jobs st).state.allocated + st.freed =
        (evalSequence jobs st).state.freed + st.allocated := by
  intro jobs
  induction jobs with
  | nil => intro st _; simp [evalSequence, Outcome.state]; omega
  | cons job rest ih =>
    intro st h
    have h1 := scratch_balanced_core job.1 job.2 st
    simp only [evalSequence] at h ⊢
    cases hr : AlgebraicExpression_EvalArbitrary job.1 job.2 st with
    | abort f s1 => rw [hr] at h; cases h
    | ok u s1 =>
      rw [hr] at h h1
      simp only [Outcome.bind_ok] at h ⊢
      have h2 := ih s1 h
      have h3 := h1 rfl
      simp only [Outcome.state] at h3
      omega

/-- What the recursive evaluator returns: for an operand node the operand's
handle, with the backend left as it was; for an operation node, whenever it
returns, the destination it was given; and for a Multiply/Add tree over live
operands other than the destination, and for the Transpose of such a tree, it
does return, with the destination holding the value of the tree. -/
theorem eval_returns_mulAdd (e : AlgebraicExpression) (res : GrB_Matrix)
    (st : Backend n) (fuel : Nat)
    (he : e.isMulAdd = true) (hop : e.isOperation = true) (hd : e.depth + 1 < fuel)
    (hres : st.liveBelow st.next res = true)
    (hleaves : ∀ m ∈ e.leaves, m ≠ res ∧ st.liveBelow st.next m = true) :
    (∀ (k : Nat) (m dst : GrB_Matrix) (s : Backend n),
      _AlgebraicExpression_EvalArbitrary (k + 1) (.operand m) dst s = .ok m s) ∧
    (∀ (k : Nat) (op : AL_EXP_OP) (cs : List AlgebraicExpression) (dst h : GrB_Matrix)
      (s s' : Backend n),
      _AlgebraicExpression_EvalArbitrary k (.operation op cs) dst s = .ok h s' → h = dst) ∧
    (∃ st', _AlgebraicExpression_EvalArbitrary fuel e res st = .ok res st' ∧
      st'.get res = some (denote st.val e)) ∧
    (∃ st', _AlgebraicExpression_EvalArbitrary fuel (transposeOf e) res st = .ok res st' ∧
      st'.get res = some (denote st.val e).transpose) := by
  refine ⟨eval_returns_core.1, eval_returns_core.2, ?_, ?_⟩
  · obtain ⟨st', e1, hv, _, _⟩ :=
      eval_mulAdd st.val fuel e he hop (by omega) st.next res st (ready_of_live hres hleaves)
    exact ⟨st', e1, hv⟩
  · obtain ⟨st', e1, hv, _, _⟩ :=
      eval_transposeOf st.val he hop hd (ready_of_live hres hleaves)
    exact ⟨st', e1, hv⟩

end Lemmas

/-! ## Lemmas on ranges -/

section RangeLemmas

variable {β : Type} [LinearOrder β]

theorem spanOK_of_mem {ilo ihi : Bool} {lo hi x : β} (h1 : loOK ilo lo x)
    (h2 : upOK ihi x hi) : spanOK ilo ihi lo hi := by
  cases ilo <;> cases ihi <;> simp only [loOK, upOK, spanOK, Bool.and_self, Bool.and_true,
    Bool.and_false, Bool.false_eq_true, if_true, if_false] at *
  · exact lt_trans h1 h2
  · exact lt_of_lt_of_le h1 h2
  · exact lt_of_le_of_lt h1 h2
  · exact le_trans h1 h2

theorem upOK_of_lt {i : Bool} {x v hi : β} (h1 : x < v) (h2 : v ≤ hi) : upOK i x hi := by
  cases i <;> simp only [upOK, Bool.false_eq_true, if_true, if_false]
  · exact lt_of_lt_of_le h1 h2
  · exact le_of_lt (lt_of_lt_of_le h1 h2)

theorem upOK_of_le {i : Bool} {x v hi : β} (h1 : x ≤ v) (h2 : v < hi) : upOK i x hi := by
  cases i <;> simp only [upOK, Bool.false_eq_true, if_true, if_false]
  · exact lt_of_le_of_lt h1 h2
  · exact le_of_lt (lt_of_le_of_lt h1 h2)

theorem upOK_le {i : Bool} {x hi : β} (h : upOK i x hi) : x ≤ hi := by
  cases i <;> simp only [upOK, Bool.false_eq_true, if_true, if_false] at h
  · exact le_of_lt h
  · exact h

theorem loOK_of_lt {i : Bool} {x v lo : β} (h1 : v < x) (h2 : lo ≤ v) : loOK i lo x := by
  cases i <;> simp only [loOK, Bool.false_eq_true, if_true, if_false]
  · exact lt_of_le_of_lt h2 h1
  · exact le_of_lt (lt_of_le_of_lt h2 h1)

theorem loOK_of_le {i : Bool} {x v lo : β} (h1 : v ≤ x) (h2 : lo < v) : loOK i lo x := by
  cases i <;> simp only [loOK, Bool.false_eq_true, if_true, if_false]
  · exact lt_of_lt_of_le h2 h1
  · exact le_of_lt (lt_of_lt_of_le h2 h1)

theorem loOK_le {i : Bool} {x lo : β} (h : loOK i lo x) : lo ≤ x := by
  cases i <;> simp only [loOK, Bool.false_eq_true, if_true, if_false] at h
  · exact le_of_lt h
  · exact h

/-- `LT v` with the upper bound replaced. -/
theorem up_tighten_lt {ilo ihi : Bool} {lo hi v x : β} (h : v ≤ hi) :
    (spanOK ilo false lo v ∧ upOK false x v ∧ loOK ilo lo x) ↔
      ((upOK ihi x hi ∧ loOK ilo lo x) ∧ x < v) := by
  constructor
  · rintro ⟨_, h2, h3⟩
    have h2' : x < v := by simpa [upOK] using h2
    exact ⟨⟨upOK_of_lt h2' h, h3⟩, h2'⟩
  · rintro ⟨⟨_, h3⟩, h2⟩
    have h2' : upOK false x v := by simpa [upOK] using h2
    exact ⟨spanOK_of_mem h3 h2', h2', h3⟩

/-- `LT v` with the upper bound kept. -/
theorem up_keep_lt {ilo ihi : Bool} {lo hi v x : β} (h : hi < v) :
    (spanOK ilo ihi lo hi ∧ upOK ihi x hi ∧ loOK ilo lo x) ↔
      ((upOK ihi x hi ∧ loOK ilo lo x) ∧ x < v) := by
  constructor
  · rintro ⟨_, h2, h3⟩
    exact ⟨⟨h2, h3⟩, lt_of_le_of_lt (upOK_le h2) h⟩
  · rintro ⟨⟨h2, h3⟩, _⟩
    exact ⟨spanOK_of_mem h3 h2, h2, h3⟩

/-- `LE v` with the upper bound replaced. -/
theorem up_tighten_le {ilo ihi : Bool} {lo hi v x : β} (h : v < hi) :
    (spanOK ilo true lo v ∧ upOK true x v ∧ loOK ilo lo x) ↔
      ((upOK ihi x hi ∧ loOK ilo lo x) ∧ x ≤ v) := by
  constructor
  · rintro ⟨_, h2, h3⟩
    have h2' : x ≤ v := by simpa [upOK] using h2
    exact ⟨⟨upOK_of_le h2' h, h3⟩, h2'⟩
  · rintro ⟨⟨_, h3⟩, h2⟩
    have h2' : upOK true x v := by simpa [upOK] using h2
    exact ⟨spanOK_of_mem h3 h2', h2', h3⟩

/-- `LE v` with the upper bound kept. -/
theorem up_keep_le {ilo ihi : Bool} {lo hi v x : β} (h : hi ≤ v) :
    (spanOK ilo ihi lo hi ∧ upOK ihi x hi ∧ loOK ilo lo x) ↔
      ((upOK ihi x hi ∧ loOK ilo lo x) ∧ x ≤ v) := by
  constructor
  · rintro ⟨_, h2, h3⟩
    exact ⟨⟨h2, h3⟩, le_trans (upOK_le h2) h⟩
  · rintro ⟨⟨h2, h3⟩, _⟩
    exact ⟨spanOK_of_mem h3 h2, h2, h3⟩

/-- `GT v` with the lower bound replaced. -/
theorem lo_tighten_gt {ilo ihi : Bool} {lo hi v x : β} (h : lo ≤ v) :
    (spanOK false ihi v hi ∧ upOK ihi x hi ∧ loOK false v x) ↔
      ((upOK ihi x hi ∧ loOK ilo lo x) ∧ v < x) := by
  constructor
  · rintro ⟨_, h2, h3⟩
    have h3' : v < x := by simpa [loOK] using h3
    exact ⟨⟨h2, loOK_of_lt h3' h⟩, h3'⟩
  · rintro ⟨⟨h2, _⟩, h3⟩
    have h3' : loOK false v x := by simpa [loOK] using h3
    exact ⟨spanOK_of_mem h3' h2, h2, h3'⟩

/-- `GT v` with the lower bound kept. -/
theorem lo_keep_gt {ilo ihi : Bool} {lo hi v x : β} (h : v < lo) :
    (spanOK ilo ihi lo hi ∧ upOK ihi x hi ∧ loOK ilo lo x) ↔
      ((upOK ihi x hi ∧ loOK ilo lo x) ∧ v < x) := by
  constructor
  · rintro ⟨_, h2, h3⟩
    exact ⟨⟨h2, h3⟩, lt_of_lt_of_le h (loOK_le h3)⟩
  · rintro ⟨⟨h2, h3⟩, _⟩
    exact ⟨spanOK_of_mem h3 h2, h2, h3⟩

/-- `GE v` with the lower bound replaced. -/
theorem lo_tighten_ge {ilo ihi : Bool} {lo hi v x : β} (h : lo < v) :
    (spanOK true ihi v hi ∧ upOK ihi x hi ∧ loOK true v x) ↔
      ((upOK ihi x hi ∧ loOK ilo lo x) ∧ v ≤ x) := by
  constructor
  · rintro ⟨_, h2, h3⟩
    have h3' : v ≤ x := by simpa [loOK] using h3
    exact ⟨⟨h2, loOK_of_le h3' h⟩, h3'⟩
  · rintro ⟨⟨h2, _⟩, h3⟩
    have h3' : loOK true v x := by simpa [loOK] using h3
    exact ⟨spanOK_of_mem h3' h2, h2, h3'⟩

/-- `GE v` with the lower bound kept. -/
theorem lo_keep_ge {ilo ihi : Bool} {lo hi v x : β} (h : v ≤ lo) :
    (spanOK ilo ihi lo hi ∧ upOK ihi x hi ∧ loOK ilo lo x) ↔
      ((upOK ihi x hi ∧ loOK ilo lo x) ∧ v ≤ x) := by
  constructor
  · rintro ⟨_, h2, h3⟩
    exact ⟨⟨h2, h3⟩, le_trans h (loOK_le h3)⟩
  · rintro ⟨⟨h2, h3⟩, _⟩
    exact ⟨spanOK_of_mem h3 h2, h2, h3⟩

/-- `EQ v` with `v` inside the range. -/
theorem eq_inside {ilo ihi : Bool} {lo hi v x : β} (h1 : upOK ihi v hi)
    (h2 : loOK ilo lo v) :
    (spanOK true true v v ∧ upOK true x v ∧ loOK true v x) ↔
      ((upOK ihi x hi ∧ loOK ilo lo x) ∧ x = v) := by
  constructor
  · rintro ⟨_, h3, h4⟩
    have e : x = v := le_antisymm (by simpa [upOK] using h3) (by simpa [loOK] using h4)
    subst e
    exact ⟨⟨h1, h2⟩, rfl⟩
  · rintro ⟨_, e⟩
    subst e
    simp [spanOK, upOK, loOK]

/-- No change of bounds. -/
theorem span_keep {ilo ihi : Bool} {lo hi x : β} :
    (spanOK ilo ihi lo hi ∧ upOK ihi x hi ∧ loOK ilo lo x) ↔
      (upOK ihi x hi ∧ loOK ilo lo x) :=
  ⟨fun h => h.2, fun h => ⟨spanOK_of_mem h.2 h.1, h⟩⟩

end RangeLemmas

section NumericRangeLemmas

theorem Double.lt_iff {a b : Double} (ha : a ≠ .nan) (hb : b ≠ .nan) :
    Double.lt a b = true ↔ a.rank < b.rank := by
  cases a <;> cases b <;> simp [Double.lt, Double.rank] at *
  rw [← WithBot.coe_top, WithBot.coe_lt_coe]
  exact WithTop.coe_lt_top _

theorem Double.le_iff {a b : Double} (ha : a ≠ .nan) (hb : b ≠ .nan) :
    Double.le a b = true ↔ a.rank ≤ b.rank := by
  cases a <;> cases b <;> simp [Double.le, Double.rank] at *

theorem Double.eq_iff {a b : Double} (ha : a ≠ .nan) (hb : b ≠ .nan) :
    Double.eq a b = true ↔ a.rank = b.rank := by
  cases a <;> cases b <;> simp [Double.eq, Double.rank] at *

theorem numeric_isValid_iff {range : NumericRange} (hmin : range.min ≠ .nan)
    (hmax : range.max ≠ .nan) :
    NumericRange_IsValid range = true ↔
      spanOK range.include_min range.include_max range.min.rank range.max.rank := by
  unfold NumericRange_IsValid spanOK
  split_ifs with h
  · exact Double.le_iff hmin hmax
  · exact Double.lt_iff hmin hmax

theorem numeric_contains_iff {range : NumericRange} {x : Double} (hmin : range.min ≠ .nan)
    (hmax : range.max ≠ .nan) (hx : x ≠ .nan) :
    NumericRange_ContainsValue range x = true ↔
      range.valid = true ∧ upOK range.include_max x.rank range.max.rank ∧
        loOK range.include_min range.min.rank x.rank := by
  have h1 := Double.lt_iff hmax hx
  have h2 := Double.le_iff hmax hx
  have h3 := Double.lt_iff hx hmin
  have h4 := Double.le_iff hx hmin
  unfold NumericRange_ContainsValue upOK loOK
  cases range.valid <;> cases range.include_max <;> cases range.include_min <;>
    simp [Double.gt, Double.ge, h1, h2, h3, h4]

/-- Containment right after the validity flag has been recomputed. -/
theorem numeric_contains_revalidate {range : NumericRange} {x : Double}
    (hmin : range.min ≠ .nan) (hmax : range.max ≠ .nan) (hx : x ≠ .nan) :
    NumericRange_ContainsValue range.revalidate x = true ↔
      spanOK range.include_min range.include_max range.min.rank range.max.rank ∧
        upOK range.include_max x.rank range.max.rank ∧
        loOK range.include_min range.min.rank x.rank := by
  rw [numeric_contains_iff (by exact hmin) (by exact hmax) hx]
  simp only [NumericRange.revalidate]
  rw [numeric_isValid_iff hmin hmax]

/-- Tightening a valid range whose bounds are numbers by a bound that is a
number, other than by `EQ` with the bound outside the range: a number is in the
range afterwards exactly when it was in it before and satisfies the
comparison. -/
theorem numeric_tighten_core (range : NumericRange) (op : RangeOp) (v x : Double)
    (hvalid : range.valid = true) (hmin : range.min ≠ .nan) (hmax : range.max ≠ .nan)
    (hv : v ≠ .nan) (hx : x ≠ .nan)
    (hin : op = .EQ → NumericRange_ContainsValue range v = true) :
    NumericRange_ContainsValue (NumericRange_TightenRange range op v) x =
      (NumericRange_ContainsValue range x && Double.satisfies op x v) := by
  rw [Bool.eq_iff_iff, Bool.and_eq_true, numeric_contains_iff hmin hmax hx]
  simp only [hvalid, true_and]
  cases op with
  | LT =>
    simp only [NumericRange_TightenRange, hvalid, Bool.not_true, Bool.false_eq_true, if_false,
      Double.satisfies, Double.ge, Double.lt_iff hx hv]
    by_cases h : Double.le v range.max = true
    · rw [if_pos h, @numeric_contains_revalidate
        ⟨range.min, v, range.include_min, false, true⟩ x hmin hv hx]
      exact up_tighten_lt ((Double.le_iff hv hmax).mp h)
    · rw [if_neg h, numeric_contains_revalidate hmin hmax hx]
      exact up_keep_lt (not_le.mp (fun h' => h ((Double.le_iff hv hmax).mpr h')))
  | LE =>
    simp only [NumericRange_TightenRange, hvalid, Bool.not_true, Bool.false_eq_true, if_false,
      Double.satisfies, Double.gt, Double.le_iff hx hv]
    by_cases h : Double.lt v range.max = true
    · rw [if_pos h, @numeric_contains_revalidate
        ⟨range.min, v, range.include_min, true, true⟩ x hmin hv hx]
      exact up_tighten_le ((Double.lt_iff hv hmax).mp h)
    · rw [if_neg h, numeric_contains_revalidate hmin hmax hx]
      exact up_keep_le (not_lt.mp (fun h' => h ((Double.lt_iff hv hmax).mpr h')))
  | GT =>
    simp only [NumericRange_TightenRange, hvalid, Bool.not_true, Bool.false_eq_true, if_false,
      Double.satisfies, Double.gt, Double.lt_iff hv hx]
    by_cases h : Double.le range.min v = true
    · rw [if_pos h, @numeric_contains_revalidate
        ⟨v, range.max, false, range.include_max, true⟩ x hv hmax hx]
      exact lo_tighten_gt ((Double.le_iff hmin hv).mp h)
    · rw [if_neg h, numeric_contains_revalidate hmin hmax hx]
      exact lo_keep_gt (not_le.mp (fun h' => h ((Double.le_iff hmin hv).mpr h')))
  | GE =>
    simp only [NumericRange_TightenRange, hvalid, Bool.not_true, Bool.false_eq_true, if_false,
      Double.satisfies, Double.ge, Double.le_iff hv hx]
    by_cases h : Double.lt range.min v = true
    · rw [if_pos h, @numeric_contains_revalidate
        ⟨v, range.max, true, range.include_max, true⟩ x hv hmax hx]
      exact lo_tighten_ge ((Double.lt_iff hmin hv).mp h)
    · rw [if_neg h, numeric_contains_revalidate hmin hmax hx]
      exact lo_keep_ge (not_lt.mp (fun h' => h ((Double.lt_iff hmin hv).mpr h')))
  | EQ =>
    have hc := hin rfl
    simp only [NumericRange_TightenRange, hvalid, hc, Bool.not_true, Bool.false_eq_true,
      if_false, Double.satisfies, Double.eq_iff hx hv]
    rw [@numeric_contains_revalidate ⟨v, v, true, true, true⟩ x hv hv hx]
    have hc' := (numeric_contains_iff hmin hmax hv).mp hc
    have key := @eq_inside _ _ range.include_min range.include_max range.min.rank
      range.max.rank v.rank x.rank hc'.2.1 hc'.2.2
    exact key
  | OTHER =>
    simp only [NumericRange_TightenRange, hvalid, Bool.not_true, Bool.false_eq_true, if_false,
      Double.satisfies, and_true]
    rw [numeric_contains_revalidate hmin hmax hx]
    exact span_keep

/-- The same without restriction on `EQ`: when the bound lies outside the range,
`EQ` leaves the range as it is, with the validity flag set. -/
theorem numeric_tighten_eq_outside (range : NumericRange) (v : Double)
    (hvalid : range.valid = true) (hout : NumericRange_ContainsValue range v = false) :
    NumericRange_TightenRange range .EQ v = range := by
  cases range with
  | mk min max imin imax valid =>
    simp only at hvalid
    subst hvalid
    simp [NumericRange_TightenRange, hout]

/-- On a valid range every comparison with NaN is false, so NaN passes both
bound tests. -/
theorem numeric_contains_nan (range : NumericRange) (hvalid : range.valid = true) :
    NumericRange_ContainsValue range .nan = true := by
  cases range with
  | mk min max imin imax valid =>
    simp only at hvalid
    subst hvalid
    cases min <;> cases max <;> cases imin <;> cases imax <;> rfl

end NumericRangeLemmas

section StringRangeLemmas

theorem strcmp_swap : ∀ a b : CString, strcmp b a = - strcmp a b := by
  intro a
  induction a with
  | nil => intro b; cases b <;> simp [strcmp]
  | cons x s ih =>
    intro b
    cases b with
    | nil => simp [strcmp]
    | cons y t =>
      simp only [strcmp]
      by_cases h1 : x < y
      · have h2 : ¬ y < x := by omega
        simp [h1, h2]
      · by_cases h2 : y < x
        · simp [h1, h2]
        · simp [h1, h2, ih t]

theorem strcmp_lt_iff : ∀ a b : CString, strcmp a b < 0 ↔ a < b := by
  intro a
  induction a with
  | nil =>
    intro b
    cases b with
    | nil => simp [strcmp]
    | cons y t => simpa [strcmp] using List.nil_lt_cons y t
  | cons x s ih =>
    intro b
    cases b with
    | nil =>
      simp only [strcmp]
      constructor
      · intro h; omega
      · intro h; exact absurd h (List.Lex.not_nil_right _ _)
    | cons y t =>
      simp only [strcmp]
      by_cases h1 : x < y
      · simp only [h1, if_true]
        constructor
        · intro _; exact List.Lex.rel h1
        · intro _; omega
      · by_cases h2 : y < x
        · simp only [h1, h2, if_true, if_false]
          constructor
          · intro h; omega
          · intro h
            cases h with
            | cons h' => omega
            | rel h' => exact absurd h' h1
        · have e : x = y := by omega
          subst e
          simp only [h1, if_false]
          rw [ih t]
          exact (List.Lex.cons_iff).symm

theorem strcmp_eq_iff : ∀ a b : CString, strcmp a b = 0 ↔ a = b := by
  intro a
  induction a with
  | nil => intro b; cases b <;> simp [strcmp]
  | cons x s ih =>
    intro b
    cases b with
    | nil => simp [strcmp]
    | cons y t =>
      simp only [strcmp]
      by_cases h1 : x < y
      · simp only [h1, if_true]
        constructor
        · intro h; omega
        · intro h; injection h with h3 h4; omega
      · by_cases h2 : y < x
        · simp only [h1, h2, if_true, if_false]
          constructor
          · intro h; omega
          · intro h; injection h with h3 h4; omega
        · have e : x = y := by omega
          subst e
          simp [h1, ih t]

theorem strcmp_gt_iff (a b : CString) : strcmp a b > 0 ↔ b < a := by
  rw [← strcmp_lt_iff, strcmp_swap a b]; omega

theorem strcmp_le_iff (a b : CString) : strcmp a b ≤ 0 ↔ a ≤ b := by
  constructor
  · intro h
    exact not_lt.mp (fun h' => by have := (strcmp_gt_iff a b).mpr h'; omega)
  · intro h
    by_contra hc
    have h1 : strcmp a b > 0 := by omega
    exact absurd ((strcmp_gt_iff a b).mp h1) (not_lt.mpr h)

theorem strcmp_ge_iff (a b : CString) : strcmp a b ≥ 0 ↔ b ≤ a := by
  constructor
  · intro h
    exact not_lt.mp (fun h' => by have := (strcmp_lt_iff a b).mpr h'; omega)
  · intro h
    by_contra hc
    have h1 : strcmp a b < 0 := by omega
    exact absurd ((strcmp_lt_iff a b).mp h1) (not_lt.mpr h)

theorem strRank_lt (a b : CString) : strRank a < strRank b ↔ a < b := by
  simp [strRank]

theorem strRank_le (a b : CString) : strRank a ≤ strRank b ↔ a ≤ b := by
  simp [strRank]

theorem strRank_eq (a b : CString) : strRank a = strRank b ↔ a = b := by
  simp [strRank]

theorem strRank_lt_max (a : CString) : strRank a < maxRank none := by
  simp only [strRank, maxRank, WithBot.coe_lt_coe]
  exact WithTop.coe_lt_top _

theorem min_lt_strRank (a : CString) : minRank none < strRank a := by
  simp only [strRank, minRank]
  exact WithBot.bot_lt_coe _

theorem min_lt_max : minRank none < maxRank none := by
  simp only [maxRank, minRank]
  exact WithBot.bot_lt_coe _

/-- The chain of early returns of `ContainsValue`. -/
theorem contains_chain (v U L : Bool) :
    (if !v then false else if U then false else if L then false else true) = true ↔
      v = true ∧ U = false ∧ L = false := by
  cases v <;> cases U <;> cases L <;> simp

theorem string_isValid_iff (range : StringRange) :
    StringRange_IsValid range = true ↔
      spanOK range.include_min range.include_max (minRank range.min) (maxRank range.max) := by
  unfold StringRange_IsValid spanOK
  cases hmax : range.max with
  | none =>
    cases hmin : range.min with
    | none =>
      simp only [true_iff]
      split_ifs
      · exact le_of_lt min_lt_max
      · exact min_lt_max
    | some lo =>
      simp only [true_iff, minRank]
      split_ifs
      · exact le_of_lt (strRank_lt_max lo)
      · exact strRank_lt_max lo
  | some hi =>
    cases hmin : range.min with
    | none =>
      simp only [true_iff, maxRank]
      split_ifs
      · exact le_of_lt (min_lt_strRank hi)
      · exact min_lt_strRank hi
    | some lo =>
      simp only [minRank, maxRank]
      split_ifs
      · rw [decide_eq_true_iff, strcmp_le_iff, strRank_le]
      · rw [decide_eq_true_iff, strcmp_lt_iff, strRank_lt]

theorem string_contains_iff (range : StringRange) (x : CString) :
    StringRange_ContainsValue range x = true ↔
      range.valid = true ∧ upOK range.include_max (strRank x) (maxRank range.max) ∧
        loOK range.include_min (minRank range.min) (strRank x) := by
  have hu : (match range.max with
      | some max =>
        if range.include_max then decide (strcmp x max > 0) else decide (strcmp x max ≥ 0)
      | none => false) = false ↔ upOK range.include_max (strRank x) (maxRank range.max) := by
    unfold upOK
    cases range.max with
    | none =>
      simp only [true_iff]
      split_ifs
      · exact le_of_lt (strRank_lt_max x)
      · exact strRank_lt_max x
    | some hi =>
      simp only [maxRank]
      cases range.include_max
      · simp only [Bool.false_eq_true, if_false, decide_eq_false_iff_not, strRank_lt,
          strcmp_ge_iff, not_le]
      · simp only [if_true, decide_eq_false_iff_not, strRank_le, strcmp_gt_iff, not_lt]
  have hl : (match range.min with
      | some min =>
        if range.include_min then decide (strcmp x min < 0) else decide (strcmp x min ≤ 0)
      | none => false) = false ↔ loOK range.include_min (minRank range.min) (strRank x) := by
    unfold loOK
    cases range.min with
    | none =>
      simp only [true_iff]
      split_ifs
      · exact le_of_lt (min_lt_strRank x)
      · exact min_lt_strRank x
    | some lo =>
      simp only [minRank]
      cases range.include_min
      · simp only [Bool.false_eq_true, if_false, decide_eq_false_iff_not, strRank_lt,
          strcmp_le_iff, not_le]
      · simp only [if_true, decide_eq_false_iff_not, strRank_le, strcmp_lt_iff, not_lt]
  unfold StringRange_ContainsValue
  rw [contains_chain]
  exact and_congr Iff.rfl (and_congr hu hl)

/-- Containment right after the validity flag has been recomputed. -/
theorem string_contains_revalidate (range : StringRange) (x : CString) :
    StringRange_ContainsValue range.revalidate x = true ↔
      spanOK range.include_min range.include_max (minRank range.min) (maxRank range.max) ∧
        upOK range.include_max (strRank x) (maxRank range.max) ∧
        loOK range.include_min (minRank range.min) (strRank x) := by
  rw [string_contains_iff]
  simp only [StringRange.revalidate]
  rw [string_isValid_iff]

theorem nullOr_max_ge (p : Option CString) (v : CString) :
    nullOr p (fun max => decide (strcmp max v ≥ 0)) = true ↔ strRank v ≤ maxRank p := by
  cases p with
  | none => simpa [nullOr] using le_of_lt (strRank_lt_max v)
  | some s => simp only [nullOr, maxRank, decide_eq_true_iff, strcmp_ge_iff, strRank_le]

theorem nullOr_max_gt (p : Option CString) (v : CString) :
    nullOr p (fun max => decide (strcmp max v > 0)) = true ↔ strRank v < maxRank p := by
  cases p with
  | none => simpa [nullOr] using strRank_lt_max v
  | some s => simp only [nullOr, maxRank, decide_eq_true_iff, strcmp_gt_iff, strRank_lt]

theorem nullOr_min_le (p : Option CString) (v : CString) :
    nullOr p (fun min => decide (strcmp min v ≤ 0)) = true ↔ minRank p ≤ strRank v := by
  cases p with
  | none => simpa [nullOr] using le_of_lt (min_lt_strRank v)
  | some s => simp only [nullOr, minRank, decide_eq_true_iff, strcmp_le_iff, strRank_le]

theorem nullOr_min_lt (p : Option CString) (v : CString) :
    nullOr p (fun min => decide (strcmp min v < 0)) = true ↔ minRank p < strRank v := by
  cases p with
  | none => simpa [nullOr] using min_lt_strRank v
  | some s => simp only [nullOr, minRank, decide_eq_true_iff, strcmp_lt_iff, strRank_lt]

/-- Tightening a valid string range: a string is in the range afterwards exactly
when it was in it before and satisfies the comparison. -/
theorem string_tighten_core (range : StringRange) (op : RangeOp) (v x : CString)
    (hvalid : range.valid = true) :
    StringRange_ContainsValue (StringRange_TightenRange range op v) x =
      (StringRange_ContainsValue range x && strSatisfies op x v) := by
  rw [Bool.eq_iff_iff, Bool.and_eq_true, string_contains_iff range x]
  simp only [hvalid, true_and]
  cases op with
  | LT =>
    simp only [StringRange_TightenRange, hvalid, Bool.not_true, Bool.false_eq_true, if_false,
      strSatisfies, decide_eq_true_iff, strcmp_lt_iff, ← strRank_lt x v]
    by_cases h : nullOr range.max (fun max => decide (strcmp max v ≥ 0)) = true
    · rw [if_pos h, string_contains_revalidate]
      exact up_tighten_lt ((nullOr_max_ge _ _).mp h)
    · rw [if_neg h, string_contains_revalidate]
      exact up_keep_lt (not_le.mp (fun h' => h ((nullOr_max_ge _ _).mpr h')))
  | LE =>
    simp only [StringRange_TightenRange, hvalid, Bool.not_true, Bool.false_eq_true, if_false,
      strSatisfies, decide_eq_true_iff, strcmp_le_iff, ← strRank_le x v]
    by_cases h : nullOr range.max (fun max => decide (strcmp max v > 0)) = true
    · rw [if_pos h, string_contains_revalidate]
      exact up_tighten_le ((nullOr_max_gt _ _).mp h)
    · rw [if_neg h, string_contains_revalidate]
      exact up_keep_le (not_lt.mp (fun h' => h ((nullOr_max_gt _ _).mpr h')))
  | GT =>
    simp only [StringRange_TightenRange, hvalid, Bool.not_true, Bool.false_eq_true, if_false,
      strSatisfies, decide_eq_true_iff, strcmp_gt_iff, ← strRank_lt v x]
    by_cases h : nullOr range.min (fun min => decide (strcmp min v ≤ 0)) = true
    · rw [if_pos h, string_contains_revalidate]
      exact lo_tighten_gt ((nullOr_min_le _ _).mp h)
    · rw [if_neg h, string_contains_revalidate]
      exact lo_keep_gt (not_le.mp (fun h' => h ((nullOr_min_le _ _).mpr h')))
  | GE =>
    simp only [StringRange_TightenRange, hvalid, Bool.not_true, Bool.false_eq_true, if_false,
      strSatisfies, decide_eq_true_iff, strcmp_ge_iff, ← strRank_le v x]
    by_cases h : nullOr range.min (fun min => decide (strcmp min v < 0)) = true
    · rw [if_pos h, string_contains_revalidate]
      exact lo_tighten_ge ((nullOr_min_lt _ _).mp h)
    · rw [if_neg h, string_contains_revalidate]
      exact lo_keep_ge (not_lt.mp (fun h' => h ((nullOr_min_lt _ _).mpr h')))
  | EQ =>
    simp only [StringRange_TightenRange, hvalid, Bool.not_true, Bool.false_eq_true, if_false,
      strSatisfies, decide_eq_true_iff, strcmp_eq_iff, ← strRank_eq x v]
    cases hc : StringRange_ContainsValue range v with
    | true =>
      simp only [Bool.not_true, Bool.false_eq_true, if_false]
      rw [string_contains_revalidate]
      have hc' := (string_contains_iff range v).mp hc
      exact @eq_inside _ _ range.include_min range.include_max (minRank range.min)
        (maxRank range.max) (strRank v) (strRank x) hc'.2.1 hc'.2.2
    | false =>
      simp only [Bool.not_false, if_true]
      rw [string_contains_iff]
      simp only [Bool.false_eq_true, false_and, false_iff]
      rintro ⟨⟨h1, h2⟩, e⟩
      rw [e] at h1 h2
      have := (string_contains_iff range v).mpr ⟨hvalid, h1, h2⟩
      rw [hc] at this
      cases this
  | OTHER =>
    simp only [StringRange_TightenRange, hvalid, Bool.not_true, Bool.false_eq_true, if_false,
      strSatisfies, and_true]
    rw [string_contains_revalidate]
    exact span_keep

/-- A range marked invalid is left as it is by tightening and contains no
string. -/
theorem string_invalid_core (range : StringRange) (op : RangeOp) (v x : CString)
    (hinvalid : range.valid = false) :
    StringRange_TightenRange range op v = range ∧
      StringRange_ContainsValue range x = false := by
  simp [StringRange_TightenRange, StringRange_ContainsValue, hinvalid]

end StringRangeLemmas

/-! ## The claims -/

section Claims

variable {n : Nat}

/-- C1: for every tree built only from Multiply and Add nodes, each with at least
two children, over operand leaves that are live matrices other than the identity
sentinel and other than the destination, the top-level evaluation completes and
leaves in `res` the denotation of the tree (Multiply the left-to-right boolean
product, Add the element-wise OR), whatever `res` held before. -/
theorem evalArbitrary_mulAdd_denotes (e : AlgebraicExpression) (res : GrB_Matrix)
    (st : Backend n) (he : e.isMulAdd = true) (hop : e.isOperation = true)
    (hres : st.liveBelow st.next res = true)
    (hleaves : ∀ m ∈ e.leaves, m ≠ res ∧ st.liveBelow st.next m = true) :
    ∃ st', AlgebraicExpression_EvalArbitrary e res st = .ok () st' ∧
      st'.get res = some (denote st.val e) :=
  evalArbitrary_mulAdd_core e res st he hop hres hleaves

set_option maxRecDepth 10000 in
/-- Witness for C1: a nested tree `(A + B) * (A * A) * (B + A)` evaluated into a
destination that holds the identity beforehand. -/
theorem evalArbitrary_mulAdd_denotes_witness :
    ∃ st', AlgebraicExpression_EvalArbitrary
        (mulOf [addOf [leafAt 1, leafAt 2], mulOf [leafAt 1, leafAt 1],
          addOf [leafAt 2, leafAt 1]])
        (.ptr 0) scenarioStore = .ok () st' ∧
      st'.get (.ptr 0) = some (denote scenarioStore.val
        (mulOf [addOf [leafAt 1, leafAt 2], mulOf [leafAt 1, leafAt 1],
          addOf [leafAt 2, leafAt 1]])) :=
  evalArbitrary_mulAdd_denotes _ _ _ (by decide) (by decide) (by decide) (by decide)

/-- C2: for `k >= 2` operands that are live matrices other than the identity
sentinel and the destination, evaluating their Multiply completes and leaves
`res` with entry `(i, j)` set exactly when there are indices
`i = x 0, x 1, ..., x k = j` such that entry `(x t, x (t+1))` of the `t`-th
matrix is set for every `t < k`. -/
theorem evalArbitrary_multiply_path (ms : List GrB_Matrix) (res : GrB_Matrix)
    (st : Backend n) (hk : 2 ≤ ms.length)
    (hres : st.liveBelow st.next res = true)
    (hms : ∀ m ∈ ms, m ≠ res ∧ st.liveBelow st.next m = true) :
    ∃ st' R, AlgebraicExpression_EvalArbitrary
        (.operation .AL_EXP_MUL (ms.map AlgebraicExpression.operand)) res st = .ok () st' ∧
      st'.get res = some R ∧
      ∀ i j : Fin n, R i j = true ↔
        ∃ x : Nat → Fin n, x 0 = i ∧ x ms.length = j ∧
          ∀ (t : Nat) (ht : t < ms.length), st.val (ms.get ⟨t, ht⟩) (x t) (x (t + 1)) = true := by
  obtain ⟨st', e1, hv⟩ :=
    evalArbitrary_mulAdd_core (.operation .AL_EXP_MUL (ms.map AlgebraicExpression.operand))
      res st (isMulAdd_operands ms (by decide) hk (fun m hm => (hms m hm).2)) rfl hres
      (by simpa [AlgebraicExpression.leaves, leavesList_operands] using hms)
  refine ⟨st', _, e1, hv, ?_⟩
  intro i j
  have hne : ms.map st.val ≠ [] := by
    intro h
    rw [List.map_eq_nil_iff] at h
    subst h
    simp at hk
  simp only [denote, denoteList_operands]
  rw [prod_walk_of_ne_nil hne, walk_iff_indices]
  simp only [List.length_map, List.get_eq_getElem, List.getElem_map]

set_option maxRecDepth 10000 in
/-- Witness for C2: `A = [0100, 0010, 0001, 0000]` times
`B = [0010, 0001, 0000, 0000]` gives `[0001, 0000, 0000, 0000]`. -/
theorem evalArbitrary_multiply_path_witness :
    (AlgebraicExpression_EvalArbitrary (mulOf [leafAt 1, leafAt 2]) (.ptr 0)
        scenarioStore).rowsAt (.ptr 0)
      = some [[0, 0, 0, 1], [0, 0, 0, 0], [0, 0, 0, 0], [0, 0, 0, 0]] ∧
    ∃ st' R, AlgebraicExpression_EvalArbitrary
        (.operation .AL_EXP_MUL ([GrB_Matrix.ptr 1, .ptr 2].map AlgebraicExpression.operand))
        (.ptr 0) scenarioStore = .ok () st' ∧
      st'.get (.ptr 0) = some R ∧
      ∀ i j : Fin 4, R i j = true ↔
        ∃ x : Nat → Fin 4, x 0 = i ∧ x [GrB_Matrix.ptr 1, GrB_Matrix.ptr 2].length = j ∧
          ∀ (t : Nat) (ht : t < [GrB_Matrix.ptr 1, GrB_Matrix.ptr 2].length),
            scenarioStore.val ([GrB_Matrix.ptr 1, GrB_Matrix.ptr 2].get ⟨t, ht⟩)
              (x t) (x (t + 1)) = true :=
  ⟨by decide,
    evalArbitrary_multiply_path [.ptr 1, .ptr 2] (.ptr 0) scenarioStore
      (by decide) (by decide) (by decide)⟩

/-- C3: for an operand whose backing matrix `M` is live, evaluating
`Multiply (O, Identity)` completes and leaves `res` equal to `M`, whatever `res`
held before. -/
theorem evalArbitrary_multiply_identity (m res : GrB_Matrix) (st : Backend n) (M R : Mat n)
    (hm : st.get m = some M) (hres : st.get res = some R) :
    ∃ st', AlgebraicExpression_EvalArbitrary
        (.operation .AL_EXP_MUL [.operand m, .operand .IDENTITY_MATRIX]) res st = .ok () st' ∧
      st'.get res = some M := by
  obtain ⟨st1, e1, hw1⟩ :=
    GrB_Matrix_apply_spec hres hm (some { INP0 := false, INP1 := false })
  refine ⟨st1, ?_, by simpa [descINP0] using hw1.1⟩
  simp [AlgebraicExpression_EvalArbitrary, _AlgebraicExpression_EvalArbitrary,
    _Eval_MulArbitrary, AlgebraicExpression_ChildCount, resolveLeft, resolveRight,
    resolveRightStripped, e1, GrB_Matrix_nvals_spec hw1.1, mulLoop, freeInter]

set_option maxRecDepth 10000 in
/-- Witness for C3: `Multiply (A, I)` with `A = [1000, 0100, 0010, 0001]`,
evaluated into a destination that holds another matrix beforehand. -/
theorem evalArbitrary_multiply_identity_witness :
    ∃ st', AlgebraicExpression_EvalArbitrary
        (.operation .AL_EXP_MUL [.operand (.ptr 0), .operand .IDENTITY_MATRIX])
        (.ptr 1) scenarioStore = .ok () st' ∧
      st'.get (.ptr 1) = some scenarioEye :=
  evalArbitrary_multiply_identity (.ptr 0) (.ptr 1) scenarioStore scenarioEye scenarioA rfl rfl

/-- C4: for a two-child Multiply or Add node with one child `Transpose (X)` and the
other child an operand `Y` backed by a live matrix, where `X` is an operand or a
Transpose-free Multiply/Add subtree over operands, the evaluation (which absorbs
the transpose into descriptor slot `INP0` or `INP1`) completes and leaves `res`
equal to the operation applied to the explicitly transposed value of `X`:
`Xt * Y`, `Y * Xt`, `Xt OR Y` and `Y OR Xt`. -/
theorem evalArbitrary_transpose_absorbed (X : AlgebraicExpression) (Y res : GrB_Matrix)
    (st : Backend n) (hX : X.isMulAdd = true)
    (hres : st.liveBelow st.next res = true)
    (hY : Y ≠ res ∧ st.liveBelow st.next Y = true)
    (hleaves : ∀ m ∈ X.leaves, m ≠ res ∧ st.liveBelow st.next m = true) :
    (∃ st', AlgebraicExpression_EvalArbitrary (mulOf [transposeOf X, .operand Y]) res st
        = .ok () st' ∧
      st'.get res = some (Mat.mxm (denote st.val X).transpose (st.val Y))) ∧
    (∃ st', AlgebraicExpression_EvalArbitrary (mulOf [.operand Y, transposeOf X]) res st
        = .ok () st' ∧
      st'.get res = some (Mat.mxm (st.val Y) (denote st.val X).transpose)) ∧
    (∃ st', AlgebraicExpression_EvalArbitrary (addOf [transposeOf X, .operand Y]) res st
        = .ok () st' ∧
      st'.get res = some (Mat.eWiseAdd (denote st.val X).transpose (st.val Y))) ∧
    (∃ st', AlgebraicExpression_EvalArbitrary (addOf [.operand Y, transposeOf X]) res st
        = .ok () st' ∧
      st'.get res = some (Mat.eWiseAdd (st.val Y) (denote st.val X).transpose)) :=
  transpose_absorbed_core X Y res st hX hres hY hleaves

set_option maxRecDepth 20000 in
/-- Witness for C4: `Add (A, Transpose (A))` with `A = [0100, 0000, 0000, 0000]`
gives `[0100, 1000, 0000, 0000]`. -/
theorem evalArbitrary_transpose_absorbed_witness :
    (AlgebraicExpression_EvalArbitrary (addOf [leafAt 1, transposeOf (leafAt 1)]) (.ptr 0)
        bitStore).rowsAt (.ptr 0)
      = some [[0, 1, 0, 0], [1, 0, 0, 0], [0, 0, 0, 0], [0, 0, 0, 0]] ∧
    ∃ st', AlgebraicExpression_EvalArbitrary
        (addOf [.operand (.ptr 1), transposeOf (leafAt 1)]) (.ptr 0) bitStore = .ok () st' ∧
      st'.get (.ptr 0) = some (Mat.eWiseAdd (bitStore.val (.ptr 1))
        (denote bitStore.val (leafAt 1)).transpose) :=
  ⟨by decide,
    (evalArbitrary_transpose_absorbed (leafAt 1) (.ptr 1) (.ptr 0) bitStore
      (by decide) (by decide) (by decide) (by decide)).2.2.2⟩

/-- C5: for operands `A` and `B` backed by live matrices, the roots
`Transpose (Multiply (A, B))` and `Multiply (Transpose (B), Transpose (A))` both
evaluate to completion and leave the same matrix in `res`, the transpose of
`A * B`. -/
theorem evalArbitrary_transpose_of_product (A B res : GrB_Matrix) (st : Backend n)
    (hres : st.liveBelow st.next res = true)
    (hA : A ≠ res ∧ st.liveBelow st.next A = true)
    (hB : B ≠ res ∧ st.liveBelow st.next B = true) :
    ∃ st1 st2,
      AlgebraicExpression_EvalArbitrary (transposeOf (mulOf [.operand A, .operand B])) res st
        = .ok () st1 ∧
      AlgebraicExpression_EvalArbitrary
        (mulOf [transposeOf (.operand B), transposeOf (.operand A)]) res st = .ok () st2 ∧
      st1.get res = st2.get res ∧
      st2.get res = some (Mat.mxm (st.val A) (st.val B)).transpose :=
  transpose_mul_core A B res st hres hA hB

set_option maxRecDepth 20000 in
/-- Witness for C5: `A = [0100, 0010, 0001, 0000]` and
`B = [0010, 0001, 0000, 0000]`; both roots leave `[0000, 0000, 0000, 1000]`. -/
theorem evalArbitrary_transpose_of_product_witness :
    (AlgebraicExpression_EvalArbitrary (transposeOf (mulOf [leafAt 1, leafAt 2])) (.ptr 0)
        scenarioStore).rowsAt (.ptr 0)
      = some [[0, 0, 0, 0], [0, 0, 0, 0], [0, 0, 0, 0], [1, 0, 0, 0]] ∧
    ∃ st1 st2,
      AlgebraicExpression_EvalArbitrary
        (transposeOf (mulOf [.operand (.ptr 1), .operand (.ptr 2)])) (.ptr 0) scenarioStore
        = .ok () st1 ∧
      AlgebraicExpression_EvalArbitrary
        (mulOf [transposeOf (.operand (.ptr 2)), transposeOf (.operand (.ptr 1))]) (.ptr 0)
        scenarioStore = .ok () st2 ∧
      st1.get (.ptr 0) = st2.get (.ptr 0) ∧
      st2.get (.ptr 0)
        = some (Mat.mxm (scenarioStore.val (.ptr 1)) (scenarioStore.val (.ptr 2))).transpose :=
  ⟨by decide,
    evalArbitrary_transpose_of_product (.ptr 1) (.ptr 2) (.ptr 0) scenarioStore
      (by decide) (by decide) (by decide)⟩

/-- C7: for operands `A`, `B`, `C` backed by live matrices, `Add (A, B)` and
`Add (B, A)` evaluate to the same `res`, and so do `Add (A, Add (B, C))` and
`Add (Add (A, B), C)`. -/
theorem evalArbitrary_add_comm_assoc (A B C res : GrB_Matrix) (st : Backend n)
    (hres : st.liveBelow st.next res = true)
    (hA : A ≠ res ∧ st.liveBelow st.next A = true)
    (hB : B ≠ res ∧ st.liveBelow st.next B = true)
    (hC : C ≠ res ∧ st.liveBelow st.next C = true) :
    (∃ st1 st2,
      AlgebraicExpression_EvalArbitrary (addOf [.operand A, .operand B]) res st = .ok () st1 ∧
      AlgebraicExpression_EvalArbitrary (addOf [.operand B, .operand A]) res st = .ok () st2 ∧
      st1.get res = st2.get res) ∧
    (∃ st1 st2,
      AlgebraicExpression_EvalArbitrary
        (addOf [.operand A, addOf [.operand B, .operand C]]) res st = .ok () st1 ∧
      AlgebraicExpression_EvalArbitrary
        (addOf [addOf [.operand A, .operand B], .operand C]) res st = .ok () st2 ∧
      st1.get res = st2.get res) :=
  add_comm_assoc_core A B C res st hres hA hB hC

set_option maxRecDepth 20000 in
/-- Witness for C7: the three single-bit matrices. -/
theorem evalArbitrary_add_comm_assoc_witness :
    ∃ st1 st2,
      AlgebraicExpression_EvalArbitrary
        (addOf [.operand (.ptr 1), addOf [.operand (.ptr 2), .operand (.ptr 3)]]) (.ptr 0)
        bitStore = .ok () st1 ∧
      AlgebraicExpression_EvalArbitrary
        (addOf [addOf [.operand (.ptr 1), .operand (.ptr 2)], .operand (.ptr 3)]) (.ptr 0)
        bitStore = .ok () st2 ∧
      st1.get (.ptr 0) = st2.get (.ptr 0) :=
  (evalArbitrary_add_comm_assoc (.ptr 1) (.ptr 2) (.ptr 3) (.ptr 0) bitStore
    (by decide) (by decide) (by decide) (by decide)).2

/-- C8: for `k >= 2` operands backed by live matrices, the k-ary Add completes and
leaves `res` with an entry set exactly when it is set in one of the `k` matrices,
and evaluating the Add of any permutation of the children leaves the same
matrix. -/
theorem evalArbitrary_add_operands (ms ms' : List GrB_Matrix) (res : GrB_Matrix)
    (st : Backend n) (hperm : ms.Perm ms') (hk : 2 ≤ ms.length)
    (hres : st.liveBelow st.next res = true)
    (hms : ∀ m ∈ ms, m ≠ res ∧ st.liveBelow st.next m = true) :
    ∃ st1 st2 R,
      AlgebraicExpression_EvalArbitrary
        (.operation .AL_EXP_ADD (ms.map AlgebraicExpression.operand)) res st = .ok () st1 ∧
      AlgebraicExpression_EvalArbitrary
        (.operation .AL_EXP_ADD (ms'.map AlgebraicExpression.operand)) res st = .ok () st2 ∧
      st1.get res = some R ∧ st2.get res = some R ∧
      ∀ i j : Fin n, R i j = true ↔ ∃ m ∈ ms, st.val m i j = true :=
  add_operands_core ms ms' res st hperm hk hres hms

set_option maxRecDepth 20000 in
/-- Witness for C8: three pairwise disjoint single-bit 4x4 matrices; all six
orders of the children leave `[0100, 0010, 0001, 0000]`. -/
theorem evalArbitrary_add_operands_witness :
    (∀ order ∈ [[1, 2, 3], [1, 3, 2], [2, 1, 3], [2, 3, 1], [3, 1, 2], [3, 2, 1]],
      (AlgebraicExpression_EvalArbitrary (addOf (order.map leafAt)) (.ptr 0)
          bitStore).rowsAt (.ptr 0)
        = some [[0, 1, 0, 0], [0, 0, 1, 0], [0, 0, 0, 1], [0, 0, 0, 0]]) ∧
    ∃ st1 st2 R,
      AlgebraicExpression_EvalArbitrary
        (.operation .AL_EXP_ADD
          ([GrB_Matrix.ptr 1, .ptr 2, .ptr 3].map AlgebraicExpression.operand))
        (.ptr 0) bitStore = .ok () st1 ∧
      AlgebraicExpression_EvalArbitrary
        (.operation .AL_EXP_ADD
          ([GrB_Matrix.ptr 3, .ptr 1, .ptr 2].map AlgebraicExpression.operand))
        (.ptr 0) bitStore = .ok () st2 ∧
      st1.get (.ptr 0) = some R ∧ st2.get (.ptr 0) = some R ∧
      ∀ i j : Fin 4, R i j = true ↔
        ∃ m ∈ [GrB_Matrix.ptr 1, .ptr 2, .ptr 3], bitStore.val m i j = true :=
  ⟨by decide,
    evalArbitrary_add_operands [.ptr 1, .ptr 2, .ptr 3] [.ptr 3, .ptr 1, .ptr 2] (.ptr 0)
      bitStore (by decide) (by decide) (by decide) (by decide)⟩

/-- C9: in a Multiply chain, let the accumulator `res` hold a matrix `R` with no
stored entry after the step that processes a child.  If that step was the first
product, the code goes on to the loop over the remaining children: whatever
these are, if the rest of the activation (loop and release of `inter`) completes
then `res` holds `R` at the end, and it does complete when the remaining children
are operands backed by live matrices or Multiply/Add subtrees over such operands.
If that step was a pass of the loop, the loop ends right there, in the state of
that step, whatever the remaining children are. -/
theorem multiply_empty_accumulator (fuel : Nat) (rest : List AlgebraicExpression) (r : Nat)
    (inter : Option GrB_Matrix) (st : Backend n) (R : Mat n)
    (hr : r < st.next) (hR : st.heap r = some R) (hz : R.nvals = 0)
    (hi : inter ≠ some (.ptr r)) :
    (∀ inter' st' st'',
      mulLoop (_AlgebraicExpression_EvalArbitrary fuel) (.ptr r) rest inter st = .ok inter' st' →
      freeInter inter' st' = .ok () st'' →
      st'.get (.ptr r) = some R ∧ st''.get (.ptr r) = some R) ∧
    (∀ b : Nat, b ≤ st.next → r < b → allMulAdd rest = true → depthList rest < fuel →
      (∀ m ∈ leavesList rest, m ≠ .ptr r ∧ st.liveBelow b m = true) →
      (∀ h, inter = some h → ∃ c, h = .ptr c ∧ b ≤ c ∧ st.liveBelow st.next h = true) →
      ∃ inter' st' st'',
        mulLoop (_AlgebraicExpression_EvalArbitrary fuel) (.ptr r) rest inter st
          = .ok inter' st' ∧
        freeInter inter' st' = .ok () st'') ∧
    (∀ (c : AlgebraicExpression) (more : List AlgebraicExpression)
      (inter0 inter1 : Option GrB_Matrix) (st0 st1 : Backend n),
      mulStep (_AlgebraicExpression_EvalArbitrary fuel) c (.ptr r) inter0 st0
        = .ok (inter1, 0) st1 →
      mulLoop (_AlgebraicExpression_EvalArbitrary fuel) (.ptr r) (c :: more) inter0 st0
        = .ok inter1 st1) :=
  mulLoop_empty_core fuel rest r inter st R hr hR hz hi

set_option maxRecDepth 20000 in
/-- Witness for C9: the accumulator at address 0 is empty and the remaining
children are `A` and `B`; the loop completes and the accumulator is still
empty. -/
theorem multiply_empty_accumulator_witness :
    ∃ inter' st' st'',
      mulLoop (_AlgebraicExpression_EvalArbitrary 1) (.ptr 0) [leafAt 1, leafAt 2] none
        emptyStore = .ok inter' st' ∧
      freeInter inter' st' = .ok () st'' ∧
      st''.get (.ptr 0) = some Mat.zero :=
  match (multiply_empty_accumulator 1 [leafAt 1, leafAt 2] 0 none emptyStore Mat.zero
      (by decide) rfl (by decide) (by decide)).2.1 3 (by decide) (by decide) (by decide)
      (by decide) (by decide) (by intro h hh; cases hh) with
  | ⟨i, s1, s2, e1, e2⟩ =>
    ⟨i, s1, s2, e1, e2,
      ((multiply_empty_accumulator 1 [leafAt 1, leafAt 2] 0 none emptyStore Mat.zero
        (by decide) rfl (by decide) (by decide)).1 i s1 s2 e1 e2).2⟩

set_option maxRecDepth 20000 in
/-- C10, the code at the failing input: for `Multiply (A, B, C)` with `B` all-zero
the result is the all-zero matrix, yet after the first product the loop still
issues the multiplication of `res` by `C`; and when the third child is the
operation `Add (A, C)` its recursive evaluation into a fresh scratch matrix is
started as well. -/
theorem multiply_zero_second_child_still_evaluates_third :
    (AlgebraicExpression_EvalArbitrary (mulOf [leafAt 1, leafAt 2, leafAt 3]) (.ptr 0)
        shortCircuitStore).rowsAt (.ptr 0)
      = some [[0, 0, 0, 0], [0, 0, 0, 0], [0, 0, 0, 0], [0, 0, 0, 0]] ∧
    (AlgebraicExpression_EvalArbitrary (mulOf [leafAt 1, leafAt 2, leafAt 3]) (.ptr 0)
        shortCircuitStore).state.log
      = [Call.mxm (.ptr 0) (.ptr 1) (.ptr 2) (some { INP0 := false, INP1 := false }),
         Call.mxm (.ptr 0) (.ptr 0) (.ptr 3) (some { INP0 := false, INP1 := false })] ∧
    (AlgebraicExpression_EvalArbitrary
        (mulOf [leafAt 1, leafAt 2, addOf [leafAt 1, leafAt 3]]) (.ptr 0)
        shortCircuitStore).state.log
      = [Call.mxm (.ptr 0) (.ptr 1) (.ptr 2) (some { INP0 := false, INP1 := false }),
         Call.Matrix_new (.ptr 4),
         Call.eWiseAdd (.ptr 4) (.ptr 1) (.ptr 3) (some { INP0 := false, INP1 := false }),
         Call.mxm (.ptr 0) (.ptr 0) (.ptr 4) (some { INP0 := false, INP1 := false }),
         Call.Matrix_free (.ptr 4)] := by
  decide

/-- C11: in every top-level evaluation that runs to completion the number of
scratch matrices allocated (`GrB_Matrix_new`, over all nested activations) equals
the number released (`GrB_Matrix_free`); the same holds over any sequence of
completed evaluations run one after the other. -/
theorem scratch_allocations_balanced (exp : AlgebraicExpression) (res : GrB_Matrix)
    (jobs : List (AlgebraicExpression × GrB_Matrix)) (st : Backend n)
    (h : (AlgebraicExpression_EvalArbitrary exp res st).fault? = none)
    (hs : (evalSequence jobs st).fault? = none) :
    (AlgebraicExpression_EvalArbitrary exp res st).state.allocated + st.freed =
      (AlgebraicExpression_EvalArbitrary exp res st).state.freed + st.allocated ∧
    (evalSequence jobs st).state.allocated + st.freed =
      (evalSequence jobs st).state.freed + st.allocated :=
  ⟨scratch_balanced_core exp res st h, evalSequence_balanced jobs st hs⟩

set_option maxRecDepth 20000 in
/-- Witness for C11: a nested tree whose evaluation allocates two scratch
matrices and releases two, alone and followed by a second evaluation. -/
theorem scratch_allocations_balanced_witness :
    (AlgebraicExpression_EvalArbitrary scenarioTree (.ptr 0) scenarioStore).fault? = none ∧
    (evalSequence [(scenarioTree, .ptr 0), (scenarioProduct, .ptr 0)] scenarioStore).fault?
      = none ∧
    (AlgebraicExpression_EvalArbitrary scenarioTree (.ptr 0) scenarioStore).state.allocated
      = 2 ∧
    (evalSequence [(scenarioTree, .ptr 0), (scenarioProduct, .ptr 0)]
      scenarioStore).state.allocated = 3 ∧
    ((AlgebraicExpression_EvalArbitrary scenarioTree (.ptr 0) scenarioStore).state.allocated
        + scenarioStore.freed =
      (AlgebraicExpression_EvalArbitrary scenarioTree (.ptr 0) scenarioStore).state.freed
        + scenarioStore.allocated ∧
    (evalSequence [(scenarioTree, .ptr 0), (scenarioProduct, .ptr 0)]
        scenarioStore).state.allocated + scenarioStore.freed =
      (evalSequence [(scenarioTree, .ptr 0), (scenarioProduct, .ptr 0)]
        scenarioStore).state.freed + scenarioStore.allocated) :=
  ⟨by decide, by decide, by decide, by decide,
    scratch_allocations_balanced scenarioTree (.ptr 0)
      [(scenarioTree, .ptr 0), (scenarioProduct, .ptr 0)] scenarioStore
      (by decide) (by decide)⟩

/-- C12: when `res` is none of the operand handles of the tree and every operand
is the identity sentinel or a live matrix, a completed top-level evaluation
leaves the content of every operand as it was, and every primitive it issued
writes, allocates or releases either `res` or an object allocated during the
evaluation, never an operand. -/
theorem operands_left_unchanged (exp : AlgebraicExpression) (res : GrB_Matrix)
    (st : Backend n)
    (hleaves : ∀ m ∈ exp.leaves,
      m ≠ res ∧ (m = .IDENTITY_MATRIX ∨ st.liveBelow st.next m = true))
    (h : (AlgebraicExpression_EvalArbitrary exp res st).fault? = none) :
    (∀ m ∈ exp.leaves,
      (AlgebraicExpression_EvalArbitrary exp res st).state.get m = st.get m) ∧
    ∃ extra, (AlgebraicExpression_EvalArbitrary exp res st).state.log = st.log ++ extra ∧
      ∀ c ∈ extra, (c.target = res ∨ ∃ a, c.target = .ptr a ∧ st.next ≤ a) ∧
        ∀ m ∈ exp.leaves, c.target ≠ m :=
  operands_kept_core exp res st hleaves h

set_option maxRecDepth 20000 in
/-- Witness for C12: the nested tree over `A`, `B` and the identity sentinel,
evaluated into the matrix at address 0. -/
theorem operands_left_unchanged_witness :
    (AlgebraicExpression_EvalArbitrary scenarioTree (.ptr 0) scenarioStore).rowsAt (.ptr 1)
      = some [[0, 1, 0, 0], [0, 0, 1, 0], [0, 0, 0, 1], [0, 0, 0, 0]] ∧
    (AlgebraicExpression_EvalArbitrary scenarioTree (.ptr 0) scenarioStore).rowsAt (.ptr 2)
      = some [[0, 0, 1, 0], [0, 0, 0, 1], [0, 0, 0, 0], [0, 0, 0, 0]] ∧
    ((∀ m ∈ scenarioTree.leaves,
      (AlgebraicExpression_EvalArbitrary scenarioTree (.ptr 0) scenarioStore).state.get m
        = scenarioStore.get m) ∧
    ∃ extra, (AlgebraicExpression_EvalArbitrary scenarioTree (.ptr 0) scenarioStore).state.log
        = scenarioStore.log ++ extra ∧
      ∀ c ∈ extra,
        (c.target = .ptr 0 ∨ ∃ a, c.target = .ptr a ∧ scenarioStore.next ≤ a) ∧
        ∀ m ∈ scenarioTree.leaves, c.target ≠ m) :=
  ⟨by decide, by decide,
    operands_left_unchanged scenarioTree (.ptr 0) scenarioStore (by decide) (by decide)⟩

/-- C13, as amended: the top-level entry point aborts on a root that is a bare
operand; the recursive evaluator aborts, before doing anything else, whenever it
is entered on a Transpose node whose child count is not 1 or on a Multiply or
Add node with fewer than 2 children; and for a root operation all of whose nodes
have these arities no such assertion fires. -/
theorem structural_assertions (res : GrB_Matrix) (st : Backend n) :
    (∀ m : GrB_Matrix,
      AlgebraicExpression_EvalArbitrary (.operand m) res st = .abort .RootOperand st) ∧
    (∀ (fuel : Nat) (op : AL_EXP_OP) (cs : List AlgebraicExpression),
      nodeArityOK op cs = false →
      _AlgebraicExpression_EvalArbitrary (fuel + 1) (.operation op cs) res st
        = .abort .ChildCount st) ∧
    (∀ (op : AL_EXP_OP) (cs : List AlgebraicExpression),
      (AlgebraicExpression.operation op cs).arityOK = true →
      ∀ f : Fault,
        (AlgebraicExpression_EvalArbitrary (.operation op cs) res st).fault? = some f →
        f.isShape = false) :=
  shape_assertions_core res st

set_option maxRecDepth 20000 in
/-- Witness for C13 as amended: a bare operand root, a Transpose with two children, a
Multiply with one child, and a tree with the right arities. -/
theorem structural_assertions_witness :
    AlgebraicExpression_EvalArbitrary (leafAt 1) (.ptr 0) scenarioStore
      = .abort .RootOperand scenarioStore ∧
    _AlgebraicExpression_EvalArbitrary (2 + 1)
        (.operation .AL_EXP_TRANSPOSE [leafAt 1, leafAt 2]) (.ptr 0) scenarioStore
      = .abort .ChildCount scenarioStore ∧
    _AlgebraicExpression_EvalArbitrary (2 + 1)
        (.operation .AL_EXP_MUL [leafAt 1]) (.ptr 0) scenarioStore
      = .abort .ChildCount scenarioStore ∧
    (∀ f : Fault,
      (AlgebraicExpression_EvalArbitrary
        (.operation .AL_EXP_ADD [leafAt 1, .operand .IDENTITY_MATRIX])
        (.ptr 0) scenarioStore).fault? = some f → f.isShape = false) :=
  ⟨(structural_assertions (.ptr 0) scenarioStore).1 (.ptr 1),
    (structural_assertions (.ptr 0) scenarioStore).2.1 2 .AL_EXP_TRANSPOSE [leafAt 1, leafAt 2]
      (by decide),
    (structural_assertions (.ptr 0) scenarioStore).2.1 2 .AL_EXP_MUL [leafAt 1] (by decide),
    (structural_assertions (.ptr 0) scenarioStore).2.2 .AL_EXP_ADD
      [leafAt 1, .operand .IDENTITY_MATRIX] (by decide)⟩

set_option maxRecDepth 20000 in
/-- Counterexample to C13 as stated: `Multiply (A, Z, B, Multiply ())` with `Z` all-zero has a
Multiply node without children, yet its evaluation completes, since the loop
leaves before that node is entered; and `Multiply (Transpose (A, B), B)` has a
Transpose node with two children, yet its evaluation completes, since the
Transpose is absorbed into the descriptor without being entered. -/
theorem unreached_violation_completes :
    (mulOf [leafAt 1, leafAt 2, leafAt 3, mulOf []]).arityOK = false ∧
    (AlgebraicExpression_EvalArbitrary (mulOf [leafAt 1, leafAt 2, leafAt 3, mulOf []])
        (.ptr 0) shortCircuitStore).fault? = none ∧
    (mulOf [.operation .AL_EXP_TRANSPOSE [leafAt 1, leafAt 2], leafAt 2]).arityOK = false ∧
    (AlgebraicExpression_EvalArbitrary
        (mulOf [.operation .AL_EXP_TRANSPOSE [leafAt 1, leafAt 2], leafAt 2])
        (.ptr 0) scenarioStore).fault? = none := by
  decide

/-- C14, as amended: an Add activation with the identity sentinel among its
operand children never completes, but the evaluator has no check of its own for
it: the sentinel is handed to the backend's element-wise OR as if it were a
matrix, and the evaluation stops on the failure of that primitive, with
`Add (A, I)` and `Add (I, A)` ending in a backend error right after that call. -/
theorem add_identity_reaches_backend (A res : GrB_Matrix) (st : Backend n) :
    (∀ (ev : Eval n) (op : AL_EXP_OP) (cs : List AlgebraicExpression),
      AlgebraicExpression.operand .IDENTITY_MATRIX ∈ cs →
      (_Eval_AddArbitrary ev (.operation op cs) res st).fault? ≠ none) ∧
    AlgebraicExpression_EvalArbitrary (addOf [.operand A, .operand .IDENTITY_MATRIX]) res st
      = .abort .BackendError
          (st.record (.eWiseAdd res A .IDENTITY_MATRIX (some { INP0 := false, INP1 := false })))
      ∧
    AlgebraicExpression_EvalArbitrary (addOf [.operand .IDENTITY_MATRIX, .operand A]) res st
      = .abort .BackendError
          (st.record (.eWiseAdd res .IDENTITY_MATRIX A (some { INP0 := false, INP1 := false }))) :=
  add_identity_core A res st

set_option maxRecDepth 20000 in
/-- Witness for C14 as amended: `Add (A, B, I)` under the recursive evaluator does not
complete. -/
theorem add_identity_reaches_backend_witness :
    (_Eval_AddArbitrary (_AlgebraicExpression_EvalArbitrary 1)
      (.operation .AL_EXP_ADD [leafAt 1, leafAt 2, .operand .IDENTITY_MATRIX])
      (.ptr 0) scenarioStore).fault? ≠ none ∧
    (_Eval_AddArbitrary (_AlgebraicExpression_EvalArbitrary 1)
      (.operation .AL_EXP_ADD [leafAt 1, leafAt 2, .operand .IDENTITY_MATRIX])
      (.ptr 0) scenarioStore).fault? = some .BackendError :=
  ⟨(add_identity_reaches_backend (.ptr 1) (.ptr 0) scenarioStore).1
      (_AlgebraicExpression_EvalArbitrary 1) .AL_EXP_ADD
      [leafAt 1, leafAt 2, .operand .IDENTITY_MATRIX] (by simp),
    by decide⟩

set_option maxRecDepth 20000 in
/-- Counterexample to C14 as stated: evaluating `Add (A, I)` issues the element-wise OR with
the sentinel as its second input and stops on the backend error, not on an
assertion of the evaluator. -/
theorem add_identity_not_detected :
    (AlgebraicExpression_EvalArbitrary (addOf [leafAt 1, .operand .IDENTITY_MATRIX])
        (.ptr 0) scenarioStore).fault? = some .BackendError ∧
    (AlgebraicExpression_EvalArbitrary (addOf [leafAt 1, .operand .IDENTITY_MATRIX])
        (.ptr 0) scenarioStore).state.log
      = [Call.eWiseAdd (.ptr 0) (.ptr 1) .IDENTITY_MATRIX
          (some { INP0 := false, INP1 := false })] := by
  decide

set_option maxRecDepth 20000 in
/-- C15, the code at the failing input: for the root `Transpose (A)` with `A` an
operand the only primitive issued is the transposition of `res` into itself;
`res` ends as the transpose of what it held before (the identity when it held
the identity, the transpose of `B` when `res` is the handle of `B`), not as the
transpose of `A`. -/
theorem root_transpose_of_operand_transposes_res :
    (AlgebraicExpression_EvalArbitrary (transposeOf (leafAt 1)) (.ptr 0)
        scenarioStore).rowsAt (.ptr 0)
      = some [[1, 0, 0, 0], [0, 1, 0, 0], [0, 0, 1, 0], [0, 0, 0, 1]] ∧
    scenarioA.transpose.rows = [[0, 0, 0, 0], [1, 0, 0, 0], [0, 1, 0, 0], [0, 0, 1, 0]] ∧
    (AlgebraicExpression_EvalArbitrary (transposeOf (leafAt 1)) (.ptr 0)
        scenarioStore).state.log = [Call.transpose (.ptr 0) (.ptr 0)] ∧
    (AlgebraicExpression_EvalArbitrary (transposeOf (leafAt 1)) (.ptr 2)
        scenarioStore).rowsAt (.ptr 2)
      = some [[0, 0, 0, 0], [0, 0, 0, 0], [1, 0, 0, 0], [0, 1, 0, 0]] := by
  decide

set_option maxRecDepth 20000 in
/-- C16, the code at the failing input: for `Multiply (A, B, Transpose (B))` over
single-entry operands the loop allocates the scratch matrix, transposes it into
itself while it is still empty, and multiplies `res` by it with `INP1`
transposed, so `res` ends empty where `A * B * Bt` has an entry; for
`Multiply (A, B, Transpose (C + C))` the Transpose node is evaluated into the
scratch matrix and then read transposed again, so `res` ends as `A * B * (C + C)`
and not as `A * B * (C + C)t`. -/
theorem multiply_loop_transpose_not_descended :
    (AlgebraicExpression_EvalArbitrary (mulOf [leafAt 1, leafAt 2, transposeOf (leafAt 2)])
        (.ptr 0) bitStore).rowsAt (.ptr 0)
      = some [[0, 0, 0, 0], [0, 0, 0, 0], [0, 0, 0, 0], [0, 0, 0, 0]] ∧
    (Mat.mxm (Mat.mxm bit01 bit12) bit12.transpose).rows
      = [[0, 1, 0, 0], [0, 0, 0, 0], [0, 0, 0, 0], [0, 0, 0, 0]] ∧
    (AlgebraicExpression_EvalArbitrary (mulOf [leafAt 1, leafAt 2, transposeOf (leafAt 2)])
        (.ptr 0) bitStore).state.log
      = [Call.mxm (.ptr 0) (.ptr 1) (.ptr 2) (some { INP0 := false, INP1 := false }),
         Call.Matrix_new (.ptr 4),
         Call.transpose (.ptr 4) (.ptr 4),
         Call.mxm (.ptr 0) (.ptr 0) (.ptr 4) (some { INP0 := false, INP1 := true }),
         Call.Matrix_free (.ptr 4)] ∧
    (AlgebraicExpression_EvalArbitrary
        (mulOf [leafAt 1, leafAt 2, transposeOf (addOf [leafAt 3, leafAt 3])])
        (.ptr 0) bitStore).rowsAt (.ptr 0)
      = some [[0, 0, 0, 1], [0, 0, 0, 0], [0, 0, 0, 0], [0, 0, 0, 0]] ∧
    (Mat.mxm (Mat.mxm bit01 bit12) (Mat.eWiseAdd bit23 bit23).transpose).rows
      = [[0, 0, 0, 0], [0, 0, 0, 0], [0, 0, 0, 0], [0, 0, 0, 0]] ∧
    (Mat.mxm (Mat.mxm bit01 bit12) (Mat.eWiseAdd bit23 bit23)).rows
      = [[0, 0, 0, 1], [0, 0, 0, 0], [0, 0, 0, 0], [0, 0, 0, 0]] := by
  decide

set_option maxRecDepth 20000 in
/-- C17, the code at the failing input: for `Add (A, B, Transpose (C))` over
single-entry operands the element-wise OR of the loop is issued with `GrB_NULL`
as descriptor, on a scratch matrix that was transposed into itself while still
empty; `res` ends as `A OR B`, without the entry of `Ct`. -/
theorem add_loop_transpose_descriptor_dropped :
    (AlgebraicExpression_EvalArbitrary (addOf [leafAt 1, leafAt 2, transposeOf (leafAt 3)])
        (.ptr 0) bitStore).rowsAt (.ptr 0)
      = some [[0, 1, 0, 0], [0, 0, 1, 0], [0, 0, 0, 0], [0, 0, 0, 0]] ∧
    (Mat.eWiseAdd (Mat.eWiseAdd bit01 bit12) bit23.transpose).rows
      = [[0, 1, 0, 0], [0, 0, 1, 0], [0, 0, 0, 0], [0, 0, 1, 0]] ∧
    (AlgebraicExpression_EvalArbitrary (addOf [leafAt 1, leafAt 2, transposeOf (leafAt 3)])
        (.ptr 0) bitStore).state.log
      = [Call.eWiseAdd (.ptr 0) (.ptr 1) (.ptr 2) (some { INP0 := false, INP1 := false }),
         Call.Matrix_new (.ptr 4),
         Call.transpose (.ptr 4) (.ptr 4),
         Call.eWiseAdd (.ptr 0) (.ptr 0) (.ptr 4) none,
         Call.Matrix_free (.ptr 4)] := by
  decide

/-- C18: for a Multiply over operands whose first child is a live matrix and
whose other children are each the identity sentinel or a live matrix other than
`res`, the evaluation completes and leaves `res` equal to the boolean product, in
order, of the children other than the sentinel. -/
theorem multiply_identity_neutral (m : GrB_Matrix) (ms : List GrB_Matrix)
    (res : GrB_Matrix) (st : Backend n) (hk : 1 ≤ ms.length)
    (hres : st.liveBelow st.next res = true)
    (hm : st.liveBelow st.next m = true)
    (hms : ∀ x ∈ ms, x = .IDENTITY_MATRIX ∨ (x ≠ res ∧ st.liveBelow st.next x = true)) :
    ∃ st', AlgebraicExpression_EvalArbitrary
        (mulOf ((m :: ms).map AlgebraicExpression.operand)) res st = .ok () st' ∧
      st'.get res = some (Mat.prod ((nonIdentity (m :: ms)).map st.val)) :=
  multiply_skips_identity_core m ms res st hk hres hm hms

set_option maxRecDepth 20000 in
/-- Witness for C18: `Multiply (A, B, I)` and `Multiply (A, I, B)` both leave
`A * B = [0001, 0000, 0000, 0000]` in `res`. -/
theorem multiply_identity_neutral_witness :
    (AlgebraicExpression_EvalArbitrary
        (mulOf [leafAt 1, leafAt 2, .operand .IDENTITY_MATRIX]) (.ptr 0)
        scenarioStore).rowsAt (.ptr 0)
      = some [[0, 0, 0, 1], [0, 0, 0, 0], [0, 0, 0, 0], [0, 0, 0, 0]] ∧
    (AlgebraicExpression_EvalArbitrary
        (mulOf [leafAt 1, .operand .IDENTITY_MATRIX, leafAt 2]) (.ptr 0)
        scenarioStore).rowsAt (.ptr 0)
      = some [[0, 0, 0, 1], [0, 0, 0, 0], [0, 0, 0, 0], [0, 0, 0, 0]] ∧
    (Mat.mxm scenarioA scenarioB).rows
      = [[0, 0, 0, 1], [0, 0, 0, 0], [0, 0, 0, 0], [0, 0, 0, 0]] ∧
    (∃ st', AlgebraicExpression_EvalArbitrary
        (mulOf ((GrB_Matrix.ptr 1 :: [.ptr 2, .IDENTITY_MATRIX]).map
          AlgebraicExpression.operand)) (.ptr 0) scenarioStore = .ok () st' ∧
      st'.get (.ptr 0) = some (Mat.prod
        ((nonIdentity (GrB_Matrix.ptr 1 :: [.ptr 2, .IDENTITY_MATRIX])).map
          scenarioStore.val))) ∧
    (∃ st', AlgebraicExpression_EvalArbitrary
        (mulOf ((GrB_Matrix.ptr 1 :: [.IDENTITY_MATRIX, .ptr 2]).map
          AlgebraicExpression.operand)) (.ptr 0) scenarioStore = .ok () st' ∧
      st'.get (.ptr 0) = some (Mat.prod
        ((nonIdentity (GrB_Matrix.ptr 1 :: [.IDENTITY_MATRIX, .ptr 2])).map
          scenarioStore.val))) :=
  ⟨by decide, by decide, by decide,
    multiply_identity_neutral (.ptr 1) [.ptr 2, .IDENTITY_MATRIX] (.ptr 0) scenarioStore
      (by decide) (by decide) (by decide) (by decide),
    multiply_identity_neutral (.ptr 1) [.IDENTITY_MATRIX, .ptr 2] (.ptr 0) scenarioStore
      (by decide) (by decide) (by decide) (by decide)⟩

set_option maxRecDepth 20000 in
/-- C20, the code at the failing input: the recursive evaluator called on
`Transpose (A)` with `A` an operand returns the destination it was given, but
the destination then holds the transpose of what it held before the call (the
identity for a destination that held the identity, `Bt` when the destination is
the handle of `B`), not `At`, the result of the operation; the only primitive
issued is the transposition of the destination into itself.  Called on the
operand `A` itself it returns the handle of `A` and issues no primitive. -/
theorem recursive_transpose_of_operand_returns_stale_res :
    (_AlgebraicExpression_EvalArbitrary 2 (transposeOf (leafAt 1)) (.ptr 0)
        scenarioStore).value? = some (.ptr 0) ∧
    (_AlgebraicExpression_EvalArbitrary 2 (transposeOf (leafAt 1)) (.ptr 0)
        scenarioStore).rowsAt (.ptr 0)
      = some [[1, 0, 0, 0], [0, 1, 0, 0], [0, 0, 1, 0], [0, 0, 0, 1]] ∧
    scenarioA.transpose.rows = [[0, 0, 0, 0], [1, 0, 0, 0], [0, 1, 0, 0], [0, 0, 1, 0]] ∧
    (_AlgebraicExpression_EvalArbitrary 2 (transposeOf (leafAt 1)) (.ptr 0)
        scenarioStore).state.log = [Call.transpose (.ptr 0) (.ptr 0)] ∧
    (_AlgebraicExpression_EvalArbitrary 2 (transposeOf (leafAt 1)) (.ptr 2)
        scenarioStore).value? = some (.ptr 2) ∧
    (_AlgebraicExpression_EvalArbitrary 2 (transposeOf (leafAt 1)) (.ptr 2)
        scenarioStore).rowsAt (.ptr 2)
      = some [[0, 0, 0, 0], [0, 0, 0, 0], [1, 0, 0, 0], [0, 1, 0, 0]] ∧
    (_AlgebraicExpression_EvalArbitrary 2 (leafAt 1) (.ptr 0) scenarioStore).value?
      = some (.ptr 1) ∧
    (_AlgebraicExpression_EvalArbitrary 2 (leafAt 1) (.ptr 0) scenarioStore).state.log = [] := by
  decide

set_option maxRecDepth 20000 in
/-- C21, the code at the failing input: the range `[1, 5]` tightened with `EQ 7`,
where `7` lies outside the range, comes back unchanged and marked valid; it
still contains `3`, which was in the range but is not equal to `7`.  The string
range `["b", "f")` tightened with `EQ "h"` is marked invalid and contains
nothing. -/
theorem numeric_eq_outside_stays_valid :
    rangeOneToFive
      = { min := .fin 1, max := .fin 5, include_min := true, include_max := true,
          valid := true } ∧
    NumericRange_ContainsValue rangeOneToFive (.fin 7) = false ∧
    NumericRange_TightenRange rangeOneToFive .EQ (.fin 7) = rangeOneToFive ∧
    NumericRange_ContainsValue (NumericRange_TightenRange rangeOneToFive .EQ (.fin 7)) (.fin 3)
      = true ∧
    (NumericRange_ContainsValue rangeOneToFive (.fin 3) && Double.satisfies .EQ (.fin 3) (.fin 7))
      = false ∧
    StringRange_ContainsValue rangeBToF [104] = false ∧
    (StringRange_TightenRange rangeBToF .EQ [104]).valid = false ∧
    StringRange_ContainsValue (StringRange_TightenRange rangeBToF .EQ [104]) [99] = false := by
  decide

/-- C22: for a string range whose validity flag is set, an operator among `LT`,
`LE`, `GT`, `GE`, `EQ`, a bound `v` and a string `x`, with strings ordered by
`strcmp`: after `StringRange_TightenRange` the range contains `x` exactly when it
contained `x` before and `x op v` holds (any other operator adds no condition);
and a range whose validity flag is cleared is left as it is by tightening and
contains no string. -/
theorem string_tighten_contains (range : StringRange) (op : RangeOp) (v x : CString) :
    (range.valid = true →
      StringRange_ContainsValue (StringRange_TightenRange range op v) x =
        (StringRange_ContainsValue range x && strSatisfies op x v)) ∧
    (range.valid = false →
      StringRange_TightenRange range op v = range ∧
        StringRange_ContainsValue range x = false) :=
  ⟨string_tighten_core range op v x, string_invalid_core range op v x⟩

set_option maxRecDepth 20000 in
/-- Witness for C22: the range `["b", "f")` tightened with `LE "d"` contains `"c"`
and no longer contains `"e"`; tightened with `EQ "h"` it is marked invalid, and
stays as it is under a further `GT "a"`. -/
theorem string_tighten_contains_witness :
    StringRange_ContainsValue (StringRange_TightenRange rangeBToF .LE [100]) [99] = true ∧
    StringRange_ContainsValue rangeBToF [101] = true ∧
    StringRange_ContainsValue (StringRange_TightenRange rangeBToF .LE [100]) [101] = false ∧
    StringRange_ContainsValue (StringRange_TightenRange rangeBToF .LE [100]) [99] =
      (StringRange_ContainsValue rangeBToF [99] && strSatisfies .LE [99] [100]) ∧
    (StringRange_TightenRange (StringRange_TightenRange rangeBToF .EQ [104]) .GT [97]
        = StringRange_TightenRange rangeBToF .EQ [104] ∧
      StringRange_ContainsValue (StringRange_TightenRange rangeBToF .EQ [104]) [99] = false) :=
  ⟨by decide, by decide, by decide,
    (string_tighten_contains rangeBToF .LE [100] [99]).1 (by decide),
    (string_tighten_contains (StringRange_TightenRange rangeBToF .EQ [104]) .GT [97] [99]).2
      (by decide)⟩

end Claims

end RedisGraph
